import Mathlib

/-!
Verification of the graph rewriting core (`src/core/src/graph_rewrite.cpp`).

The C++ code operates on labeled directed multigraphs (`robot_design::Graph`)
with `std::size_t` indices (`NodeIndex`, `EdgeIndex`).  The sentinel `-1`
stored in a `size_t` translation table is `2^64 - 1`; we model indices as
`Nat` and the sentinel as the explicit constant `2^64 - 1`.  Attribute
bundles are modelled by the fields the engine reads: the `label` string
(compared for equality) and, for nodes, the `name` string (used in error
messages); any further attribute payload is untouched by the engine and is
represented by those fields.
-/

namespace RobotDesign

/-- `(size_t)(-1)`, the "absent" sentinel used in translation tables. -/
def sentinel : Nat := 2 ^ 64 - 1

/-- Node attribute bundle; the engine reads only the `label` string. -/
structure NodeAttrs where
  label : String
deriving DecidableEq, Repr, Inhabited

/-- A graph node: `name_` and attribute bundle `attrs_`. -/
structure Node where
  name : String
  attrs : NodeAttrs
deriving DecidableEq, Repr, Inhabited

/-- Edge attribute bundle; the engine reads only the `label` string. -/
structure EdgeAttrs where
  label : String
deriving DecidableEq, Repr, Inhabited

/-- A directed edge `tail_ -> head_` with attribute bundle `attrs_`. -/
structure Edge where
  head : Nat
  tail : Nat
  attrs : EdgeAttrs
deriving DecidableEq, Repr, Inhabited

/-- A named subgraph view: sets of node and edge indices into the parent
graph (the C++ stores index sets; only membership is consulted). -/
structure Subgraph where
  name : String
  nodes : List Nat
  edges : List Nat
deriving DecidableEq, Repr, Inhabited

/-- A labeled directed multigraph with ordered node/edge sequences. -/
structure Graph where
  nodes : List Node
  edges : List Edge
  subgraphs : List Subgraph
deriving DecidableEq, Repr, Inhabited

/-- A correspondence between a source and a destination graph. -/
structure GraphMapping where
  node_mapping : List Nat
  edge_mapping : List (List Nat)
deriving DecidableEq, Repr, Inhabited

/-- A DPO rule: `lhs_` (L), `rhs_` (R), `common_` (K) and the two
injections `common_to_lhs_`, `common_to_rhs_`. -/
structure Rule where
  lhs : Graph
  rhs : Graph
  common : Graph
  common_to_lhs : GraphMapping
  common_to_rhs : GraphMapping
deriving DecidableEq, Repr, Inhabited

/-! ## `createRuleFromGraph` (graph_rewrite.cpp lines 10-121) -/

/-- Mutable state of `createRuleFromGraph`: the rule under construction,
the three per-node translation tables, and the two per-side label maps.
The C++ label maps are `std::unordered_map`; only `emplace` (insert if
absent) and `find` are used, which association lists model exactly.  The
final iteration order of `lhs_label_to_edge` (lines 106-118) is
unspecified in C++; the embedding iterates in insertion order. -/
structure CompileSt where
  rule : Rule
  g2l : List Nat
  g2r : List Nat
  g2c : List Nat
  lhsLabelToEdge : List (String × Nat)
  rhsLabelToEdge : List (String × Nat)
deriving Repr, Inhabited

/-- Body of the node loop (lines 32-54) for graph node `i`. -/
def compileNodeStep (lhsSub rhsSub : Subgraph) (st : CompileSt) (i : Nat)
    (node : Node) : Except String CompileSt :=
  let nodeInLhs := decide (i ∈ lhsSub.nodes)
  let nodeInRhs := decide (i ∈ rhsSub.nodes)
  let st := if nodeInLhs then
      { st with rule.lhs.nodes := st.rule.lhs.nodes ++ [node],
                g2l := st.g2l.set i st.rule.lhs.nodes.length }
    else st
  let st := if nodeInRhs then
      { st with rule.rhs.nodes := st.rule.rhs.nodes ++ [node],
                g2r := st.g2r.set i st.rule.rhs.nodes.length }
    else st
  let st := if nodeInLhs && nodeInRhs then
      { st with rule.common.nodes := st.rule.common.nodes ++ [node],
                rule.common_to_lhs.node_mapping :=
                  st.rule.common_to_lhs.node_mapping ++
                    [st.rule.lhs.nodes.length - 1],
                rule.common_to_rhs.node_mapping :=
                  st.rule.common_to_rhs.node_mapping ++
                    [st.rule.rhs.nodes.length - 1],
                g2c := st.g2c.set i st.rule.common.nodes.length }
    else st
  if !nodeInLhs && !nodeInRhs then
    .error ("Node \"" ++ node.name ++ "\" is in neither the LHS nor the RHS")
  else
    .ok st

/-- The node loop, processing `nodes` with absolute indices from `i`. -/
def compileNodesGo (lhsSub rhsSub : Subgraph) (i : Nat) :
    List Node → CompileSt → Except String CompileSt
  | [], st => .ok st
  | node :: rest, st => do
      let st ← compileNodeStep lhsSub rhsSub st i node
      compileNodesGo lhsSub rhsSub (i + 1) rest st

/-- Body of the edge loop (lines 61-103) for graph edge `m`. -/
def compileEdgeStep (lhsSub rhsSub : Subgraph) (st : CompileSt) (m : Nat)
    (edge : Edge) : Except String CompileSt := do
  let edgeInLhs := decide (m ∈ lhsSub.edges)
  let edgeInRhs := decide (m ∈ rhsSub.edges)
  let label := edge.attrs.label
  let st ← if edgeInLhs then
      let newEdge : Edge := { edge with
        head := st.g2l.getD edge.head sentinel,
        tail := st.g2l.getD edge.tail sentinel }
      let st := { st with rule.lhs.edges := st.rule.lhs.edges ++ [newEdge] }
      if label ≠ "" then
        if (st.lhsLabelToEdge.lookup label).isSome then
          Except.error ("Edge label \"" ++ label ++
            "\" is used more than once in the LHS")
        else
          Except.ok { st with lhsLabelToEdge :=
            st.lhsLabelToEdge ++ [(label, st.rule.lhs.edges.length - 1)] }
      else Except.ok st
    else Except.ok st
  let st ← if edgeInRhs then
      let newEdge : Edge := { edge with
        head := st.g2r.getD edge.head sentinel,
        tail := st.g2r.getD edge.tail sentinel }
      let st := { st with rule.rhs.edges := st.rule.rhs.edges ++ [newEdge] }
      if label ≠ "" then
        if (st.rhsLabelToEdge.lookup label).isSome then
          Except.error ("Edge label \"" ++ label ++
            "\" is used more than once in the RHS")
        else
          Except.ok { st with rhsLabelToEdge :=
            st.rhsLabelToEdge ++ [(label, st.rule.rhs.edges.length - 1)] }
      else Except.ok st
    else Except.ok st
  if edgeInLhs && edgeInRhs then
    .error ("Edge is in both the \"L\" and \"R\" subgraphs, use separate " ++
      "edges with the same label instead")
  else if !edgeInLhs && !edgeInRhs then
    .error "Edge is in neither the LHS nor the RHS"
  else
    .ok st

/-- The edge loop, processing `edges` with absolute indices from `m`. -/
def compileEdgesGo (lhsSub rhsSub : Subgraph) (m : Nat) :
    List Edge → CompileSt → Except String CompileSt
  | [], st => .ok st
  | edge :: rest, st => do
      let st ← compileEdgeStep lhsSub rhsSub st m edge
      compileEdgesGo lhsSub rhsSub (m + 1) rest st

/-- One iteration of the common-edge loop (lines 106-118) for entry
`p = (label, lhs edge index)` of the LHS label map. -/
def commonEdgeStep (st : CompileSt) (p : String × Nat) : CompileSt :=
  match st.rhsLabelToEdge.lookup p.1 with
  | some mRhs =>
      { st with
        rule.common.edges := st.rule.common.edges ++
          [{ head := 0, tail := 0, attrs := { label := p.1 } }],
        rule.common_to_lhs.edge_mapping :=
          st.rule.common_to_lhs.edge_mapping ++ [[p.2]],
        rule.common_to_rhs.edge_mapping :=
          st.rule.common_to_rhs.edge_mapping ++ [[mRhs]] }
  | none => st

/-- The common-edge loop (lines 106-118): for every label on both sides,
synthesize one `K`-edge with dummy endpoints and push the paired edge
indices as singleton lists. -/
def compileCommonEdges (st : CompileSt) : CompileSt :=
  st.lhsLabelToEdge.foldl commonEdgeStep st

/-- `createRuleFromGraph` (lines 10-121): split an annotated graph into a
DPO rule, reporting structural errors as `Except.error`. -/
def createRuleFromGraph (graph : Graph) : Except String Rule := do
  let some lhsSub := graph.subgraphs.find? (fun s => s.name == "L")
    | .error "Graph must contain subgraphs named \"L\" and \"R\""
  let some rhsSub := graph.subgraphs.find? (fun s => s.name == "R")
    | .error "Graph must contain subgraphs named \"L\" and \"R\""
  let st0 : CompileSt :=
    { rule := default,
      g2l := List.replicate graph.nodes.length sentinel,
      g2r := List.replicate graph.nodes.length sentinel,
      g2c := List.replicate graph.nodes.length sentinel,
      lhsLabelToEdge := [],
      rhsLabelToEdge := [] }
  let st1 ← compileNodesGo lhsSub rhsSub 0 graph.nodes st0
  let st2 ← compileEdgesGo lhsSub rhsSub 0 graph.edges st1
  .ok (compileCommonEdges st2).rule

/-! ## Spec-level description of the compiled rule

These definitions restate what the node and edge loops of
`createRuleFromGraph` produce, in closed form; the lemmas below prove the
loops compute them. -/

/-- The side-graph index assigned to graph node `v` of a side subgraph:
the number of side members before `v`. -/
def sideIdx (sel : List Nat) (v : Nat) : Nat :=
  ((List.range v).filter (fun x => decide (x ∈ sel))).length

/-- Nodes of a side graph after the first `i` graph nodes are processed:
the members of the side, in graph order. -/
def selNodesUpTo (g : Graph) (sel : List Nat) (i : Nat) : List Node :=
  ((List.range i).filter (fun v => decide (v ∈ sel))).map
    (fun v => g.nodes.getD v default)

/-- Graph-node indices selected by membership in both subgraph node sets,
among the first `i`. -/
def bothSel (l r : Subgraph) (i : Nat) : List Nat :=
  (List.range i).filter (fun v => decide (v ∈ l.nodes) && decide (v ∈ r.nodes))

/-- `common_` nodes after the first `i` graph nodes are processed. -/
def bothNodesUpTo (g : Graph) (l r : Subgraph) (i : Nat) : List Node :=
  (bothSel l r i).map (fun v => g.nodes.getD v default)

/-- A node translation table (`graph_to_*_node`) after the first `i`
graph nodes are processed. -/
def nodeTab (g : Graph) (sel : List Nat) (i : Nat) : List Nat :=
  (List.range g.nodes.length).map
    (fun v => if v < i ∧ v ∈ sel then sideIdx sel v else sentinel)

/-- The `graph_to_common_node` table after the first `i` nodes. -/
def bothTab (g : Graph) (l r : Subgraph) (i : Nat) : List Nat :=
  (List.range g.nodes.length).map
    (fun v => if v < i ∧ v ∈ l.nodes ∧ v ∈ r.nodes
      then ((bothSel l r v).length) else sentinel)

/-- The canonical state after the node loop has processed graph nodes
`0, …, i-1` (all of them members of `L ∪ R`). -/
def nodeStAt (g : Graph) (l r : Subgraph) (i : Nat) : CompileSt :=
  { rule :=
      { lhs := ⟨selNodesUpTo g l.nodes i, [], []⟩,
        rhs := ⟨selNodesUpTo g r.nodes i, [], []⟩,
        common := ⟨bothNodesUpTo g l r i, [], []⟩,
        common_to_lhs := ⟨(bothSel l r i).map (sideIdx l.nodes), []⟩,
        common_to_rhs := ⟨(bothSel l r i).map (sideIdx r.nodes), []⟩ },
    g2l := nodeTab g l.nodes i,
    g2r := nodeTab g r.nodes i,
    g2c := bothTab g l r i,
    lhsLabelToEdge := [],
    rhsLabelToEdge := [] }

/-- Endpoint translation through a final node translation table. -/
def nodeXlat (g : Graph) (sel : List Nat) (v : Nat) : Nat :=
  if v < g.nodes.length ∧ v ∈ sel then sideIdx sel v else sentinel

/-- The side-graph index assigned to graph edge `x` of a side. -/
def sideEdgeIdx (sel : List Nat) (x : Nat) : Nat :=
  ((List.range x).filter (fun m => decide (m ∈ sel))).length

/-- Edges of a side graph after the first `m` graph edges are processed:
side members in graph order, endpoints rewritten through the side's node
translation table. -/
def selEdgesUpTo (g : Graph) (subSel : Subgraph) (m : Nat) : List Edge :=
  ((List.range m).filter (fun x => decide (x ∈ subSel.edges))).map
    (fun x =>
      let e := g.edges.getD x default
      { e with head := nodeXlat g subSel.nodes e.head,
               tail := nodeXlat g subSel.nodes e.tail })

/-- A side's label map after the first `m` graph edges are processed. -/
def labelMapUpTo (g : Graph) (subSel : Subgraph) (m : Nat) :
    List (String × Nat) :=
  ((List.range m).filter (fun x => decide (x ∈ subSel.edges) &&
      !((g.edges.getD x default).attrs.label == ""))).map
    (fun x => ((g.edges.getD x default).attrs.label,
               sideEdgeIdx subSel.edges x))

/-- The canonical state after the edge loop has processed graph edges
`0, …, m-1` without error. -/
def edgeStAt (g : Graph) (l r : Subgraph) (m : Nat) : CompileSt :=
  { nodeStAt g l r g.nodes.length with
      rule.lhs.edges := selEdgesUpTo g l m,
      rule.rhs.edges := selEdgesUpTo g r m,
      lhsLabelToEdge := labelMapUpTo g l m,
      rhsLabelToEdge := labelMapUpTo g r m }

/-- What the edge-loop body requires of graph edge `k` to not throw:
membership in exactly one side, and a fresh label on that side (when the
label is non-empty). -/
def edgeCond (g : Graph) (l r : Subgraph) (k : Nat) : Prop :=
  let lbl := (g.edges.getD k default).attrs.label
  (k ∈ l.edges ∨ k ∈ r.edges) ∧ ¬(k ∈ l.edges ∧ k ∈ r.edges) ∧
  (k ∈ l.edges → lbl ≠ "" → ((labelMapUpTo g l k).lookup lbl) = none) ∧
  (k ∈ r.edges → lbl ≠ "" → ((labelMapUpTo g r k).lookup lbl) = none)

instance (g : Graph) (l r : Subgraph) (k : Nat) :
    Decidable (edgeCond g l r k) := by
  unfold edgeCond; infer_instance

/-! ## `findMatches` (graph_rewrite.cpp lines 123-220) -/

/-- Node label test (lines 149-156): pattern node `i` may map to target
node `j` unless the pattern label is non-empty and differs. -/
def labelTest (pattern target : Graph) (i j : Nat) : Bool :=
  let pl := (pattern.nodes.getD i default).attrs.label
  pl == "" || pl == (target.nodes.getD j default).attrs.label

/-- Partial edge test (lines 158-190): every pattern edge closed by the
partial mapping `w` (speculative last entry `j` for pattern node `i`) must
be witnessed by some target edge.  `w` includes the speculative entry, as
the C++ reads `pm.node_mapping_` directly. -/
def edgeTest (pattern target : Graph) (w : List Nat) (i j : Nat) : Bool :=
  pattern.edges.all fun pe =>
    if pe.head == i && pe.tail ≤ i then
      target.edges.any fun te =>
        te.head == j && te.tail == w.getD pe.tail 0
    else if pe.tail == i && pe.head ≤ i then
      target.edges.any fun te =>
        te.tail == j && te.head == w.getD pe.head 0
    else true

/-- Edge-mapping materialization (lines 198-209): for each pattern edge,
the indices of all target edges between the mapped endpoints, in order. -/
def matchEdgeMapping (pattern target : Graph) (w : List Nat) :
    List (List Nat) :=
  pattern.edges.map fun pe =>
    (List.range target.edges.length).filter fun n =>
      (target.edges.getD n default).head == w.getD pe.head 0 &&
      (target.edges.getD n default).tail == w.getD pe.tail 0

/-- The complete match recorded for a full node embedding `w` (line 196
with lines 198-209). -/
def mkMatch (pattern target : Graph) (w : List Nat) : GraphMapping :=
  ⟨w, matchEdgeMapping pattern target w⟩

/-- Increment the speculative last entry of a partial mapping (`++j`). -/
def bumpLast (w : List Nat) : List Nat :=
  w.dropLast ++ [w.getLastD 0 + 1]

/-- One `while` loop of `findMatches` (lines 132-217), run with explicit
fuel (the C++ loop is unbounded; the fuel below is proven sufficient).
The stack is kept top-first (`partial_matches.back()` is the head). -/
def matchLoop (pattern target : Graph) :
    Nat → List GraphMapping → List GraphMapping → Option (List GraphMapping)
  | 0, _, _ => none
  | _ + 1, [], ms => some ms
  | fuel + 1, pm :: rest, ms =>
    let w := pm.node_mapping
    let i := w.length - 1
    let j := w.getLastD 0
    if target.nodes.length ≤ j then
      -- backtrack (lines 139-147)
      match rest with
      | [] => matchLoop pattern target fuel [] ms
      | parent :: rest =>
          matchLoop pattern target fuel
            ({ parent with node_mapping := bumpLast parent.node_mapping }
              :: rest) ms
    else if !labelTest pattern target i j then
      matchLoop pattern target fuel
        ({ pm with node_mapping := bumpLast w } :: rest) ms
    else if !edgeTest pattern target w i j then
      matchLoop pattern target fuel
        ({ pm with node_mapping := bumpLast w } :: rest) ms
    else if w.length == pattern.nodes.length then
      -- record a complete match (lines 194-210)
      matchLoop pattern target fuel
        ({ pm with node_mapping := bumpLast w } :: rest)
        (ms ++ [mkMatch pattern target w])
    else
      -- recurse (lines 211-216)
      matchLoop pattern target fuel
        (⟨w ++ [0], pm.edge_mapping⟩ :: pm :: rest) ms

/-- Fuel sufficient for `matchLoop` (proven below): the loop performs at
most `(|T.nodes| + 2) ^ |P.nodes| + 1` iterations. -/
def matchFuel (pattern target : Graph) : Nat :=
  (target.nodes.length + 2) ^ pattern.nodes.length + 2

/-- `findMatches` (lines 123-220): all embeddings of `pattern` into
`target`, initial stack `{GraphMapping{{0}}}`. -/
def findMatches (pattern target : Graph) : List GraphMapping :=
  (matchLoop pattern target (matchFuel pattern target) [⟨[0], []⟩] []).getD []

/-! ## `applyRule` (graph_rewrite.cpp lines 222-302)

Where the C++ indexes a vector out of range (undefined behavior there),
the embedding reads a default (`sentinel` for translation tables, whose
absent entries hold `sentinel` anyway; `default` for element vectors).
-/

/-- Translate an edge's endpoints through a translation table. -/
def xlatEdge (tab : List Nat) (e : Edge) : Edge :=
  { e with head := tab.getD e.head sentinel, tail := tab.getD e.tail sentinel }

/-- Step of "copy target nodes not in LHS to result" (lines 233-238). -/
def keepNodeStep (target : Graph) (nm : List Nat)
    (s : List Node × List Nat) (i : Nat) : List Node × List Nat :=
  if i ∈ nm then s
  else (s.1 ++ [target.nodes.getD i default], s.2.set i s.1.length)

/-- Step of "copy target nodes in LHS to result if they are in common
with the RHS" (lines 241-246); only the target-to-result table is
updated, `rhs_to_result_node` is left untouched. -/
def commonNodeStep (rule : Rule) (target : Graph) (nm : List Nat)
    (s : List Node × List Nat) (i : Nat) : List Node × List Nat :=
  let lhsNode := rule.common_to_lhs.node_mapping.getD i 0
  let targetNode := nm.getD lhsNode 0
  (s.1 ++ [target.nodes.getD targetNode default],
   s.2.set targetNode s.1.length)

/-- Step of "add RHS nodes which are not in common with the LHS"
(lines 252-257). -/
def rhsNodeStep (rule : Rule) (s : List Node × List Nat) (i : Nat) :
    List Node × List Nat :=
  if i ∈ rule.common_to_rhs.node_mapping then s
  else (s.1 ++ [rule.rhs.nodes.getD i default], s.2.set i s.1.length)

/-- Step of "copy target edges not in LHS to result" (lines 264-271). -/
def keepEdgeStep (target : Graph) (flat : List Nat) (t2r : List Nat)
    (es : List Edge) (m : Nat) : List Edge :=
  if m ∈ flat then es
  else es ++ [xlatEdge t2r (target.edges.getD m default)]

/-- Step of "copy target edges in LHS to result if they are in common
with the RHS" (lines 274-285) for common edge `m`. -/
def commonEdgeCopy (rule : Rule) (target : Graph)
    (lhsToTarget : GraphMapping) (t2r : List Nat) (es : List Edge)
    (m : Nat) : List Edge :=
  let lhsEdge := (rule.common_to_lhs.edge_mapping.getD m []).headD 0
  (lhsToTarget.edge_mapping.getD lhsEdge []).foldl
    (fun es te => es ++ [xlatEdge t2r (target.edges.getD te default)]) es

/-- Step of "add RHS edges which are not in common with the LHS"
(lines 292-299). -/
def rhsEdgeStep (rule : Rule) (r2r : List Nat) (es : List Edge)
    (m : Nat) : List Edge :=
  if m ∈ rule.common_to_rhs.edge_mapping.flatten then es
  else es ++ [xlatEdge r2r (rule.rhs.edges.getD m default)]

/-- `applyRule`: construct the rewritten graph from a rule, a target and
one match of `rule.lhs_` into the target. -/
def applyRule (rule : Rule) (target : Graph) (lhsToTarget : GraphMapping) :
    Graph :=
  -- translation tables (lines 226-228), initialized to -1
  let t2r0 := List.replicate target.nodes.length sentinel
  let r2r0 := List.replicate rule.rhs.nodes.length sentinel
  -- copy target nodes not in LHS to result (lines 230-238)
  let s1 := (List.range target.nodes.length).foldl
    (keepNodeStep target lhsToTarget.node_mapping) ([], t2r0)
  -- copy target nodes in LHS to result if in common with the RHS
  -- (lines 240-246)
  let s2 := (List.range rule.common.nodes.length).foldl
    (commonNodeStep rule target lhsToTarget.node_mapping) s1
  let t2r := s2.2
  -- add RHS nodes not in common with the LHS (lines 248-257)
  let s3 := (List.range rule.rhs.nodes.length).foldl
    (rhsNodeStep rule) (s2.1, r2r0)
  let resultNodes := s3.1
  let r2r := s3.2
  -- copy target edges not in LHS to result (lines 259-271)
  let es1 := (List.range target.edges.length).foldl
    (keepEdgeStep target lhsToTarget.edge_mapping.flatten t2r) []
  -- copy target edges in LHS to result if in common with RHS (273-285)
  let es2 := (List.range rule.common.edges.length).foldl
    (commonEdgeCopy rule target lhsToTarget t2r) es1
  -- add RHS edges which are not in common with the LHS (lines 287-299)
  let es3 := (List.range rule.rhs.edges.length).foldl
    (rhsEdgeStep rule r2r) es2
  ⟨resultNodes, es3, []⟩

/-- The applier's first node phase (lines 230-238) as a standalone term:
kept nodes and the initial target-to-result table. -/
def keepPhase (target : Graph) (nm : List Nat) : List Node × List Nat :=
  (List.range target.nodes.length).foldl (keepNodeStep target nm)
    ([], List.replicate target.nodes.length sentinel)

/-- Node phases 1-2 (lines 230-246): nodes after the common re-emission
and the final target-to-result table. -/
def commonPhase (rule : Rule) (target : Graph) (nm : List Nat) :
    List Node × List Nat :=
  (List.range rule.common.nodes.length).foldl
    (commonNodeStep rule target nm) (keepPhase target nm)

/-- Node phases 1-3 (lines 230-257): the result's nodes and the
RHS-to-result table. -/
def rhsPhase (rule : Rule) (target : Graph) (nm : List Nat) :
    List Node × List Nat :=
  (List.range rule.rhs.nodes.length).foldl (rhsNodeStep rule)
    ((commonPhase rule target nm).1,
     List.replicate rule.rhs.nodes.length sentinel)

/-- The applier's three edge phases (lines 259-299) as a standalone
term. -/
def applyEdges (rule : Rule) (target : Graph) (φ : GraphMapping) :
    List Edge :=
  let t2r := (commonPhase rule target φ.node_mapping).2
  let r2r := (rhsPhase rule target φ.node_mapping).2
  let es1 := (List.range target.edges.length).foldl
    (keepEdgeStep target φ.edge_mapping.flatten t2r) []
  let es2 := (List.range rule.common.edges.length).foldl
    (commonEdgeCopy rule target φ t2r) es1
  (List.range rule.rhs.edges.length).foldl (rhsEdgeStep rule r2r) es2

/-- Position a kept target node `v` receives in the result (number of
kept nodes among `0, …, v-1`). -/
def keptPos (nm : List Nat) (v : Nat) : Nat :=
  ((List.range v).filter (fun i => decide (i ∉ nm))).length

/-- The `L`-edge index the applier pairs with common edge `m`
(line 277). -/
def lhsEdgeOf (rule : Rule) (m : Nat) : Nat :=
  (rule.common_to_lhs.edge_mapping.getD m []).headD 0

/-! ## Spec-level definitions used by the theorems -/

/-- The subgraph `createRuleFromGraph` uses as `"L"` (first by name). -/
def lhsSubOf (g : Graph) : Subgraph :=
  (g.subgraphs.find? (fun s => s.name == "L")).getD default

/-- The subgraph `createRuleFromGraph` uses as `"R"` (first by name). -/
def rhsSubOf (g : Graph) : Subgraph :=
  (g.subgraphs.find? (fun s => s.name == "R")).getD default

/-- §4.1: no non-empty edge label appears on two distinct edges of the
same side. -/
def labelsUniqueOn (g : Graph) (sub : Subgraph) : Prop :=
  ∀ m2 < g.edges.length, ∀ m1 < m2, m1 ∈ sub.edges → m2 ∈ sub.edges →
    (g.edges.getD m1 default).attrs.label ≠ "" →
    (g.edges.getD m1 default).attrs.label ≠
      (g.edges.getD m2 default).attrs.label

/-- The §4.1 preconditions of `compile_rule`, stated from the spec: both
reserved subgraphs present, every node in `L ∪ R`, every edge in exactly
one side, and per-side label uniqueness. -/
def rulePreconds (g : Graph) : Prop :=
  (g.subgraphs.find? (fun s => s.name == "L")).isSome ∧
  (g.subgraphs.find? (fun s => s.name == "R")).isSome ∧
  (∀ i < g.nodes.length, i ∈ (lhsSubOf g).nodes ∨ i ∈ (rhsSubOf g).nodes) ∧
  (∀ m < g.edges.length,
    m ∈ (lhsSubOf g).edges ∨ m ∈ (rhsSubOf g).edges) ∧
  (∀ m < g.edges.length,
    ¬(m ∈ (lhsSubOf g).edges ∧ m ∈ (rhsSubOf g).edges)) ∧
  labelsUniqueOn g (lhsSubOf g) ∧ labelsUniqueOn g (rhsSubOf g)

/-- A graph whose edges reference only existing nodes. -/
def GraphWF (g : Graph) : Prop :=
  ∀ e ∈ g.edges, e.head < g.nodes.length ∧ e.tail < g.nodes.length

/-- One matcher step test (the `j < |T|`, label and closed-edge checks of
one loop iteration, with committed prefix `u` and candidate `j`). -/
def stepOK (pattern target : Graph) (u : List Nat) (j : Nat) : Bool :=
  decide (j < target.nodes.length) &&
  labelTest pattern target u.length j &&
  edgeTest pattern target (u ++ [j]) u.length j

/-- All steps along a word pass, starting from committed prefix `u`. -/
def stepsOK (pattern target : Graph) : List Nat → List Nat → Bool
  | _, [] => true
  | u, j :: rest =>
      stepOK pattern target u j && stepsOK pattern target (u ++ [j]) rest

/-- All words of length `n` over `{0, …, b-1}`, in lexicographic order
(first position most significant, `0` first). -/
def lexEnum : Nat → Nat → List (List Nat)
  | 0, _ => [[]]
  | n + 1, b => (List.range b).flatMap (fun j => (lexEnum n b).map (j :: ·))

/-- The node assignments the matcher accepts, in visit order. -/
def okWords (pattern target : Graph) : List (List Nat) :=
  (lexEnum pattern.nodes.length target.nodes.length).filter
    (fun w => stepsOK pattern target [] w)

/-- Closed form of `findMatches`: accepted assignments in lexicographic
order, each with its materialized edge mapping. -/
def findMatchesSpec (pattern target : Graph) : List GraphMapping :=
  (okWords pattern target).map (mkMatch pattern target)

/-- `pendB w v`: word `v` is still pending when the search's top frame
word is `w` — `v` extends `w`, or `v` branches right of `w`. -/
def pendB : List Nat → List Nat → Bool
  | [], _ => true
  | _ :: _, [] => false
  | a :: w, b :: v => decide (a < b) || (a == b && pendB w v)

/-- The stack (top first) determined by its top frame's word: all
non-empty prefixes, longest first, each with empty edge mapping. -/
def stackFor : List Nat → List GraphMapping
  | [] => []
  | j :: w => ⟨j :: w, []⟩ :: stackFor (j :: w).dropLast
termination_by w => w.length
decreasing_by simp

/-- Value of a word as digits `w[p] + 1` in base `b`, most significant
first; strictly increases along the search. -/
def wordVal (b : Nat) (w : List Nat) : Nat :=
  w.foldl (fun acc j => acc * b + (j + 1)) 0

/-- §4.2 matching semantics, stated from the spec: label constraint on
every pattern node, and every pattern edge witnessed by at least one
target edge between the assigned endpoints (direction significant). -/
def specAssignOK (pattern target : Graph) (w : List Nat) : Prop :=
  (∀ i < pattern.nodes.length,
    (pattern.nodes.getD i default).attrs.label ≠ "" →
    (pattern.nodes.getD i default).attrs.label =
      (target.nodes.getD (w.getD i 0) default).attrs.label) ∧
  (∀ e ∈ pattern.edges, ∃ te ∈ target.edges,
    te.head = w.getD e.head 0 ∧ te.tail = w.getD e.tail 0)

instance (pattern target : Graph) (w : List Nat) :
    Decidable (specAssignOK pattern target w) := by
  unfold specAssignOK; infer_instance

instance (g : Graph) : Decidable (GraphWF g) := by
  unfold GraphWF; infer_instance

/-- §3 rule invariants on nodes: `K→L` and `K→R` node mappings are
injections of the right length into the side graphs. -/
def RuleNodeWF (rule : Rule) : Prop :=
  rule.common_to_lhs.node_mapping.length = rule.common.nodes.length ∧
  rule.common_to_rhs.node_mapping.length = rule.common.nodes.length ∧
  rule.common_to_lhs.node_mapping.Nodup ∧
  rule.common_to_rhs.node_mapping.Nodup ∧
  (∀ x ∈ rule.common_to_lhs.node_mapping, x < rule.lhs.nodes.length) ∧
  (∀ x ∈ rule.common_to_rhs.node_mapping, x < rule.rhs.nodes.length)

/-- The `L`-edge paired with each `K`-edge (`edge_mapping_[m][0]`). -/
def c2lFirsts (rule : Rule) : List Nat :=
  rule.common_to_lhs.edge_mapping.map (fun p => p.headD 0)

/-- §3 rule invariants on edges: each `K`-edge pairs exactly one `L`- and
one `R`-edge, no two `K`-edges pair the same side edge. -/
def RuleEdgeWF (rule : Rule) : Prop :=
  rule.common_to_lhs.edge_mapping.length = rule.common.edges.length ∧
  rule.common_to_rhs.edge_mapping.length = rule.common.edges.length ∧
  (∀ p ∈ rule.common_to_lhs.edge_mapping,
    p = [p.headD 0] ∧ p.headD 0 < rule.lhs.edges.length) ∧
  (∀ p ∈ rule.common_to_rhs.edge_mapping,
    p = [p.headD 0] ∧ p.headD 0 < rule.rhs.edges.length) ∧
  (c2lFirsts rule).Nodup ∧
  rule.common_to_rhs.edge_mapping.flatten.Nodup

instance (rule : Rule) : Decidable (RuleNodeWF rule) := by
  unfold RuleNodeWF; infer_instance

instance (rule : Rule) : Decidable (RuleEdgeWF rule) := by
  unfold RuleEdgeWF; infer_instance

/-- `L = R = K`: every node and edge of `L` and of `R` is in the image of
the common interface. -/
def identityRule (rule : Rule) : Prop :=
  (∀ x < rule.lhs.nodes.length, x ∈ rule.common_to_lhs.node_mapping) ∧
  (∀ x < rule.rhs.nodes.length, x ∈ rule.common_to_rhs.node_mapping) ∧
  (∀ x < rule.lhs.edges.length, x ∈ c2lFirsts rule) ∧
  (∀ x < rule.rhs.edges.length,
    x ∈ rule.common_to_rhs.edge_mapping.flatten)

instance (rule : Rule) : Decidable (identityRule rule) := by
  unfold identityRule; infer_instance

/-- No two distinct edges share both endpoints (no parallel edges). -/
def NoParallelEdges (g : Graph) : Prop :=
  ∀ m1 < g.edges.length, ∀ m2 < g.edges.length, m1 ≠ m2 →
    (g.edges.getD m1 default).head ≠ (g.edges.getD m2 default).head ∨
    (g.edges.getD m1 default).tail ≠ (g.edges.getD m2 default).tail

instance (g : Graph) : Decidable (NoParallelEdges g) := by
  unfold NoParallelEdges; infer_instance

/-- Rename an edge's endpoints through a position table. -/
def edgeXlat (σ : List Nat) (e : Edge) : Edge :=
  { e with head := σ.getD e.head sentinel, tail := σ.getD e.tail sentinel }

/-- `h` is `g` with nodes permuted by `σ` (node `i` of `g` appears at
position `σ(i)` of `h`) and the same multiset of edges up to the
renaming. -/
def IsIsoVia (σ : List Nat) (g h : Graph) : Prop :=
  h.nodes.length = g.nodes.length ∧
  σ.length = g.nodes.length ∧
  (∀ i < g.nodes.length, σ.getD i 0 < g.nodes.length) ∧
  σ.Nodup ∧
  (∀ i < g.nodes.length,
    h.nodes.getD (σ.getD i 0) default = g.nodes.getD i default) ∧
  (g.edges.map (edgeXlat σ)).Perm h.edges

/-- Isomorphic up to reordering: §8's "same multiset of nodes and edges,
possibly reordered". -/
def GraphIso (g h : Graph) : Prop := ∃ σ, IsIsoVia σ g h

/-- Target node re-emitted for `K`-node `k` in step 2 of the applier. -/
def kTarget (rule : Rule) (nm : List Nat) (k : Nat) : Nat :=
  nm.getD (rule.common_to_lhs.node_mapping.getD k 0) 0

/-- Target nodes kept by step 1 of the applier (not in the match image),
in target order. -/
def keptTargets (target : Graph) (nm : List Nat) : List Nat :=
  (List.range target.nodes.length).filter (fun i => decide (i ∉ nm))

/-- Distinct target nodes in the image of `L \ K` under the match. -/
def lkImage (rule : Rule) (nm : List Nat) : List Nat :=
  (((List.range rule.lhs.nodes.length).filter
      (fun x => decide (x ∉ rule.common_to_lhs.node_mapping))).map
    (fun x => nm.getD x 0)).dedup

/-- Number of nodes of `R \ K`. -/
def rkCount (rule : Rule) : Nat :=
  ((List.range rule.rhs.nodes.length).filter
    (fun x => decide (x ∉ rule.common_to_rhs.node_mapping))).length

/-! ## Concrete example inputs used by witnesses and counterexamples -/

/-- Unlabeled node named `s`. -/
def na (s : String) : Node := ⟨s, ⟨""⟩⟩

/-- Edge `t -> h` labeled `lb`. -/
def ed (h t : Nat) (lb : String) : Edge := ⟨h, t, ⟨lb⟩⟩

/-- Annotated graph whose `R`-side edges carry labels in the opposite
order of the `L`-side ones (both paired into `K`). -/
def gOrdEx : Graph :=
  ⟨[na "a", na "b"],
   [ed 1 0 "x", ed 1 0 "y", ed 1 0 "y", ed 1 0 "x"],
   [⟨"L", [0, 1], [0, 1]⟩, ⟨"R", [0, 1], [2, 3]⟩]⟩

/-- Annotated graph of an edge-deletion rule: `L` has the edge, `R` does
not, both nodes preserved. -/
def gDelEx : Graph :=
  ⟨[na "x", na "y"], [ed 1 0 "c"],
   [⟨"L", [0, 1], [0]⟩, ⟨"R", [0, 1], []⟩]⟩

/-- Two-node host graph with one edge. -/
def tDelEx : Graph := ⟨[na "t0", na "t1"], [ed 1 0 "host"], []⟩

/-- Annotated graph of an edge-insertion rule: `R` has the edge, `L` does
not (spec §8 scenario 2). -/
def gInsEx : Graph :=
  ⟨[na "x", na "y"], [ed 1 0 "c"],
   [⟨"L", [0, 1], []⟩, ⟨"R", [0, 1], [0]⟩]⟩

/-- Two disconnected host nodes. -/
def tInsEx : Graph := ⟨[na "t0", na "t1"], [], []⟩

/-- Annotated graph of an identity rule (`L = R = K`): both nodes shared,
one preserved edge labeled `"p"` on each side. -/
def gIdEx : Graph :=
  ⟨[na "a", na "b"], [ed 1 0 "p", ed 1 0 "p"],
   [⟨"L", [0, 1], [0]⟩, ⟨"R", [0, 1], [1]⟩]⟩

/-- Host graph with two parallel edges between its two nodes. -/
def tParEx : Graph := ⟨[na "t0", na "t1"], [ed 1 0 "h1", ed 1 0 "h2"], []⟩

/-- Annotated graph with `K = L = R` = two nodes and no edges. -/
def gDupEx : Graph :=
  ⟨[na "a", na "b"], [], [⟨"L", [0, 1], []⟩, ⟨"R", [0, 1], []⟩]⟩

/-- Annotated graph with `K = {a}`, `L = {a, d}`, `R = {a}`. -/
def gKLEx : Graph :=
  ⟨[na "a", na "d"], [], [⟨"L", [0, 1], []⟩, ⟨"R", [0], []⟩]⟩

/-- Single-node host graph. -/
def tOneEx : Graph := ⟨[na "t"], [], []⟩

/-- Two-node pattern with one edge. -/
def pChainEx : Graph := ⟨[na "p0", na "p1"], [ed 1 0 "e"], []⟩

/-- Two-node target with three parallel edges. -/
def tTripleEx : Graph :=
  ⟨[na "t0", na "t1"], [ed 1 0 "h1", ed 1 0 "h2", ed 1 0 "h3"], []⟩

/-- The rule compiled from `gIdEx` (an identity rule). -/
def ruleIdEx : Rule := (createRuleFromGraph gIdEx).toOption.getD default

/-- The rule compiled from `gDelEx` (an edge-deletion rule). -/
def ruleDelEx : Rule := (createRuleFromGraph gDelEx).toOption.getD default

/-! ## Generic list lemmas -/

lemma lookup_isSome_iff (l : List (String × Nat)) (k : String) :
    ((l.lookup k).isSome = true) ↔ k ∈ l.map Prod.fst := by
  induction l with
  | nil => simp [List.lookup]
  | cons p t ih =>
      obtain ⟨a, b⟩ := p
      by_cases h : k = a
      · simp [List.lookup_cons, h]
      · have hb : (k == a) = false := by simp [h]
        simp [List.lookup_cons, hb, h, ih]

lemma set_map_range {α : Type} (f : Nat → α) (n i : Nat) (x : α)
    (h : i < n) :
    ((List.range n).map f).set i x =
      (List.range n).map (fun v => if v = i then x else f v) := by
  apply List.ext_getElem
  · simp
  · intro p hp hq
    simp only [List.length_set, List.length_map, List.length_range] at hp hq
    rw [List.getElem_set]
    by_cases hpi : i = p
    · subst hpi
      simp [hp]
    · rw [if_neg hpi, List.getElem_map, List.getElem_range,
        List.getElem_map, List.getElem_range]
      exact (if_neg (fun hc : p = i => hpi hc.symm)).symm

lemma map_range_congr {α : Type} (f g : Nat → α) (n : Nat)
    (h : ∀ v < n, f v = g v) :
    (List.range n).map f = (List.range n).map g := by
  apply List.map_congr_left
  intro v hv
  exact h v (List.mem_range.mp hv)

/-! ## The node loop of `createRuleFromGraph` -/

lemma selNodesUpTo_succ (g : Graph) (sel : List Nat) (i : Nat) :
    selNodesUpTo g sel (i + 1) =
      selNodesUpTo g sel i ++
        (if i ∈ sel then [g.nodes.getD i default] else []) := by
  by_cases h : i ∈ sel <;>
    simp [selNodesUpTo, List.range_succ, List.filter_append, h]

lemma selNodesUpTo_length (g : Graph) (sel : List Nat) (i : Nat) :
    (selNodesUpTo g sel i).length = sideIdx sel i := by
  simp [selNodesUpTo, sideIdx]

lemma bothSel_succ (l r : Subgraph) (i : Nat) :
    bothSel l r (i + 1) =
      bothSel l r i ++
        (if i ∈ l.nodes ∧ i ∈ r.nodes then [i] else []) := by
  by_cases h1 : i ∈ l.nodes <;> by_cases h2 : i ∈ r.nodes <;>
    simp [bothSel, List.range_succ, List.filter_append, h1, h2]

lemma bothNodesUpTo_succ (g : Graph) (l r : Subgraph) (i : Nat) :
    bothNodesUpTo g l r (i + 1) =
      bothNodesUpTo g l r i ++
        (if i ∈ l.nodes ∧ i ∈ r.nodes then [g.nodes.getD i default]
         else []) := by
  by_cases h : i ∈ l.nodes ∧ i ∈ r.nodes <;>
    simp [bothNodesUpTo, bothSel_succ, h]

lemma nodeTab_succ_mem (g : Graph) (sel : List Nat) (i : Nat)
    (hi : i < g.nodes.length) (h : i ∈ sel) :
    (nodeTab g sel i).set i (sideIdx sel i) = nodeTab g sel (i + 1) := by
  rw [nodeTab, set_map_range _ _ _ _ hi, nodeTab]
  apply map_range_congr
  intro v _
  by_cases hv : v = i
  · subst hv; simp [h]
  · have : (v < i + 1 ∧ v ∈ sel) ↔ (v < i ∧ v ∈ sel) := by
      constructor
      · rintro ⟨h1, h2⟩; exact ⟨by omega, h2⟩
      · rintro ⟨h1, h2⟩; exact ⟨by omega, h2⟩
    simp only [if_neg hv, this]

lemma nodeTab_succ_not_mem (g : Graph) (sel : List Nat) (i : Nat)
    (h : i ∉ sel) :
    nodeTab g sel (i + 1) = nodeTab g sel i := by
  apply map_range_congr
  intro v _
  by_cases hv : v = i
  · subst hv; simp [h]
  · have : (v < i + 1 ∧ v ∈ sel) ↔ (v < i ∧ v ∈ sel) := by
      constructor
      · rintro ⟨h1, h2⟩; refine ⟨?_, h2⟩
        rcases Nat.lt_succ_iff_lt_or_eq.mp h1 with h' | h'
        · exact h'
        · exact absurd h2 (h' ▸ h)
      · rintro ⟨h1, h2⟩; exact ⟨by omega, h2⟩
    simp only [this]

lemma bothTab_succ_mem (g : Graph) (l r : Subgraph) (i : Nat)
    (hi : i < g.nodes.length) (h1 : i ∈ l.nodes) (h2 : i ∈ r.nodes) :
    (bothTab g l r i).set i (bothSel l r i).length = bothTab g l r (i + 1) := by
  rw [bothTab, set_map_range _ _ _ _ hi, bothTab]
  apply map_range_congr
  intro v _
  by_cases hv : v = i
  · subst hv; simp [h1, h2]
  · have : (v < i + 1 ∧ v ∈ l.nodes ∧ v ∈ r.nodes) ↔
        (v < i ∧ v ∈ l.nodes ∧ v ∈ r.nodes) := by
      constructor
      · rintro ⟨hl, h2'⟩
        refine ⟨?_, h2'⟩
        omega
      · rintro ⟨hl, h2'⟩; exact ⟨by omega, h2'⟩
    simp only [if_neg hv, this]

lemma bothTab_succ_not_mem (g : Graph) (l r : Subgraph) (i : Nat)
    (h : ¬(i ∈ l.nodes ∧ i ∈ r.nodes)) :
    bothTab g l r (i + 1) = bothTab g l r i := by
  apply map_range_congr
  intro v _
  by_cases hv : v = i
  · subst hv
    rw [if_neg, if_neg]
    · rintro ⟨h1, _⟩; omega
    · rintro ⟨_, hm⟩; exact h hm
  · have : (v < i + 1 ∧ v ∈ l.nodes ∧ v ∈ r.nodes) ↔
        (v < i ∧ v ∈ l.nodes ∧ v ∈ r.nodes) := by
      constructor
      · rintro ⟨hl, h2'⟩
        refine ⟨?_, h2'⟩
        rcases Nat.lt_succ_iff_lt_or_eq.mp hl with h' | h'
        · exact h'
        · exact absurd h2' (h' ▸ h)
      · rintro ⟨hl, h2'⟩; exact ⟨by omega, h2'⟩
    simp only [this]

lemma compileNodeStep_ok (g : Graph) (l r : Subgraph) (i : Nat)
    (hi : i < g.nodes.length) (hm : i ∈ l.nodes ∨ i ∈ r.nodes) :
    compileNodeStep l r (nodeStAt g l r i) i (g.nodes.getD i default) =
      .ok (nodeStAt g l r (i + 1)) := by
  by_cases h1 : i ∈ l.nodes <;> by_cases h2 : i ∈ r.nodes
  · simp [compileNodeStep, h1, h2, nodeStAt, selNodesUpTo_succ,
      bothNodesUpTo_succ, bothSel_succ, selNodesUpTo_length,
      nodeTab_succ_mem g _ i hi, bothTab_succ_mem g l r i hi h1 h2,
      bothNodesUpTo]
  · simp [compileNodeStep, h1, h2, nodeStAt, selNodesUpTo_succ,
      bothNodesUpTo_succ, bothSel_succ, selNodesUpTo_length,
      nodeTab_succ_mem g _ i hi, nodeTab_succ_not_mem g _ i h2,
      bothTab_succ_not_mem g l r i (fun hc => h2 hc.2)]
  · simp [compileNodeStep, h1, h2, nodeStAt, selNodesUpTo_succ,
      bothNodesUpTo_succ, bothSel_succ, selNodesUpTo_length,
      nodeTab_succ_mem g _ i hi, nodeTab_succ_not_mem g _ i h1,
      bothTab_succ_not_mem g l r i (fun hc => h1 hc.1)]
  · exact absurd hm (by simp [h1, h2])

lemma compileNodeStep_err (l r : Subgraph) (st : CompileSt) (i : Nat)
    (node : Node) (h1 : i ∉ l.nodes) (h2 : i ∉ r.nodes) :
    compileNodeStep l r st i node =
      .error ("Node \"" ++ node.name ++
        "\" is in neither the LHS nor the RHS") := by
  simp [compileNodeStep, h1, h2]

lemma compileNodesGo_ok (g : Graph) (l r : Subgraph) :
    ∀ d i, i + d = g.nodes.length →
    (∀ k, i ≤ k → k < g.nodes.length → k ∈ l.nodes ∨ k ∈ r.nodes) →
    compileNodesGo l r i (g.nodes.drop i) (nodeStAt g l r i) =
      .ok (nodeStAt g l r g.nodes.length) := by
  intro d
  induction d with
  | zero =>
      intro i hi _
      have he : i = g.nodes.length := by omega
      subst he
      rw [List.drop_length]
      rfl
  | succ d ih =>
      intro i hi hmem
      have hlt : i < g.nodes.length := by omega
      rw [List.drop_eq_getElem_cons hlt]
      have hgd : g.nodes[i] = g.nodes.getD i default := by
        rw [List.getD_eq_getElem?_getD, List.getElem?_eq_getElem hlt]
        rfl
      show (compileNodeStep l r (nodeStAt g l r i) i g.nodes[i]).bind _ = _
      rw [hgd, compileNodeStep_ok g l r i hlt (hmem i (Nat.le_refl i) hlt)]
      show compileNodesGo l r (i + 1) (g.nodes.drop (i + 1))
        (nodeStAt g l r (i + 1)) = _
      exact ih (i + 1) (by omega) (fun k hk1 hk2 => hmem k (by omega) hk2)

lemma compileNodesGo_err (g : Graph) (l r : Subgraph) :
    ∀ d i, i + d = g.nodes.length →
    (∃ k, i ≤ k ∧ k < g.nodes.length ∧ k ∉ l.nodes ∧ k ∉ r.nodes) →
    ∃ msg, compileNodesGo l r i (g.nodes.drop i) (nodeStAt g l r i) =
      .error msg := by
  intro d
  induction d with
  | zero =>
      intro i hi hk
      obtain ⟨k, hk1, hk2, _⟩ := hk
      omega
  | succ d ih =>
      intro i hi hk
      have hlt : i < g.nodes.length := by omega
      rw [List.drop_eq_getElem_cons hlt]
      by_cases hm : i ∈ l.nodes ∨ i ∈ r.nodes
      · have hgd : g.nodes[i] = g.nodes.getD i default := by
          rw [List.getD_eq_getElem?_getD, List.getElem?_eq_getElem hlt]
          rfl
        show ∃ msg,
          (compileNodeStep l r (nodeStAt g l r i) i g.nodes[i]).bind _ =
            .error msg
        rw [hgd, compileNodeStep_ok g l r i hlt hm]
        obtain ⟨k, hk1, hk2, hk3, hk4⟩ := hk
        have hk1' : i + 1 ≤ k := by
          rcases Nat.eq_or_lt_of_le hk1 with he | hl
          · exact absurd hm (by rw [← he] at hk3 hk4; simp [hk3, hk4])
          · omega
        exact ih (i + 1) (by omega) ⟨k, hk1', hk2, hk3, hk4⟩
      · push_neg at hm
        have hgd : g.nodes[i] = g.nodes.getD i default := by
          rw [List.getD_eq_getElem?_getD, List.getElem?_eq_getElem hlt]
          rfl
        refine ⟨"Node \"" ++ (g.nodes.getD i default).name ++
          "\" is in neither the LHS nor the RHS", ?_⟩
        show (compileNodeStep l r (nodeStAt g l r i) i g.nodes[i]).bind _ = _
        rw [hgd, compileNodeStep_err l r _ i _ hm.1 hm.2]
        rfl

/-! ## The edge loop of `createRuleFromGraph` -/

lemma nodeTab_final_getD (g : Graph) (sel : List Nat) (v : Nat) :
    (nodeTab g sel g.nodes.length)[v]?.getD sentinel = nodeXlat g sel v := by
  by_cases hv : v < g.nodes.length
  · rw [nodeTab, List.getElem?_map, List.getElem?_range hv]
    rfl
  · rw [nodeTab, List.getElem?_map,
      List.getElem?_eq_none (by simpa using hv)]
    rw [nodeXlat, if_neg (fun hc => hv hc.1)]
    rfl

lemma selEdgesUpTo_succ (g : Graph) (sub : Subgraph) (m : Nat) :
    selEdgesUpTo g sub (m + 1) =
      selEdgesUpTo g sub m ++
        (if m ∈ sub.edges then
          [{ g.edges.getD m default with
              head := nodeXlat g sub.nodes (g.edges.getD m default).head,
              tail := nodeXlat g sub.nodes (g.edges.getD m default).tail }]
         else []) := by
  by_cases h : m ∈ sub.edges <;>
    simp [selEdgesUpTo, List.range_succ, List.filter_append, h]

lemma selEdgesUpTo_length (g : Graph) (sub : Subgraph) (m : Nat) :
    (selEdgesUpTo g sub m).length = sideEdgeIdx sub.edges m := by
  simp [selEdgesUpTo, sideEdgeIdx]

lemma labelMapUpTo_succ (g : Graph) (sub : Subgraph) (m : Nat) :
    labelMapUpTo g sub (m + 1) =
      labelMapUpTo g sub m ++
        (if m ∈ sub.edges ∧ (g.edges.getD m default).attrs.label ≠ "" then
          [((g.edges.getD m default).attrs.label, sideEdgeIdx sub.edges m)]
         else []) := by
  by_cases h1 : m ∈ sub.edges <;>
    by_cases h2 : (g.edges.getD m default).attrs.label = "" <;>
    simp_all [labelMapUpTo, List.range_succ, List.filter_append,
      List.getD_eq_getElem?_getD]

lemma compileEdgeStep_ok (g : Graph) (l r : Subgraph) (m : Nat)
    (hc : edgeCond g l r m) :
    compileEdgeStep l r (edgeStAt g l r m) m (g.edges.getD m default) =
      .ok (edgeStAt g l r (m + 1)) := by
  obtain ⟨hor, hnand, hfl, hfr⟩ := hc
  simp only [List.getD_eq_getElem?_getD] at hfl hfr
  by_cases h1 : m ∈ l.edges <;> by_cases h2 : m ∈ r.edges
  · exact absurd ⟨h1, h2⟩ hnand
  · by_cases h3 : (g.edges[m]?.getD default).attrs.label = ""
    · simp [compileEdgeStep, h1, h2, h3, Bind.bind, Except.bind, edgeStAt,
        nodeStAt, selEdgesUpTo_succ, labelMapUpTo_succ, nodeTab_final_getD,
        nodeXlat]
    · have hlk := hfl h1 h3
      simp [compileEdgeStep, h1, h2, h3, Bind.bind, Except.bind, edgeStAt,
        nodeStAt, selEdgesUpTo_succ, labelMapUpTo_succ, nodeTab_final_getD,
        hlk, selEdgesUpTo_length, nodeXlat]
  · by_cases h3 : (g.edges[m]?.getD default).attrs.label = ""
    · simp [compileEdgeStep, h1, h2, h3, Bind.bind, Except.bind, edgeStAt,
        nodeStAt, selEdgesUpTo_succ, labelMapUpTo_succ, nodeTab_final_getD,
        nodeXlat]
    · have hlk := hfr h2 h3
      simp [compileEdgeStep, h1, h2, h3, Bind.bind, Except.bind, edgeStAt,
        nodeStAt, selEdgesUpTo_succ, labelMapUpTo_succ, nodeTab_final_getD,
        hlk, selEdgesUpTo_length, nodeXlat]
  · exact absurd hor (by simp [h1, h2])

lemma compileEdgeStep_err (g : Graph) (l r : Subgraph) (m : Nat)
    (hc : ¬ edgeCond g l r m) :
    ∃ msg,
      compileEdgeStep l r (edgeStAt g l r m) m (g.edges.getD m default) =
        .error msg := by
  by_cases h1 : m ∈ l.edges <;> by_cases h2 : m ∈ r.edges
  · -- in both sides: some error is thrown
    by_cases h3 : (g.edges[m]?.getD default).attrs.label = ""
    · refine ⟨"Edge is in both the \"L\" and \"R\" subgraphs, use " ++
        "separate edges with the same label instead", ?_⟩
      simp [compileEdgeStep, h1, h2, h3, Bind.bind, Except.bind]
    · rcases hlk : (labelMapUpTo g l m).lookup
          (g.edges[m]?.getD default).attrs.label with _ | v
      · rcases hrk : (labelMapUpTo g r m).lookup
            (g.edges[m]?.getD default).attrs.label with _ | v2
        · refine ⟨"Edge is in both the \"L\" and \"R\" subgraphs, use " ++
            "separate edges with the same label instead", ?_⟩
          simp [compileEdgeStep, h1, h2, h3, Bind.bind, Except.bind,
            edgeStAt, nodeStAt, hlk, hrk]
        · refine ⟨"Edge label \"" ++ (g.edges[m]?.getD default).attrs.label
            ++ "\" is used more than once in the RHS", ?_⟩
          simp [compileEdgeStep, h1, h2, h3, Bind.bind, Except.bind,
            edgeStAt, nodeStAt, hlk, hrk]
      · refine ⟨"Edge label \"" ++ (g.edges[m]?.getD default).attrs.label
          ++ "\" is used more than once in the LHS", ?_⟩
        simp [compileEdgeStep, h1, h2, h3, Bind.bind, Except.bind,
          edgeStAt, nodeStAt, hlk]
  · -- in L only: the condition can only fail on a stale label
    have h3 : (g.edges[m]?.getD default).attrs.label ≠ "" ∧
        ((labelMapUpTo g l m).lookup
          (g.edges[m]?.getD default).attrs.label) ≠ none := by
      by_contra hcon
      apply hc
      refine ⟨Or.inl h1, fun hand => h2 hand.2, ?_, fun hr => absurd hr h2⟩
      simp only [List.getD_eq_getElem?_getD]
      intro _ hne
      rcases hl : (labelMapUpTo g l m).lookup
          (g.edges[m]?.getD default).attrs.label with _ | v
      · rfl
      · refine absurd ⟨hne, ?_⟩ hcon
        rw [hl]
        exact fun hcc => Option.some_ne_none v hcc
    obtain ⟨h3a, h3b⟩ := h3
    rcases hlk : (labelMapUpTo g l m).lookup
        (g.edges[m]?.getD default).attrs.label with _ | v
    · exact absurd hlk h3b
    · refine ⟨"Edge label \"" ++ (g.edges[m]?.getD default).attrs.label
        ++ "\" is used more than once in the LHS", ?_⟩
      simp [compileEdgeStep, h1, h2, h3a, Bind.bind, Except.bind,
        edgeStAt, nodeStAt, hlk]
  · -- in R only
    have h3 : (g.edges[m]?.getD default).attrs.label ≠ "" ∧
        ((labelMapUpTo g r m).lookup
          (g.edges[m]?.getD default).attrs.label) ≠ none := by
      by_contra hcon
      apply hc
      refine ⟨Or.inr h2, fun hand => h1 hand.1, fun hl => absurd hl h1, ?_⟩
      simp only [List.getD_eq_getElem?_getD]
      intro _ hne
      rcases hl : (labelMapUpTo g r m).lookup
          (g.edges[m]?.getD default).attrs.label with _ | v
      · rfl
      · refine absurd ⟨hne, ?_⟩ hcon
        rw [hl]
        exact fun hcc => Option.some_ne_none v hcc
    obtain ⟨h3a, h3b⟩ := h3
    rcases hlk : (labelMapUpTo g r m).lookup
        (g.edges[m]?.getD default).attrs.label with _ | v
    · exact absurd hlk h3b
    · refine ⟨"Edge label \"" ++ (g.edges[m]?.getD default).attrs.label
        ++ "\" is used more than once in the RHS", ?_⟩
      simp [compileEdgeStep, h1, h2, h3a, Bind.bind, Except.bind,
        edgeStAt, nodeStAt, hlk]
  · -- in neither
    refine ⟨"Edge is in neither the LHS nor the RHS", ?_⟩
    simp [compileEdgeStep, h1, h2, Bind.bind, Except.bind]

lemma compileEdgesGo_ok (g : Graph) (l r : Subgraph) :
    ∀ d m, m + d = g.edges.length →
    (∀ k, m ≤ k → k < g.edges.length → edgeCond g l r k) →
    compileEdgesGo l r m (g.edges.drop m) (edgeStAt g l r m) =
      .ok (edgeStAt g l r g.edges.length) := by
  intro d
  induction d with
  | zero =>
      intro m hm _
      have he : m = g.edges.length := by omega
      subst he
      rw [List.drop_length]
      rfl
  | succ d ih =>
      intro m hm hcond
      have hlt : m < g.edges.length := by omega
      rw [List.drop_eq_getElem_cons hlt]
      have hgd : g.edges[m] = g.edges.getD m default := by
        rw [List.getD_eq_getElem?_getD, List.getElem?_eq_getElem hlt]
        rfl
      show (compileEdgeStep l r (edgeStAt g l r m) m g.edges[m]).bind _ = _
      rw [hgd, compileEdgeStep_ok g l r m (hcond m (Nat.le_refl m) hlt)]
      show compileEdgesGo l r (m + 1) (g.edges.drop (m + 1))
        (edgeStAt g l r (m + 1)) = _
      exact ih (m + 1) (by omega) (fun k hk1 hk2 => hcond k (by omega) hk2)

lemma compileEdgesGo_err (g : Graph) (l r : Subgraph) :
    ∀ d m, m + d = g.edges.length →
    (∃ k, m ≤ k ∧ k < g.edges.length ∧ ¬ edgeCond g l r k) →
    ∃ msg, compileEdgesGo l r m (g.edges.drop m) (edgeStAt g l r m) =
      .error msg := by
  intro d
  induction d with
  | zero =>
      intro m hm hk
      obtain ⟨k, hk1, hk2, _⟩ := hk
      omega
  | succ d ih =>
      intro m hm hk
      have hlt : m < g.edges.length := by omega
      rw [List.drop_eq_getElem_cons hlt]
      have hgd : g.edges[m] = g.edges.getD m default := by
        rw [List.getD_eq_getElem?_getD, List.getElem?_eq_getElem hlt]
        rfl
      by_cases hcm : edgeCond g l r m
      · show ∃ msg,
          (compileEdgeStep l r (edgeStAt g l r m) m g.edges[m]).bind _ =
            .error msg
        rw [hgd, compileEdgeStep_ok g l r m hcm]
        obtain ⟨k, hk1, hk2, hk3⟩ := hk
        have hk1' : m + 1 ≤ k := by
          rcases Nat.eq_or_lt_of_le hk1 with he | hl
          · exact absurd hcm (he ▸ hk3)
          · omega
        exact ih (m + 1) (by omega) ⟨k, hk1', hk2, hk3⟩
      · obtain ⟨msg, hmsg⟩ := compileEdgeStep_err g l r m hcm
        refine ⟨msg, ?_⟩
        show (compileEdgeStep l r (edgeStAt g l r m) m g.edges[m]).bind _ =
          .error msg
        rw [hgd, hmsg]
        rfl

lemma commonEdgeStep_fields (st : CompileSt) (p : String × Nat) :
    (commonEdgeStep st p).rule.lhs = st.rule.lhs ∧
    (commonEdgeStep st p).rule.rhs = st.rule.rhs ∧
    (commonEdgeStep st p).rule.common.nodes = st.rule.common.nodes ∧
    (commonEdgeStep st p).rule.common_to_lhs.node_mapping =
      st.rule.common_to_lhs.node_mapping ∧
    (commonEdgeStep st p).rule.common_to_rhs.node_mapping =
      st.rule.common_to_rhs.node_mapping ∧
    (commonEdgeStep st p).lhsLabelToEdge = st.lhsLabelToEdge ∧
    (commonEdgeStep st p).rhsLabelToEdge = st.rhsLabelToEdge := by
  rcases h : st.rhsLabelToEdge.lookup p.1 with _ | v <;>
    simp [commonEdgeStep, h]

lemma commonFold_fields (ps : List (String × Nat)) :
    ∀ st : CompileSt,
    (ps.foldl commonEdgeStep st).rule.lhs = st.rule.lhs ∧
    (ps.foldl commonEdgeStep st).rule.rhs = st.rule.rhs ∧
    (ps.foldl commonEdgeStep st).rule.common.nodes =
      st.rule.common.nodes ∧
    (ps.foldl commonEdgeStep st).rule.common_to_lhs.node_mapping =
      st.rule.common_to_lhs.node_mapping ∧
    (ps.foldl commonEdgeStep st).rule.common_to_rhs.node_mapping =
      st.rule.common_to_rhs.node_mapping := by
  induction ps with
  | nil => intro st; exact ⟨rfl, rfl, rfl, rfl, rfl⟩
  | cons p t ih =>
      intro st
      have hs := commonEdgeStep_fields st p
      have ht := ih (commonEdgeStep st p)
      refine ⟨?_, ?_, ?_, ?_, ?_⟩ <;>
        simp only [List.foldl_cons] <;>
        [rw [ht.1, hs.1]; rw [ht.2.1, hs.2.1]; rw [ht.2.2.1, hs.2.2.1];
         rw [ht.2.2.2.1, hs.2.2.2.1]; rw [ht.2.2.2.2, hs.2.2.2.2.1]]

lemma nodeTab_zero (g : Graph) (sel : List Nat) :
    nodeTab g sel 0 = List.replicate g.nodes.length sentinel := by
  rw [List.eq_replicate_iff]
  refine ⟨by simp [nodeTab], ?_⟩
  intro b hb
  rw [nodeTab] at hb
  obtain ⟨v, _, hv⟩ := List.mem_map.mp hb
  rw [if_neg (fun hc => Nat.not_lt_zero v hc.1)] at hv
  exact hv.symm

lemma bothTab_zero (g : Graph) (l r : Subgraph) :
    bothTab g l r 0 = List.replicate g.nodes.length sentinel := by
  rw [List.eq_replicate_iff]
  refine ⟨by simp [bothTab], ?_⟩
  intro b hb
  rw [bothTab] at hb
  obtain ⟨v, _, hv⟩ := List.mem_map.mp hb
  rw [if_neg (fun hc => Nat.not_lt_zero v hc.1)] at hv
  exact hv.symm

lemma nodeStAt_zero (g : Graph) (l r : Subgraph) :
    nodeStAt g l r 0 =
      { rule := default,
        g2l := List.replicate g.nodes.length sentinel,
        g2r := List.replicate g.nodes.length sentinel,
        g2c := List.replicate g.nodes.length sentinel,
        lhsLabelToEdge := [],
        rhsLabelToEdge := [] } := by
  rw [nodeStAt, nodeTab_zero, nodeTab_zero, bothTab_zero]
  rfl

lemma edgeStAt_zero (g : Graph) (l r : Subgraph) :
    edgeStAt g l r 0 = nodeStAt g l r g.nodes.length := rfl

lemma labelMap_lookup_none_iff (g : Graph) (sub : Subgraph) (m : Nat)
    (s : String) :
    ((labelMapUpTo g sub m).lookup s = none) ↔
      ∀ x < m, x ∈ sub.edges →
        (g.edges.getD x default).attrs.label ≠ "" →
        (g.edges.getD x default).attrs.label ≠ s := by
  rcases hl : (labelMapUpTo g sub m).lookup s with _ | v
  · refine iff_of_true rfl ?_
    intro x hx hmem hne heq
    have hsome : ((labelMapUpTo g sub m).lookup s).isSome = true := by
      rw [lookup_isSome_iff, labelMapUpTo]
      refine List.mem_map.mpr ⟨((g.edges.getD x default).attrs.label,
        sideEdgeIdx sub.edges x), List.mem_map.mpr ⟨x, ?_, rfl⟩, heq⟩
      rw [List.mem_filter, List.mem_range]
      refine ⟨hx, ?_⟩
      simp only [Bool.and_eq_true, decide_eq_true_eq, Bool.not_eq_true',
        beq_eq_false_iff_ne, ne_eq]
      exact ⟨hmem, hne⟩
    rw [hl] at hsome
    exact absurd hsome (by simp)
  · refine iff_of_false (by simp) ?_
    intro hall
    have hsome : ((labelMapUpTo g sub m).lookup s).isSome = true := by
      simp [hl]
    rw [lookup_isSome_iff, labelMapUpTo] at hsome
    obtain ⟨p, hp, hps⟩ := List.mem_map.mp hsome
    obtain ⟨x, hx, rfl⟩ := List.mem_map.mp hp
    rw [List.mem_filter, List.mem_range] at hx
    obtain ⟨hx1, hx2⟩ := hx
    simp only [Bool.and_eq_true, decide_eq_true_eq, Bool.not_eq_true',
      beq_eq_false_iff_ne, ne_eq] at hx2
    exact (hall x hx1 hx2.1 hx2.2) hps

lemma edgeConds_iff (g : Graph) (l r : Subgraph) :
    (∀ k < g.edges.length, edgeCond g l r k) ↔
      ((∀ m < g.edges.length, m ∈ l.edges ∨ m ∈ r.edges) ∧
       (∀ m < g.edges.length, ¬(m ∈ l.edges ∧ m ∈ r.edges)) ∧
       labelsUniqueOn g l ∧ labelsUniqueOn g r) := by
  constructor
  · intro h
    refine ⟨fun m hm => (h m hm).1, fun m hm => (h m hm).2.1, ?_, ?_⟩
    · intro m2 hm2 m1 hm1 hmem1 hmem2 hne heq
      have hc := (h m2 hm2).2.2.1 hmem2 (by rw [← heq]; exact hne)
      rw [labelMap_lookup_none_iff] at hc
      exact hc m1 hm1 hmem1 hne heq
    · intro m2 hm2 m1 hm1 hmem1 hmem2 hne heq
      have hc := (h m2 hm2).2.2.2 hmem2 (by rw [← heq]; exact hne)
      rw [labelMap_lookup_none_iff] at hc
      exact hc m1 hm1 hmem1 hne heq
  · rintro ⟨h1, h2, h3, h4⟩ k hk
    refine ⟨h1 k hk, h2 k hk, ?_, ?_⟩
    · intro hmem hne
      rw [labelMap_lookup_none_iff]
      intro x hx hxmem hxne
      exact h3 k hk x hx hxmem hmem hxne
    · intro hmem hne
      rw [labelMap_lookup_none_iff]
      intro x hx hxmem hxne
      exact h4 k hk x hx hxmem hmem hxne

/-- C5: `createRuleFromGraph` raises a structural error if and only if
the input graph violates one of the §4.1 preconditions (missing `"L"` or
`"R"` subgraph, a node in neither side, an edge in neither or in both
sides, or a non-empty edge label reused on the same side); otherwise it
returns a rule without error. -/
theorem compile_raises_iff_preconds (g : Graph) :
    (createRuleFromGraph g).isOk = true ↔ rulePreconds g := by
  rcases hfL : g.subgraphs.find? (fun s => s.name == "L") with _ | lSub
  · refine iff_of_false (by simp [createRuleFromGraph, hfL, Except.isOk, Except.toBool, Except.bind]) ?_
    intro h
    rw [rulePreconds, hfL] at h
    exact absurd h.1 (by simp)
  rcases hfR : g.subgraphs.find? (fun s => s.name == "R") with _ | rSub
  · refine iff_of_false
      (by simp [createRuleFromGraph, hfL, hfR, Except.isOk, Except.toBool, Except.bind]) ?_
    intro h
    rw [rulePreconds, hfR] at h
    exact absurd h.2.1 (by simp)
  have hls : lhsSubOf g = lSub := by rw [lhsSubOf, hfL]; rfl
  have hrs : rhsSubOf g = rSub := by rw [rhsSubOf, hfR]; rfl
  have hrun : createRuleFromGraph g =
      (compileNodesGo lSub rSub 0 g.nodes (nodeStAt g lSub rSub 0)).bind
        (fun st1 => (compileEdgesGo lSub rSub 0 g.edges st1).bind
          (fun st2 => .ok (compileCommonEdges st2).rule)) := by
    simp only [createRuleFromGraph, hfL, hfR]
    rw [← nodeStAt_zero]
    rfl
  by_cases hN : ∀ k < g.nodes.length, k ∈ lSub.nodes ∨ k ∈ rSub.nodes
  · have hok1 := compileNodesGo_ok g lSub rSub g.nodes.length 0 (by omega)
      (fun k _ h2 => hN k h2)
    rw [List.drop_zero] at hok1
    by_cases hE : ∀ k < g.edges.length, edgeCond g lSub rSub k
    · have hok2 := compileEdgesGo_ok g lSub rSub g.edges.length 0
        (by omega) (fun k _ h2 => hE k h2)
      rw [List.drop_zero, edgeStAt_zero] at hok2
      refine iff_of_true ?_ ?_
      · rw [hrun, hok1]
        show ((compileEdgesGo lSub rSub 0 g.edges
          (nodeStAt g lSub rSub g.nodes.length)).bind _).isOk = true
        rw [hok2]
        rfl
      · rw [rulePreconds, hls, hrs, hfL, hfR]
        have hca := (edgeConds_iff g lSub rSub).mp hE
        exact ⟨by simp, by simp, hN, hca.1, hca.2.1, hca.2.2.1, hca.2.2.2⟩
    · push_neg at hE
      obtain ⟨k, hk1, hk2⟩ := hE
      obtain ⟨msg, herr⟩ := compileEdgesGo_err g lSub rSub
        g.edges.length 0 (by omega) ⟨k, by omega, hk1, hk2⟩
      rw [List.drop_zero, edgeStAt_zero] at herr
      refine iff_of_false ?_ ?_
      · rw [hrun, hok1]
        show ((compileEdgesGo lSub rSub 0 g.edges
          (nodeStAt g lSub rSub g.nodes.length)).bind _).isOk = true → False
        rw [herr]
        simp [Except.isOk, Except.toBool, Except.bind]
      · intro hpre
        rw [rulePreconds, hls, hrs] at hpre
        obtain ⟨_, _, _, he1, he2, he3, he4⟩ := hpre
        exact hk2 ((edgeConds_iff g lSub rSub).mpr ⟨he1, he2, he3, he4⟩
          k hk1)
  · push_neg at hN
    obtain ⟨k, hk1, hk2⟩ := hN
    obtain ⟨msg, herr⟩ := compileNodesGo_err g lSub rSub
      g.nodes.length 0 (by omega) ⟨k, by omega, hk1, hk2.1, hk2.2⟩
    rw [List.drop_zero] at herr
    refine iff_of_false ?_ ?_
    · rw [hrun, herr]
      simp [Except.isOk, Except.toBool, Except.bind]
    · intro hpre
      rw [rulePreconds, hls, hrs] at hpre
      exact absurd (hpre.2.2.1 k hk1) (by rw [not_or]; exact hk2)

lemma compile_ok_inv (g : Graph) (rule : Rule)
    (h : createRuleFromGraph g = .ok rule) :
    ∃ lSub rSub,
      g.subgraphs.find? (fun s => s.name == "L") = some lSub ∧
      g.subgraphs.find? (fun s => s.name == "R") = some rSub ∧
      rule = (compileCommonEdges
        (edgeStAt g lSub rSub g.edges.length)).rule := by
  rcases hfL : g.subgraphs.find? (fun s => s.name == "L") with _ | lSub
  · rw [createRuleFromGraph] at h
    simp only [hfL] at h
    exact absurd h (by simp)
  rcases hfR : g.subgraphs.find? (fun s => s.name == "R") with _ | rSub
  · rw [createRuleFromGraph] at h
    simp only [hfL, hfR] at h
    exact absurd h (by simp)
  have hrun : createRuleFromGraph g =
      (compileNodesGo lSub rSub 0 g.nodes (nodeStAt g lSub rSub 0)).bind
        (fun st1 => (compileEdgesGo lSub rSub 0 g.edges st1).bind
          (fun st2 => .ok (compileCommonEdges st2).rule)) := by
    simp only [createRuleFromGraph, hfL, hfR]
    rw [← nodeStAt_zero]
    rfl
  by_cases hN : ∀ k < g.nodes.length, k ∈ lSub.nodes ∨ k ∈ rSub.nodes
  · have hok1 := compileNodesGo_ok g lSub rSub g.nodes.length 0 (by omega)
      (fun k _ h2 => hN k h2)
    rw [List.drop_zero] at hok1
    by_cases hE : ∀ k < g.edges.length, edgeCond g lSub rSub k
    · have hok2 := compileEdgesGo_ok g lSub rSub g.edges.length 0
        (by omega) (fun k _ h2 => hE k h2)
      rw [List.drop_zero, edgeStAt_zero] at hok2
      refine ⟨lSub, rSub, hfL, hfR, ?_⟩
      rw [hrun, hok1] at h
      have hb : ((Except.ok (nodeStAt g lSub rSub g.nodes.length) :
          Except String CompileSt).bind
          (fun st1 => (compileEdgesGo lSub rSub 0 g.edges st1).bind
            (fun st2 => Except.ok (compileCommonEdges st2).rule))) =
          (compileEdgesGo lSub rSub 0 g.edges
            (nodeStAt g lSub rSub g.nodes.length)).bind
            (fun st2 => Except.ok (compileCommonEdges st2).rule) := rfl
      rw [hb, hok2] at h
      exact (Except.ok.inj h).symm
    · push_neg at hE
      obtain ⟨k, hk1, hk2⟩ := hE
      obtain ⟨msg, herr⟩ := compileEdgesGo_err g lSub rSub
        g.edges.length 0 (by omega) ⟨k, by omega, hk1, hk2⟩
      rw [List.drop_zero, edgeStAt_zero] at herr
      rw [hrun, hok1] at h
      have hb : ((Except.ok (nodeStAt g lSub rSub g.nodes.length) :
          Except String CompileSt).bind
          (fun st1 => (compileEdgesGo lSub rSub 0 g.edges st1).bind
            (fun st2 => Except.ok (compileCommonEdges st2).rule))) =
          (compileEdgesGo lSub rSub 0 g.edges
            (nodeStAt g lSub rSub g.nodes.length)).bind
            (fun st2 => Except.ok (compileCommonEdges st2).rule) := rfl
      rw [hb, herr] at h
      exact absurd h (by simp [Except.bind])
  · push_neg at hN
    obtain ⟨k, hk1, hk2⟩ := hN
    obtain ⟨msg, herr⟩ := compileNodesGo_err g lSub rSub
      g.nodes.length 0 (by omega) ⟨k, by omega, hk1, hk2.1, hk2.2⟩
    rw [List.drop_zero] at herr
    rw [hrun, herr] at h
    exact absurd h (by simp [Except.bind])

/-- C6 (amended): in a rule returned by `createRuleFromGraph`, the nodes
emitted into `lhs_`, `rhs_` and `common_`, and the edges emitted into
`lhs_` and `rhs_`, are exactly the members of the corresponding side of
the input graph in the input graph's original order (so any two input
elements placed into the same side graph keep their relative order).  The
synthesized `K`-edges are excluded: their order does not follow the input
order (see the counterexample). -/
theorem compile_emission_order (g : Graph) (rule : Rule)
    (h : createRuleFromGraph g = .ok rule) :
    rule.lhs.nodes = selNodesUpTo g (lhsSubOf g).nodes g.nodes.length ∧
    rule.rhs.nodes = selNodesUpTo g (rhsSubOf g).nodes g.nodes.length ∧
    rule.common.nodes =
      bothNodesUpTo g (lhsSubOf g) (rhsSubOf g) g.nodes.length ∧
    rule.lhs.edges = selEdgesUpTo g (lhsSubOf g) g.edges.length ∧
    rule.rhs.edges = selEdgesUpTo g (rhsSubOf g) g.edges.length := by
  obtain ⟨lSub, rSub, hfL, hfR, hrule⟩ := compile_ok_inv g rule h
  have hls : lhsSubOf g = lSub := by rw [lhsSubOf, hfL]; rfl
  have hrs : rhsSubOf g = rSub := by rw [rhsSubOf, hfR]; rfl
  have hf := commonFold_fields
    (edgeStAt g lSub rSub g.edges.length).lhsLabelToEdge
    (edgeStAt g lSub rSub g.edges.length)
  rw [hrule, hls, hrs, compileCommonEdges]
  refine ⟨?_, ?_, ?_, ?_, ?_⟩
  · rw [hf.1]; rfl
  · rw [hf.2.1]; rfl
  · rw [hf.2.2.1]; rfl
  · rw [hf.1]; rfl
  · rw [hf.2.1]; rfl

/-- C6 witness: the amended emission-order theorem applied to the
concrete edge-deletion rule input. -/
theorem compile_emission_order_witness :
    (createRuleFromGraph gDelEx).isOk = true ∧
    ((createRuleFromGraph gDelEx).toOption.getD default).lhs.nodes =
      selNodesUpTo gDelEx (lhsSubOf gDelEx).nodes gDelEx.nodes.length := by
  refine ⟨by decide, ?_⟩
  have h : createRuleFromGraph gDelEx =
      .ok ((createRuleFromGraph gDelEx).toOption.getD default) := rfl
  exact (compile_emission_order gDelEx _ h).1

/-- C6 counterexample: in `gOrdEx`, input edges 2 (label `"y"`) and 3
(label `"x"`) are both placed into the common graph (their labels pair
with LHS edges), yet their images appear in `common_` in the opposite
order: the `K`-edge pairing RHS edge 1 (input edge 3) comes first.  So
the synthesized `K`-edges do not follow the input order. -/
theorem compile_emission_order_cex :
    (createRuleFromGraph gOrdEx).isOk = true ∧
    (gOrdEx.edges.getD 2 default).attrs.label = "y" ∧
    (gOrdEx.edges.getD 3 default).attrs.label = "x" ∧
    ((createRuleFromGraph gOrdEx).toOption.getD
        default).common_to_rhs.edge_mapping = [[1], [0]] ∧
    (((createRuleFromGraph gOrdEx).toOption.getD
        default).common.edges.getD 0 default).attrs.label = "x" ∧
    (((createRuleFromGraph gOrdEx).toOption.getD
        default).common.edges.getD 1 default).attrs.label = "y" := by
  decide

/-! ## The matcher: words, stacks and the loop measure -/

lemma stackFor_ne_nil (w : List Nat) (h : w ≠ []) :
    stackFor w = ⟨w, []⟩ :: stackFor w.dropLast := by
  cases w with
  | nil => exact absurd rfl h
  | cons a w' => rw [stackFor]

lemma stackFor_concat (u : List Nat) (j : Nat) :
    stackFor (u ++ [j]) = ⟨u ++ [j], []⟩ :: stackFor u := by
  rw [stackFor_ne_nil (u ++ [j]) (by simp), List.dropLast_concat]

lemma bumpLast_concat (u : List Nat) (j : Nat) :
    bumpLast (u ++ [j]) = u ++ [j + 1] := by
  rw [bumpLast, List.dropLast_concat, List.getLastD_concat]

lemma wordVal_concat (b : Nat) (u : List Nat) (j : Nat) :
    wordVal b (u ++ [j]) = wordVal b u * b + (j + 1) := by
  rw [wordVal, wordVal, List.foldl_append]
  rfl

lemma foldl_val_le (b : Nat) :
    ∀ (w : List Nat) (acc : Nat), (∀ x ∈ w, x + 2 ≤ b) →
    List.foldl (fun acc j => acc * b + (j + 1)) acc w ≤
      (acc + 1) * b ^ w.length - 1 := by
  intro w
  induction w with
  | nil => intro acc _; simp
  | cons j t ih =>
      intro acc hw
      have hj : j + 2 ≤ b := hw j (List.mem_cons_self j t)
      have ht : ∀ x ∈ t, x + 2 ≤ b := fun x hx =>
        hw x (List.mem_cons_of_mem j hx)
      calc List.foldl (fun acc j => acc * b + (j + 1)) acc (j :: t)
          = List.foldl (fun acc j => acc * b + (j + 1))
              (acc * b + (j + 1)) t := rfl
        _ ≤ (acc * b + (j + 1) + 1) * b ^ t.length - 1 := ih _ ht
        _ ≤ ((acc + 1) * b) * b ^ t.length - 1 := by
            have : acc * b + (j + 1) + 1 ≤ (acc + 1) * b := by
              have : acc * b + b = (acc + 1) * b := by ring
              omega
            exact Nat.sub_le_sub_right
              (Nat.mul_le_mul_right _ this) 1
        _ = (acc + 1) * b ^ (j :: t).length - 1 := by
            rw [List.length_cons, pow_succ]
            ring_nf

lemma wordVal_le (b : Nat) (w : List Nat) (hw : ∀ x ∈ w, x + 2 ≤ b) :
    wordVal b w ≤ b ^ w.length - 1 := by
  have := foldl_val_le b w 0 hw
  rw [wordVal]
  simpa using this

lemma mu_lt (B N : Nat) (w : List Nat) (hle : w.length ≤ N)
    (hb : ∀ x ∈ w, x ≤ B) :
    wordVal (B + 2) w * (B + 2) ^ (N - w.length) < (B + 2) ^ N := by
  have hval : wordVal (B + 2) w ≤ (B + 2) ^ w.length - 1 :=
    wordVal_le (B + 2) w (fun x hx => by have := hb x hx; omega)
  have hp1 : 0 < (B + 2) ^ w.length := pow_pos (by omega) _
  have hp2 : 0 < (B + 2) ^ (N - w.length) := pow_pos (by omega) _
  have hsplit : (B + 2) ^ w.length * (B + 2) ^ (N - w.length) =
      (B + 2) ^ N := by
    rw [← pow_add]
    congr 1
    omega
  calc wordVal (B + 2) w * (B + 2) ^ (N - w.length)
      ≤ ((B + 2) ^ w.length - 1) * (B + 2) ^ (N - w.length) :=
        Nat.mul_le_mul_right _ hval
    _ = (B + 2) ^ w.length * (B + 2) ^ (N - w.length) -
          (B + 2) ^ (N - w.length) := by
        rw [Nat.sub_mul, one_mul]
    _ = (B + 2) ^ N - (B + 2) ^ (N - w.length) := by rw [hsplit]
    _ < (B + 2) ^ N := Nat.sub_lt (hsplit ▸ Nat.mul_pos hp1 hp2) hp2

lemma mu_bump_lt (B N : Nat) (u : List Nat) (j : Nat) :
    wordVal (B + 2) (u ++ [j]) * (B + 2) ^ (N - (u ++ [j]).length) <
      wordVal (B + 2) (u ++ [j + 1]) *
        (B + 2) ^ (N - (u ++ [j + 1]).length) := by
  have hlen : (u ++ [j]).length = (u ++ [j + 1]).length := by simp
  rw [hlen]
  refine (Nat.mul_lt_mul_right (pow_pos (by omega) _)).mpr ?_
  rw [wordVal_concat, wordVal_concat]
  omega

lemma mu_push_lt (B N : Nat) (w : List Nat) (hlt : w.length < N) :
    wordVal (B + 2) w * (B + 2) ^ (N - w.length) <
      wordVal (B + 2) (w ++ [0]) *
        (B + 2) ^ (N - (w ++ [0]).length) := by
  rw [wordVal_concat]
  have hlen : (w ++ [0]).length = w.length + 1 := by simp
  rw [hlen]
  have hsplit : (B + 2) ^ (N - w.length) =
      (B + 2) * (B + 2) ^ (N - (w.length + 1)) := by
    rw [← pow_succ']
    congr 1
    omega
  rw [hsplit]
  have hp : 0 < (B + 2) ^ (N - (w.length + 1)) := pow_pos (by omega) _
  calc wordVal (B + 2) w * ((B + 2) * (B + 2) ^ (N - (w.length + 1)))
      = (wordVal (B + 2) w * (B + 2)) *
          (B + 2) ^ (N - (w.length + 1)) := by ring
    _ < (wordVal (B + 2) w * (B + 2) + 1) *
          (B + 2) ^ (N - (w.length + 1)) := by
        exact (Nat.mul_lt_mul_right hp).mpr (by omega)

lemma mu_pop_lt (B N : Nat) (u0 : List Nat) (k j : Nat) (hj : j ≤ B)
    (hlen : u0.length + 2 ≤ N) :
    wordVal (B + 2) (u0 ++ [k] ++ [j]) *
        (B + 2) ^ (N - (u0 ++ [k] ++ [j]).length) <
      wordVal (B + 2) (u0 ++ [k + 1]) *
        (B + 2) ^ (N - (u0 ++ [k + 1]).length) := by
  have hl1 : (u0 ++ [k] ++ [j]).length = u0.length + 2 := by simp
  have hl2 : (u0 ++ [k + 1]).length = u0.length + 1 := by simp
  rw [hl1, hl2, wordVal_concat, wordVal_concat, wordVal_concat]
  set a := wordVal (B + 2) u0 with ha
  set p := (B + 2) ^ (N - (u0.length + 2)) with hp
  have hpe : (B + 2) ^ (N - (u0.length + 1)) = p * (B + 2) := by
    rw [hp, ← pow_succ]
    congr 1
    omega
  rw [hpe]
  have hp0 : 0 < p := pow_pos (by omega) _
  have hkey : (j + 1) * p < (B + 2) * p :=
    (Nat.mul_lt_mul_right hp0).mpr (by omega)
  have h1 : ((a * (B + 2) + (k + 1)) * (B + 2) + (j + 1)) * p =
      (a * (B + 2) + (k + 1)) * (p * (B + 2)) + (j + 1) * p := by ring
  have h2 : (a * (B + 2) + (k + 1 + 1)) * (p * (B + 2)) =
      (a * (B + 2) + (k + 1)) * (p * (B + 2)) + (B + 2) * p := by ring
  rw [h1, h2]
  exact Nat.add_lt_add_left hkey _

lemma pendB_refl (w : List Nat) : pendB w w = true := by
  induction w with
  | nil => rfl
  | cons a t ih => simp [pendB, ih]

lemma pendB_nil_right (w : List Nat) (h : w ≠ []) : pendB w [] = false := by
  cases w with
  | nil => exact absurd rfl h
  | cons a t => rfl

lemma pendB_succ_iff (u : List Nat) (j : Nat) :
    ∀ v : List Nat, pendB (u ++ [j]) v = true ↔
      (pendB (u ++ [j + 1]) v = true ∨ (u ++ [j]) <+: v) := by
  induction u with
  | nil =>
      intro v
      cases v with
      | nil => simp [pendB]
      | cons b r =>
          simp only [List.nil_append, pendB, Bool.or_eq_true,
            Bool.and_eq_true, decide_eq_true_eq, beq_iff_eq,
            List.cons_prefix_cons]
          constructor
          · rintro (h | ⟨h, _⟩)
            · by_cases hb : j + 1 = b
              · exact Or.inl (Or.inr ⟨hb, by cases r <;> simp [pendB]⟩)
              · by_cases hb2 : j + 1 < b
                · exact Or.inl (Or.inl hb2)
                · omega
            · exact Or.inr ⟨h, by simp⟩
          · rintro ((h | ⟨h, _⟩) | ⟨h, _⟩)
            · exact Or.inl (by omega)
            · exact Or.inl (by omega)
            · exact Or.inr ⟨h, by cases r <;> simp [pendB]⟩
  | cons a u' ih =>
      intro v
      cases v with
      | nil => simp [pendB]
      | cons b r =>
          simp only [List.cons_append, pendB, Bool.or_eq_true,
            Bool.and_eq_true, decide_eq_true_eq, beq_iff_eq,
            List.cons_prefix_cons]
          constructor
          · rintro (h | ⟨h, h2⟩)
            · exact Or.inl (Or.inl h)
            · rcases (ih r).mp h2 with h3 | h3
              · exact Or.inl (Or.inr ⟨h, h3⟩)
              · exact Or.inr ⟨h, h3⟩
          · rintro ((h | ⟨h, h2⟩) | ⟨h, h2⟩)
            · exact Or.inl h
            · exact Or.inr ⟨h, (ih r).mpr (Or.inl h2)⟩
            · exact Or.inr ⟨h, (ih r).mpr (Or.inr h2)⟩

lemma pendB_imp_prefix_or_lex :
    ∀ (w v : List Nat), pendB w v = true →
      w <+: v ∨ List.Lex (· < ·) w v := by
  intro w
  induction w with
  | nil => intro v _; exact Or.inl (by simp)
  | cons a t ih =>
      intro v hv
      cases v with
      | nil => simp [pendB] at hv
      | cons b r =>
          simp only [pendB, Bool.or_eq_true, Bool.and_eq_true,
            decide_eq_true_eq, beq_iff_eq] at hv
          rcases hv with h | ⟨h, h2⟩
          · exact Or.inr (List.Lex.rel h)
          · subst h
            rcases ih r h2 with h3 | h3
            · exact Or.inl (List.cons_prefix_cons.mpr ⟨rfl, h3⟩)
            · exact Or.inr (List.Lex.cons h3)

lemma lex_concat_lt (j j' : Nat) (hj : j < j') :
    ∀ (u rest : List Nat), List.Lex (· < ·) (u ++ [j]) (u ++ [j'] ++ rest) := by
  intro u
  induction u with
  | nil => intro rest; exact List.Lex.rel hj
  | cons a t ih => intro rest; exact List.Lex.cons (ih rest)

lemma pendB_pop (B j k : Nat) (hB : B ≤ j) :
    ∀ (u0 v : List Nat), (∀ x ∈ v, x < B) →
      u0.length + 2 ≤ v.length →
      pendB (u0 ++ [k] ++ [j]) v = pendB (u0 ++ [k + 1]) v := by
  intro u0
  induction u0 with
  | nil =>
      intro v hvB hvl
      match v with
      | b :: c :: r =>
          have hc : c < B := hvB c (by simp)
          rw [Bool.eq_iff_iff]
          simp only [List.nil_append, List.cons_append, pendB,
            Bool.or_eq_true, Bool.and_eq_true, decide_eq_true_eq,
            beq_iff_eq, and_true]
          omega
  | cons a u0' ih =>
      intro v hvB hvl
      match v with
      | b :: r =>
          simp only [List.cons_append, pendB, List.append_eq]
          rw [ih r (fun x hx => hvB x (List.mem_cons_of_mem b hx))
            (by simpa using hvl)]

lemma pendB_push :
    ∀ (w v : List Nat), w.length < v.length →
      pendB (w ++ [0]) v = pendB w v := by
  intro w
  induction w with
  | nil =>
      intro v hv
      match v with
      | b :: r =>
          simp only [List.nil_append, pendB]
          by_cases hb : 0 < b
          · simp [hb]
          · have : b = 0 := by omega
            subst this
            simp [pendB]
  | cons a t ih =>
      intro v hv
      match v with
      | b :: r =>
          simp only [List.cons_append, pendB, List.append_eq]
          rw [ih r (by simpa using hv)]

lemma pendB_root_false (B j : Nat) (hB : B ≤ j) (v : List Nat)
    (hvB : ∀ x ∈ v, x < B) (hv : v ≠ []) : pendB [j] v = false := by
  match v with
  | b :: r =>
      have hb : b < B := hvB b (by simp)
      simp only [pendB, Bool.or_eq_false_iff, Bool.and_eq_false_iff]
      constructor
      · simp only [decide_eq_false_iff_not]
        omega
      · left
        simp only [beq_eq_false_iff_ne, ne_eq]
        omega

lemma pendB_zero (v : List Nat) (hv : v ≠ []) : pendB [0] v = true := by
  match v with
  | b :: r =>
      by_cases hb : 0 < b
      · simp [pendB, hb]
      · have : b = 0 := by omega
        subst this
        simp [pendB]

lemma stepsOK_append (P T : Graph) :
    ∀ (xs ys acc : List Nat),
      stepsOK P T acc (xs ++ ys) =
        (stepsOK P T acc xs && stepsOK P T (acc ++ xs) ys) := by
  intro xs
  induction xs with
  | nil => intro ys acc; simp [stepsOK]
  | cons j t ih =>
      intro ys acc
      simp only [List.cons_append, stepsOK, List.append_eq,
        ih ys (acc ++ [j]), Bool.and_assoc, List.append_assoc,
        List.singleton_append, List.nil_append]

lemma stepsOK_concat (P T : Graph) (acc u : List Nat) (j : Nat) :
    stepsOK P T acc (u ++ [j]) =
      (stepsOK P T acc u && stepOK P T (acc ++ u) j) := by
  rw [stepsOK_append]
  simp [stepsOK]

lemma mem_lexEnum (b : Nat) :
    ∀ (n : Nat) (v : List Nat),
      v ∈ lexEnum n b ↔ (v.length = n ∧ ∀ x ∈ v, x < b) := by
  intro n
  induction n with
  | zero =>
      intro v
      simp only [lexEnum, List.mem_singleton]
      constructor
      · rintro rfl; simp
      · rintro ⟨h, _⟩
        exact List.eq_nil_of_length_eq_zero h
  | succ n ih =>
      intro v
      simp only [lexEnum, List.mem_flatMap, List.mem_map, List.mem_range]
      constructor
      · rintro ⟨j, hj, w, hw, rfl⟩
        obtain ⟨hl, hb⟩ := (ih w).mp hw
        refine ⟨by simp [hl], ?_⟩
        intro x hx
        rcases List.mem_cons.mp hx with rfl | hx
        · exact hj
        · exact hb x hx
      · rintro ⟨hl, hb⟩
        match v with
        | x :: w =>
            refine ⟨x, hb x (by simp), w, (ih w).mpr ⟨by simpa using hl,
              fun y hy => hb y (List.mem_cons_of_mem x hy)⟩, rfl⟩

lemma lexEnum_sorted (b : Nat) :
    ∀ n : Nat, (lexEnum n b).Pairwise (List.Lex (· < ·)) := by
  intro n
  induction n with
  | zero => simp [lexEnum]
  | succ n ih =>
      rw [lexEnum, List.pairwise_flatMap]
      constructor
      · intro j _
        rw [List.pairwise_map]
        exact ih.imp (fun h => List.Lex.cons h)
      · have := List.pairwise_lt_range b
        refine this.imp_of_mem ?_
        intro j1 j2 _ _ hlt x hx y hy
        obtain ⟨w1, _, rfl⟩ := List.mem_map.mp hx
        obtain ⟨w2, _, rfl⟩ := List.mem_map.mp hy
        exact List.Lex.rel hlt

lemma lex_irrefl (w : List Nat) : ¬ List.Lex (· < ·) w w := by
  intro h
  exact IsAsymm.asymm w w h h

lemma lexEnum_nodup (b n : Nat) : (lexEnum n b).Nodup := by
  have := lexEnum_sorted b n
  exact this.imp (fun h heq => absurd (heq ▸ h) (lex_irrefl _))

lemma okWords_sorted (P T : Graph) :
    (okWords P T).Pairwise (List.Lex (· < ·)) :=
  (lexEnum_sorted _ _).sublist (List.filter_sublist _)

lemma okWords_nodup (P T : Graph) : (okWords P T).Nodup :=
  (lexEnum_nodup _ _).sublist (List.filter_sublist _)

lemma mem_okWords (P T : Graph) (v : List Nat) :
    v ∈ okWords P T ↔
      (v.length = P.nodes.length ∧ (∀ x ∈ v, x < T.nodes.length) ∧
        stepsOK P T [] v = true) := by
  rw [okWords, List.mem_filter, mem_lexEnum]
  tauto

lemma filter_extract {α : Type} [DecidableEq α] (r : α → α → Prop)
    (hasymm : ∀ x y, r x y → r y x → False) (q : α → Bool) (w : α)
    (hq : ∀ v, q v = true → r w v) :
    ∀ l : List α, l.Pairwise r → w ∈ l →
      l.filter (fun v => decide (v = w) || q v) = w :: l.filter q := by
  intro l
  induction l with
  | nil => intro _ hw; exact absurd hw (List.not_mem_nil w)
  | cons a t ih =>
      intro hp hw
      have hpt := List.pairwise_cons.mp hp
      by_cases haw : a = w
      · subst haw
        have hqa : q a = false := by
          rcases hqa : q a with _ | _
          · rfl
          · exact absurd (hasymm a a (hq a hqa) (hq a hqa)) (fun h => h)
        rw [List.filter_cons, List.filter_cons]
        simp only [decide_eq_true_eq, hqa, Bool.or_false]
        rw [if_pos (by simp), if_neg (by simp)]
        congr 1
        apply List.filter_congr
        intro v hv
        have hrv := hpt.1 v hv
        have hvw : decide (v = a) = false := by
          simp only [decide_eq_false_iff_not]
          intro heq
          subst heq
          exact hasymm v v hrv hrv
        simp [hvw]
      · have hw' : w ∈ t := by
          rcases List.mem_cons.mp hw with h | h
          · exact absurd h.symm haw
          · exact h
        have hqa : q a = false := by
          rcases hqa : q a with _ | _
          · rfl
          · exact absurd (hasymm w a (hq a hqa) (hpt.1 w hw'))
              (fun h => h)
        rw [List.filter_cons, List.filter_cons]
        have haw2 : decide (a = w) = false := by
          simp only [decide_eq_false_iff_not]
          exact haw
        rw [haw2, hqa]
        simp only [Bool.or_false, if_neg (by simp : ¬ false = true)]
        rw [ih hpt.2 hw']

lemma stepOK_false_label (P T : Graph) (u : List Nat) (j : Nat)
    (hlab : labelTest P T u.length j = false) :
    stepOK P T u j = false := by
  simp [stepOK, hlab]

lemma stepOK_false_edge (P T : Graph) (u : List Nat) (j : Nat)
    (hedge : edgeTest P T (u ++ [j]) u.length j = false) :
    stepOK P T u j = false := by
  simp [stepOK, hedge]

lemma stepOK_true_intro (P T : Graph) (u : List Nat) (j : Nat)
    (hj : j < T.nodes.length) (hlab : labelTest P T u.length j = true)
    (hedge : edgeTest P T (u ++ [j]) u.length j = true) :
    stepOK P T u j = true := by
  simp [stepOK, hj, hlab, hedge]

lemma prefix_not_okWord (P T : Graph) (u : List Nat) (j : Nat)
    (hstep : stepOK P T u j = false) (v : List Nat)
    (hv : v ∈ okWords P T) : ¬ ((u ++ [j]) <+: v) := by
  intro hpre
  obtain ⟨t, rfl⟩ := hpre
  have hsteps := ((mem_okWords P T _).mp hv).2.2
  rw [stepsOK_append, stepsOK_concat] at hsteps
  simp only [List.nil_append, hstep, Bool.and_false, Bool.false_and]
    at hsteps
  exact absurd hsteps (by simp)

lemma pendB_bump_eq (P T : Graph) (u : List Nat) (j : Nat)
    (hstep : stepOK P T u j = false) (v : List Nat)
    (hv : v ∈ okWords P T) :
    pendB (u ++ [j]) v = pendB (u ++ [j + 1]) v := by
  rw [Bool.eq_iff_iff, pendB_succ_iff]
  exact or_iff_left (prefix_not_okWord P T u j hstep v hv)

lemma okWords_filter_match (P T : Graph) (u : List Nat) (j : Nat)
    (hw : (u ++ [j]) ∈ okWords P T) :
    (okWords P T).filter (fun v => pendB (u ++ [j]) v) =
      (u ++ [j]) ::
        (okWords P T).filter (fun v => pendB (u ++ [j + 1]) v) := by
  have hlenw : (u ++ [j]).length = P.nodes.length :=
    ((mem_okWords P T _).mp hw).1
  have hstep1 : (okWords P T).filter (fun v => pendB (u ++ [j]) v) =
      (okWords P T).filter
        (fun v => decide (v = (u ++ [j])) || pendB (u ++ [j + 1]) v) := by
    apply List.filter_congr
    intro v hv
    have hlenv : v.length = P.nodes.length :=
      ((mem_okWords P T _).mp hv).1
    rw [Bool.eq_iff_iff, pendB_succ_iff]
    simp only [Bool.or_eq_true, decide_eq_true_eq]
    constructor
    · rintro (h | h)
      · exact Or.inr h
      · exact Or.inl (h.eq_of_length (by omega)).symm
    · rintro (h | h)
      · exact Or.inr (h ▸ List.prefix_refl v)
      · exact Or.inl h
  rw [hstep1]
  refine filter_extract (List.Lex (· < ·))
    (fun x y h1 h2 => IsAsymm.asymm x y h1 h2)
    (fun v => pendB (u ++ [j + 1]) v) (u ++ [j]) ?_ (okWords P T)
    (okWords_sorted P T) hw
  intro v hqv
  rcases pendB_imp_prefix_or_lex (u ++ [j + 1]) v hqv with hpre | hlex
  · obtain ⟨t, rfl⟩ := hpre
    exact lex_concat_lt j (j + 1) (by omega) u t
  · have h1 : List.Lex (· < ·) (u ++ [j]) (u ++ [j + 1]) := by
      have := lex_concat_lt j (j + 1) (by omega) u []
      simpa using this
    exact IsTrans.trans _ _ _ h1 hlex

lemma matchLoop_pop (P T : Graph) (f : Nat) (u : List Nat) (j : Nat)
    (ms : List GraphMapping) (hj : T.nodes.length ≤ j) :
    matchLoop P T (f + 1) (stackFor (u ++ [j])) ms =
      matchLoop P T f
        (match stackFor u with
         | [] => []
         | parent :: rest =>
            ({ parent with node_mapping := bumpLast parent.node_mapping }
              :: rest)) ms := by
  rw [stackFor_concat]
  simp only [matchLoop]
  rw [List.getLastD_concat]
  rw [if_pos hj]
  cases hsu : stackFor u with
  | nil => rfl
  | cons parent rest => rfl

lemma matchLoop_bumpLabel (P T : Graph) (f : Nat) (u : List Nat)
    (j : Nat) (ms : List GraphMapping) (hj : ¬ T.nodes.length ≤ j)
    (hlab : labelTest P T u.length j = false) :
    matchLoop P T (f + 1) (stackFor (u ++ [j])) ms =
      matchLoop P T f (stackFor (u ++ [j + 1])) ms := by
  rw [stackFor_concat]
  simp only [matchLoop]
  rw [List.getLastD_concat]
  rw [if_neg hj]
  have hi : (u ++ [j]).length - 1 = u.length := by simp
  rw [hi, hlab]
  simp only [Bool.not_false, if_pos]
  rw [bumpLast_concat, stackFor_concat]

lemma matchLoop_bumpEdge (P T : Graph) (f : Nat) (u : List Nat)
    (j : Nat) (ms : List GraphMapping) (hj : ¬ T.nodes.length ≤ j)
    (hlab : labelTest P T u.length j = true)
    (hedge : edgeTest P T (u ++ [j]) u.length j = false) :
    matchLoop P T (f + 1) (stackFor (u ++ [j])) ms =
      matchLoop P T f (stackFor (u ++ [j + 1])) ms := by
  rw [stackFor_concat]
  simp only [matchLoop]
  rw [List.getLastD_concat]
  rw [if_neg hj]
  have hi : (u ++ [j]).length - 1 = u.length := by simp
  rw [hi, hlab, hedge]
  simp only [Bool.not_true, Bool.false_eq_true, if_false,
    Bool.not_false, if_pos]
  rw [bumpLast_concat, stackFor_concat]

lemma matchLoop_found (P T : Graph) (f : Nat) (u : List Nat) (j : Nat)
    (ms : List GraphMapping) (hj : ¬ T.nodes.length ≤ j)
    (hlab : labelTest P T u.length j = true)
    (hedge : edgeTest P T (u ++ [j]) u.length j = true)
    (hN : (u ++ [j]).length = P.nodes.length) :
    matchLoop P T (f + 1) (stackFor (u ++ [j])) ms =
      matchLoop P T f (stackFor (u ++ [j + 1]))
        (ms ++ [mkMatch P T (u ++ [j])]) := by
  rw [stackFor_concat]
  simp only [matchLoop]
  rw [List.getLastD_concat]
  rw [if_neg hj]
  have hi : (u ++ [j]).length - 1 = u.length := by simp
  rw [hi, hlab, hedge]
  simp only [Bool.not_true, Bool.false_eq_true, if_false]
  rw [if_pos (by simpa using hN)]
  rw [bumpLast_concat, stackFor_concat]

lemma matchLoop_push (P T : Graph) (f : Nat) (u : List Nat) (j : Nat)
    (ms : List GraphMapping) (hj : ¬ T.nodes.length ≤ j)
    (hlab : labelTest P T u.length j = true)
    (hedge : edgeTest P T (u ++ [j]) u.length j = true)
    (hN : (u ++ [j]).length ≠ P.nodes.length) :
    matchLoop P T (f + 1) (stackFor (u ++ [j])) ms =
      matchLoop P T f (stackFor (u ++ [j] ++ [0])) ms := by
  rw [stackFor_concat]
  simp only [matchLoop]
  rw [List.getLastD_concat]
  rw [if_neg hj]
  have hi : (u ++ [j]).length - 1 = u.length := by simp
  rw [hi, hlab, hedge]
  simp only [Bool.not_true, Bool.false_eq_true, if_false]
  rw [if_neg (by simpa using hN)]
  rw [stackFor_concat, stackFor_concat]

lemma stackFor_nil : stackFor ([] : List Nat) = [] := by
  rw [stackFor]

lemma matchLoop_pop_nil (P T : Graph) (f : Nat) (j : Nat)
    (ms : List GraphMapping) (hj : T.nodes.length ≤ j) :
    matchLoop P T (f + 1) (stackFor ([] ++ [j])) ms =
      matchLoop P T f [] ms := by
  rw [matchLoop_pop P T f [] j ms hj, stackFor_nil]

lemma matchLoop_pop_cons (P T : Graph) (f : Nat) (u0 : List Nat)
    (k j : Nat) (ms : List GraphMapping) (hj : T.nodes.length ≤ j) :
    matchLoop P T (f + 1) (stackFor (u0 ++ [k] ++ [j])) ms =
      matchLoop P T f (stackFor (u0 ++ [k + 1])) ms := by
  rw [matchLoop_pop P T f (u0 ++ [k]) j ms hj, stackFor_concat]
  show matchLoop P T f
    ((⟨bumpLast (u0 ++ [k]), []⟩ : GraphMapping) :: stackFor u0) ms = _
  rw [bumpLast_concat, stackFor_concat]

lemma matchLoop_master (P T : Graph) :
    ∀ (fuel : Nat) (w : List Nat) (ms : List GraphMapping),
    w ≠ [] →
    w.length ≤ P.nodes.length →
    (∀ x ∈ w.dropLast, x < T.nodes.length) →
    w.getLastD 0 ≤ T.nodes.length →
    stepsOK P T [] w.dropLast = true →
    (T.nodes.length + 2) ^ P.nodes.length + 2 ≤
      fuel + wordVal (T.nodes.length + 2) w *
        (T.nodes.length + 2) ^ (P.nodes.length - w.length) →
    matchLoop P T fuel (stackFor w) ms =
      some (ms ++ ((okWords P T).filter (fun v => pendB w v)).map
        (mkMatch P T)) := by
  intro fuel
  induction fuel with
  | zero =>
      intro w ms hne hlen hdrop hlast hsteps hfuel
      exfalso
      obtain ⟨u, j, rfl⟩ : ∃ u j, w = u ++ [j] :=
        ⟨w.dropLast, w.getLast hne,
          (List.dropLast_append_getLast hne).symm⟩
      rw [List.dropLast_concat] at hdrop
      rw [List.getLastD_concat] at hlast
      have hball : ∀ x ∈ u ++ [j], x ≤ T.nodes.length := by
        intro x hx
        rcases List.mem_append.mp hx with h | h
        · exact Nat.le_of_lt (hdrop x h)
        · rw [List.mem_singleton] at h
          subst h
          exact hlast
      have hmu := mu_lt T.nodes.length P.nodes.length (u ++ [j])
        hlen hball
      omega
  | succ f ih =>
      intro w ms hne hlen hdrop hlast hsteps hfuel
      obtain ⟨u, j, rfl⟩ : ∃ u j, w = u ++ [j] :=
        ⟨w.dropLast, w.getLast hne,
          (List.dropLast_append_getLast hne).symm⟩
      rw [List.dropLast_concat] at hdrop hsteps
      rw [List.getLastD_concat] at hlast
      have hballw : ∀ x ∈ u ++ [j], x ≤ T.nodes.length := by
        intro x hx
        rcases List.mem_append.mp hx with h | h
        · exact Nat.le_of_lt (hdrop x h)
        · rw [List.mem_singleton] at h
          subst h
          exact hlast
      have hlenuj : (u ++ [j]).length = u.length + 1 := by simp
      by_cases hj : T.nodes.length ≤ j
      · -- backtrack
        cases hu : u with
        | nil =>
            subst hu
            rw [matchLoop_pop_nil P T f j ms hj]
            have hmu := mu_lt T.nodes.length P.nodes.length ([] ++ [j])
              hlen hballw
            have hf1 : 1 ≤ f := by omega
            obtain ⟨f2, rfl⟩ : ∃ f2, f = f2 + 1 :=
              ⟨f - 1, by omega⟩
            have hfilter : (okWords P T).filter
                (fun v => pendB ([] ++ [j]) v) = [] := by
              rw [List.filter_eq_nil_iff]
              intro v hv
              obtain ⟨hvl, hvB, _⟩ := (mem_okWords P T v).mp hv
              have hvne : v ≠ [] := by
                intro hcon
                rw [hcon] at hvl
                simp at hvl
                omega
              rw [List.nil_append,
                pendB_root_false T.nodes.length j hj v hvB hvne]
              simp
            rw [hfilter]
            simp [matchLoop]
        | cons a u' =>
            obtain ⟨u0, k, hu0⟩ : ∃ u0 k, u = u0 ++ [k] := by
              subst hu
              exact ⟨(a :: u').dropLast, (a :: u').getLast (by simp),
                (List.dropLast_append_getLast (by simp)).symm⟩
            rw [← hu] at *
            subst hu0
            rw [matchLoop_pop_cons P T f u0 k j ms hj]
            have hkB : k < T.nodes.length := by
              apply hdrop
              simp
            have hstepsu0 : stepsOK P T [] u0 = true := by
              rw [stepsOK_concat] at hsteps
              simp only [Bool.and_eq_true] at hsteps
              exact hsteps.1
            have hlen2 : u0.length + 2 ≤ P.nodes.length := by
              have : (u0 ++ [k] ++ [j]).length = u0.length + 2 := by simp
              omega
            have hmu := mu_pop_lt T.nodes.length P.nodes.length u0 k j
              hlast hlen2
            rw [ih (u0 ++ [k + 1]) ms (by simp)
              (by simp only [List.length_append, List.length_singleton]
                  omega)
              (by rw [List.dropLast_concat]
                  intro x hx
                  exact hdrop x (List.mem_append_left _ hx))
              (by rw [List.getLastD_concat]; omega)
              (by rw [List.dropLast_concat]; exact hstepsu0)
              (by omega)]
            congr 3
            apply List.filter_congr
            intro v hv
            obtain ⟨hvl, hvB, _⟩ := (mem_okWords P T v).mp hv
            exact (pendB_pop T.nodes.length j k hj u0 v hvB
              (by omega)).symm
      · -- j is a viable candidate index
        have hjB : j < T.nodes.length := by omega
        cases hlab : labelTest P T u.length j with
        | false =>
            rw [matchLoop_bumpLabel P T f u j ms hj hlab]
            have hstep : stepOK P T u j = false :=
              stepOK_false_label P T u j hlab
            have hmu := mu_bump_lt T.nodes.length P.nodes.length u j
            rw [ih (u ++ [j + 1]) ms (by simp)
              (by simp only [List.length_append, List.length_singleton]
                  omega)
              (by rw [List.dropLast_concat]; exact hdrop)
              (by rw [List.getLastD_concat]; omega)
              (by rw [List.dropLast_concat]; exact hsteps)
              (by omega)]
            congr 3
            apply List.filter_congr
            intro v hv
            exact (pendB_bump_eq P T u j hstep v hv).symm
        | true =>
            cases hedge : edgeTest P T (u ++ [j]) u.length j with
            | false =>
                rw [matchLoop_bumpEdge P T f u j ms hj hlab hedge]
                have hstep : stepOK P T u j = false :=
                  stepOK_false_edge P T u j hedge
                have hmu := mu_bump_lt T.nodes.length P.nodes.length u j
                rw [ih (u ++ [j + 1]) ms (by simp)
                  (by simp only [List.length_append, List.length_singleton]
                      omega)
                  (by rw [List.dropLast_concat]; exact hdrop)
                  (by rw [List.getLastD_concat]; omega)
                  (by rw [List.dropLast_concat]; exact hsteps)
                  (by omega)]
                congr 3
                apply List.filter_congr
                intro v hv
                exact (pendB_bump_eq P T u j hstep v hv).symm
            | true =>
                have hstepT : stepOK P T u j = true :=
                  stepOK_true_intro P T u j hjB hlab hedge
                have hstepsw : stepsOK P T [] (u ++ [j]) = true := by
                  rw [stepsOK_concat]
                  simp only [List.nil_append]
                  rw [hsteps, hstepT]
                  rfl
                by_cases hN : (u ++ [j]).length = P.nodes.length
                · rw [matchLoop_found P T f u j ms hj hlab hedge hN]
                  have hw : (u ++ [j]) ∈ okWords P T := by
                    rw [mem_okWords]
                    refine ⟨hN, ?_, hstepsw⟩
                    intro x hx
                    rcases List.mem_append.mp hx with h | h
                    · exact hdrop x h
                    · rw [List.mem_singleton] at h
                      subst h
                      exact hjB
                  have hmu := mu_bump_lt T.nodes.length P.nodes.length u j
                  rw [ih (u ++ [j + 1]) (ms ++ [mkMatch P T (u ++ [j])])
                    (by simp)
                    (by simp only [List.length_append,
                          List.length_singleton]
                        omega)
                    (by rw [List.dropLast_concat]; exact hdrop)
                    (by rw [List.getLastD_concat]; omega)
                    (by rw [List.dropLast_concat]; exact hsteps)
                    (by omega)]
                  rw [okWords_filter_match P T u j hw]
                  rw [List.map_cons]
                  simp [List.append_assoc]
                · rw [matchLoop_push P T f u j ms hj hlab hedge hN]
                  have hlenlt : (u ++ [j]).length < P.nodes.length := by
                    omega
                  have hmu := mu_push_lt T.nodes.length P.nodes.length
                    (u ++ [j]) hlenlt
                  rw [ih (u ++ [j] ++ [0]) ms (by simp)
                    (by simp only [List.length_append,
                          List.length_singleton]
                        simp only [List.length_append,
                          List.length_singleton] at hlenlt
                        omega)
                    (by rw [List.dropLast_concat]
                        intro x hx
                        rcases List.mem_append.mp hx with h | h
                        · exact hdrop x h
                        · rw [List.mem_singleton] at h
                          subst h
                          exact hjB)
                    (by rw [List.getLastD_concat]; omega)
                    (by rw [List.dropLast_concat]; exact hstepsw)
                    (by omega)]
                  congr 3
                  apply List.filter_congr
                  intro v hv
                  obtain ⟨hvl, _, _⟩ := (mem_okWords P T v).mp hv
                  exact pendB_push (u ++ [j]) v (by omega)

/-! ## From the loop invariant to the matcher's specification -/

lemma getD_take_concat (w : List Nat) (i p : Nat) (hp : p ≤ i)
    (hi : i < w.length) :
    (w.take i ++ [w.getD i 0]).getD p 0 = w.getD p 0 := by
  rcases Nat.lt_or_ge p i with h | h
  · have hlen : (w.take i).length = i := by simp [Nat.le_of_lt hi]
    rw [List.getD_eq_getElem?_getD, List.getD_eq_getElem?_getD,
      List.getElem?_append, hlen, if_pos h, List.getElem?_take, if_pos h,
      List.getD_eq_getElem?_getD]
  · have hpe : p = i := Nat.le_antisymm hp h
    subst hpe
    have hlen : (w.take p).length = p := by simp [Nat.le_of_lt hi]
    rw [List.getD_eq_getElem?_getD, List.getElem?_append, hlen]
    simp

lemma stepsOK_steps (P T : Graph) :
    ∀ (w u : List Nat), stepsOK P T u w = true →
      ∀ i < w.length, stepOK P T (u ++ w.take i) (w.getD i 0) = true := by
  intro w
  induction w with
  | nil => intro u _ i hi; simp at hi
  | cons j rest ih =>
      intro u hs i hi
      rw [stepsOK] at hs
      simp only [Bool.and_eq_true] at hs
      match i with
      | 0 => simpa using hs.1
      | k + 1 =>
          have h := ih (u ++ [j]) hs.2 k
            (by simp only [List.length_cons] at hi; omega)
          simpa [List.append_assoc] using h

lemma stepsOK_intro (P T : Graph) :
    ∀ (w u : List Nat),
      (∀ i < w.length, stepOK P T (u ++ w.take i) (w.getD i 0) = true) →
      stepsOK P T u w = true := by
  intro w
  induction w with
  | nil => intro u _; rfl
  | cons j rest ih =>
      intro u h
      rw [stepsOK]
      simp only [Bool.and_eq_true]
      constructor
      · simpa using h 0 (by simp)
      · apply ih (u ++ [j])
        intro i hi
        have h2 := h (i + 1)
          (by simp only [List.length_cons]; omega)
        simpa [List.append_assoc] using h2

lemma stepsOK_label (P T : Graph) (w : List Nat)
    (hs : stepsOK P T [] w = true) (i : Nat) (hi : i < w.length) :
    labelTest P T i (w.getD i 0) = true := by
  have h := stepsOK_steps P T w [] hs i hi
  rw [stepOK] at h
  simp only [Bool.and_eq_true] at h
  have hlen : (([] : List Nat) ++ w.take i).length = i := by
    simp [Nat.le_of_lt hi]
  have h2 := h.1.2
  rw [hlen] at h2
  exact h2

lemma stepsOK_edge (P T : Graph) (w : List Nat)
    (hs : stepsOK P T [] w = true) (pe : Edge) (hpe : pe ∈ P.edges)
    (hh : pe.head < w.length) (ht : pe.tail < w.length) :
    ∃ te ∈ T.edges,
      te.head = w.getD pe.head 0 ∧ te.tail = w.getD pe.tail 0 := by
  rcases le_or_lt pe.tail pe.head with hcase | hcase
  · have h := stepsOK_steps P T w [] hs pe.head hh
    rw [stepOK] at h
    simp only [Bool.and_eq_true] at h
    have he := h.2
    rw [edgeTest, List.all_eq_true] at he
    have hb := he pe hpe
    have hlen : (([] : List Nat) ++ w.take pe.head).length = pe.head := by
      simp [Nat.le_of_lt hh]
    rw [hlen] at hb
    rw [if_pos (by simp [hcase])] at hb
    rw [List.any_eq_true] at hb
    obtain ⟨te, hte, hcond⟩ := hb
    simp only [Bool.and_eq_true, beq_iff_eq] at hcond
    refine ⟨te, hte, hcond.1, ?_⟩
    rw [hcond.2]
    have hg := getD_take_concat w pe.head pe.tail hcase hh
    simpa using hg
  · have h := stepsOK_steps P T w [] hs pe.tail ht
    rw [stepOK] at h
    simp only [Bool.and_eq_true] at h
    have he := h.2
    rw [edgeTest, List.all_eq_true] at he
    have hb := he pe hpe
    have hlen : (([] : List Nat) ++ w.take pe.tail).length = pe.tail := by
      simp [Nat.le_of_lt ht]
    rw [hlen] at hb
    rw [if_neg (by simp; omega)] at hb
    rw [if_pos (by simp; omega)] at hb
    rw [List.any_eq_true] at hb
    obtain ⟨te, hte, hcond⟩ := hb
    simp only [Bool.and_eq_true, beq_iff_eq] at hcond
    refine ⟨te, hte, ?_, hcond.1⟩
    rw [hcond.2]
    have hg := getD_take_concat w pe.tail pe.head (Nat.le_of_lt hcase) ht
    simpa using hg

lemma spec_to_stepsOK (P T : Graph) (w : List Nat)
    (hlen : w.length = P.nodes.length)
    (hrange : ∀ x ∈ w, x < T.nodes.length)
    (hspec : specAssignOK P T w) :
    stepsOK P T [] w = true := by
  apply stepsOK_intro
  intro i hi
  have hwi : w.getD i 0 ∈ w := by
    rw [List.getD_eq_getElem?_getD, List.getElem?_eq_getElem hi]
    simpa using List.getElem_mem hi
  have hulen : (([] : List Nat) ++ w.take i).length = i := by
    simp [Nat.le_of_lt hi]
  rw [stepOK]
  simp only [Bool.and_eq_true]
  refine ⟨⟨by simpa using hrange _ hwi, ?_⟩, ?_⟩
  · rw [hulen, labelTest]
    by_cases hl : (P.nodes.getD i default).attrs.label = ""
    · simp only [Bool.or_eq_true, beq_iff_eq]
      exact Or.inl hl
    · simp only [Bool.or_eq_true, beq_iff_eq]
      exact Or.inr (hspec.1 i (by omega) hl)
  · rw [edgeTest, List.all_eq_true]
    intro pe hpe
    rw [hulen]
    obtain ⟨te, hte, hteh, htet⟩ := hspec.2 pe hpe
    by_cases h1 : (pe.head == i && decide (pe.tail ≤ i)) = true
    · rw [if_pos h1, List.any_eq_true]
      simp only [Bool.and_eq_true, beq_iff_eq, decide_eq_true_eq] at h1
      refine ⟨te, hte, ?_⟩
      simp only [Bool.and_eq_true, beq_iff_eq]
      constructor
      · rw [hteh, h1.1]
      · rw [htet]
        have hg := getD_take_concat w i pe.tail h1.2 hi
        simp only [List.nil_append]
        exact hg.symm
    · rw [if_neg h1]
      by_cases h2 : (pe.tail == i && decide (pe.head ≤ i)) = true
      · rw [if_pos h2, List.any_eq_true]
        simp only [Bool.and_eq_true, beq_iff_eq, decide_eq_true_eq] at h2
        refine ⟨te, hte, ?_⟩
        simp only [Bool.and_eq_true, beq_iff_eq]
        constructor
        · rw [htet, h2.1]
        · rw [hteh]
          have hg := getD_take_concat w i pe.head h2.2 hi
          simp only [List.nil_append]
          exact hg.symm
      · rw [if_neg h2]

lemma mem_okWords_spec (P T : Graph) (hP : GraphWF P) (v : List Nat) :
    v ∈ okWords P T ↔
      (v.length = P.nodes.length ∧ (∀ x ∈ v, x < T.nodes.length) ∧
        specAssignOK P T v) := by
  rw [mem_okWords]
  constructor
  · rintro ⟨h1, h2, h3⟩
    refine ⟨h1, h2, ?_, ?_⟩
    · intro i hi hne
      have hl := stepsOK_label P T v h3 i (by omega)
      rw [labelTest] at hl
      simp only [Bool.or_eq_true, beq_iff_eq] at hl
      rcases hl with h | h
      · exact absurd h hne
      · exact h
    · intro pe hpe
      obtain ⟨hh, ht⟩ := hP pe hpe
      exact stepsOK_edge P T v h3 pe hpe (by omega) (by omega)
  · rintro ⟨h1, h2, h3⟩
    exact ⟨h1, h2, spec_to_stepsOK P T v h1 h2 h3⟩

lemma mem_matchEdgeMapping (P T : Graph) (w : List Nat) (mi : Nat)
    (hmi : mi < P.edges.length) (n : Nat) :
    n ∈ (matchEdgeMapping P T w).getD mi [] ↔
      (n < T.edges.length ∧
        (T.edges.getD n default).head =
          w.getD (P.edges.getD mi default).head 0 ∧
        (T.edges.getD n default).tail =
          w.getD (P.edges.getD mi default).tail 0) := by
  have hE : (matchEdgeMapping P T w).getD mi [] =
      (List.range T.edges.length).filter (fun n =>
        (T.edges.getD n default).head ==
          w.getD (P.edges.getD mi default).head 0 &&
        (T.edges.getD n default).tail ==
          w.getD (P.edges.getD mi default).tail 0) := by
    rw [matchEdgeMapping, List.getD_eq_getElem?_getD, List.getElem?_map,
      List.getElem?_eq_getElem hmi]
    rw [List.getD_eq_getElem?_getD P.edges mi default,
      List.getElem?_eq_getElem hmi]
    rfl
  rw [hE, List.mem_filter, List.mem_range]
  simp [Bool.and_eq_true, beq_iff_eq]

lemma stackFor_zero : stackFor [0] = [⟨[0], []⟩] := by
  rw [stackFor]
  simp [stackFor_nil]

lemma findMatches_eq (P T : Graph) (hN : 1 ≤ P.nodes.length) :
    findMatches P T = findMatchesSpec P T := by
  have h := matchLoop_master P T (matchFuel P T) [0] []
    (by simp)
    (by simpa using hN)
    (by simp)
    (by simp)
    (by simp [stepsOK])
    (by rw [matchFuel]; omega)
  rw [findMatches, ← stackFor_zero, h]
  have hf : (okWords P T).filter (fun v => pendB [0] v) = okWords P T := by
    apply List.filter_eq_self.mpr
    intro v hv
    obtain ⟨hvl, _, _⟩ := (mem_okWords P T v).mp hv
    apply pendB_zero
    intro hnil
    rw [hnil] at hvl
    simp at hvl
    omega
  rw [hf]
  rfl

lemma length_filter_eq_nodup {α : Type} [DecidableEq α] :
    ∀ (l : List α), l.Nodup → ∀ w : α,
      (l.filter (fun v => decide (v = w))).length =
        if w ∈ l then 1 else 0 := by
  intro l hl w
  induction l with
  | nil => simp
  | cons a l ih =>
      rw [List.nodup_cons] at hl
      by_cases h : a = w
      · subst h
        rw [List.filter_cons, if_pos (by simp)]
        have hz : l.filter (fun v => decide (v = a)) = [] := by
          apply List.filter_eq_nil_iff.mpr
          intro v hv
          simp only [decide_eq_true_eq]
          intro hva
          exact hl.1 (hva ▸ hv)
        simp [hz]
      · rw [List.filter_cons, if_neg (by simpa using h)]
        rw [ih hl.2]
        by_cases hw : w ∈ l
        · rw [if_pos hw, if_pos (List.mem_cons_of_mem a hw)]
        · have hnc : w ∉ a :: l := by
            intro hmem
            rcases List.mem_cons.mp hmem with he | he
            · exact h he.symm
            · exact hw he
          rw [if_neg hw, if_neg hnc]

/-- C1. Match soundness: for every mapping returned by `findMatches P T`
and every pattern edge (index `mi`), some target edge joins the images of
its endpoints, and the recorded `edge_mapping` entry for `mi` holds
exactly the indices of all target edges between those images (hence every
parallel edge). -/
theorem match_soundness (P T : Graph) (hP : GraphWF P)
    (hN : 1 ≤ P.nodes.length) :
    ∀ φ ∈ findMatches P T, ∀ mi < P.edges.length,
      (∃ te ∈ T.edges,
        te.head = φ.node_mapping.getD (P.edges.getD mi default).head 0 ∧
        te.tail = φ.node_mapping.getD (P.edges.getD mi default).tail 0) ∧
      (∀ n, n ∈ φ.edge_mapping.getD mi [] ↔
        (n < T.edges.length ∧
         (T.edges.getD n default).head =
           φ.node_mapping.getD (P.edges.getD mi default).head 0 ∧
         (T.edges.getD n default).tail =
           φ.node_mapping.getD (P.edges.getD mi default).tail 0)) := by
  rw [findMatches_eq P T hN, findMatchesSpec]
  intro φ hφ mi hmi
  obtain ⟨w, hw, rfl⟩ := List.mem_map.mp hφ
  obtain ⟨hl, hr, hsp⟩ := (mem_okWords_spec P T hP w).mp hw
  constructor
  · have hpe : P.edges.getD mi default ∈ P.edges := by
      rw [List.getD_eq_getElem?_getD, List.getElem?_eq_getElem hmi]
      simpa using List.getElem_mem hmi
    obtain ⟨te, hte, h1, h2⟩ := hsp.2 (P.edges.getD mi default) hpe
    exact ⟨te, hte, h1, h2⟩
  · intro n
    exact mem_matchEdgeMapping P T w mi hmi n

theorem match_soundness_witness :
    GraphWF pChainEx ∧ 1 ≤ pChainEx.nodes.length ∧
    (∀ φ ∈ findMatches pChainEx tTripleEx, ∀ mi < pChainEx.edges.length,
      (∃ te ∈ tTripleEx.edges,
        te.head =
          φ.node_mapping.getD (pChainEx.edges.getD mi default).head 0 ∧
        te.tail =
          φ.node_mapping.getD (pChainEx.edges.getD mi default).tail 0) ∧
      (∀ n, n ∈ φ.edge_mapping.getD mi [] ↔
        (n < tTripleEx.edges.length ∧
         (tTripleEx.edges.getD n default).head =
           φ.node_mapping.getD (pChainEx.edges.getD mi default).head 0 ∧
         (tTripleEx.edges.getD n default).tail =
           φ.node_mapping.getD (pChainEx.edges.getD mi default).tail 0))) :=
  ⟨by decide, by decide,
    match_soundness pChainEx tTripleEx (by decide) (by decide)⟩

/-- C2. Match completeness and ordering: `findMatches P T` holds exactly
one entry for each assignment word satisfying the §4.2 label and edge
constraints (injective or not) and zero entries otherwise, and the node
mappings of the returned sequence are strictly increasing in the
lexicographic order on target indices (index 0 tried first). -/
theorem match_completeness_ordered (P T : Graph) (hP : GraphWF P)
    (hN : 1 ≤ P.nodes.length) :
    (∀ w : List Nat, w.length = P.nodes.length →
      (∀ x ∈ w, x < T.nodes.length) →
      ((findMatches P T).filter
          (fun m => decide (m.node_mapping = w))).length =
        if specAssignOK P T w then 1 else 0) ∧
    ((findMatches P T).map GraphMapping.node_mapping).Pairwise
      (List.Lex (· < ·)) := by
  rw [findMatches_eq P T hN, findMatchesSpec]
  constructor
  · intro w hwl hwr
    rw [List.filter_map, List.length_map]
    have hcomp : ((fun m : GraphMapping => decide (m.node_mapping = w)) ∘
        mkMatch P T) = fun v => decide (v = w) := rfl
    rw [hcomp]
    rw [length_filter_eq_nodup (okWords P T) (okWords_nodup P T) w]
    have hmem : (w ∈ okWords P T) ↔ specAssignOK P T w := by
      rw [mem_okWords_spec P T hP w]
      constructor
      · rintro ⟨_, _, h⟩; exact h
      · intro h; exact ⟨hwl, hwr, h⟩
    by_cases hs : specAssignOK P T w
    · rw [if_pos (hmem.mpr hs), if_pos hs]
    · rw [if_neg (fun hc => hs (hmem.mp hc)), if_neg hs]
  · rw [List.map_map]
    have hmm : (okWords P T).map (GraphMapping.node_mapping ∘ mkMatch P T)
        = okWords P T := by
      have hid : (GraphMapping.node_mapping ∘ mkMatch P T) =
          fun v => v := rfl
      rw [hid, List.map_id']
    rw [hmm]
    exact okWords_sorted P T

theorem match_completeness_ordered_witness :
    GraphWF pChainEx ∧ 1 ≤ pChainEx.nodes.length ∧
    ((∀ w : List Nat, w.length = pChainEx.nodes.length →
      (∀ x ∈ w, x < tTripleEx.nodes.length) →
      ((findMatches pChainEx tTripleEx).filter
          (fun m => decide (m.node_mapping = w))).length =
        if specAssignOK pChainEx tTripleEx w then 1 else 0) ∧
    ((findMatches pChainEx tTripleEx).map
        GraphMapping.node_mapping).Pairwise (List.Lex (· < ·))) :=
  ⟨by decide, by decide,
    match_completeness_ordered pChainEx tTripleEx (by decide) (by decide)⟩

/-- C8. Matcher termination: for every pattern with at least one node and
every target, the backtracking loop of `findMatches`, run with the fuel
bound `matchFuel` on the initial one-frame stack, returns (it never
exhausts `matchFuel`, so the C++ while loop performs finitely many
iterations). -/
theorem matcher_terminates (P T : Graph) (hN : 1 ≤ P.nodes.length) :
    (matchLoop P T (matchFuel P T) [⟨[0], []⟩] []).isSome = true := by
  have h := matchLoop_master P T (matchFuel P T) [0] []
    (by simp)
    (by simpa using hN)
    (by simp)
    (by simp)
    (by simp [stepsOK])
    (by rw [matchFuel]; omega)
  rw [← stackFor_zero, h]
  rfl

theorem matcher_terminates_witness :
    1 ≤ pChainEx.nodes.length ∧
    (matchLoop pChainEx tTripleEx (matchFuel pChainEx tTripleEx)
        [⟨[0], []⟩] []).isSome = true :=
  ⟨by decide, matcher_terminates pChainEx tTripleEx (by decide)⟩

/-- C9. Match shape invariant: every mapping returned by `findMatches P T`
has a node mapping of length exactly the pattern's node count whose
entries are in-range target node indices, and an edge mapping of length
exactly the pattern's edge count. -/
theorem match_shape_invariant (P T : Graph) (hN : 1 ≤ P.nodes.length) :
    ∀ φ ∈ findMatches P T,
      φ.node_mapping.length = P.nodes.length ∧
      (∀ x ∈ φ.node_mapping, x < T.nodes.length) ∧
      φ.edge_mapping.length = P.edges.length := by
  rw [findMatches_eq P T hN, findMatchesSpec]
  intro φ hφ
  obtain ⟨w, hw, rfl⟩ := List.mem_map.mp hφ
  obtain ⟨hl, hr, _⟩ := (mem_okWords P T w).mp hw
  refine ⟨hl, hr, ?_⟩
  simp [mkMatch, matchEdgeMapping]

theorem match_shape_invariant_witness :
    1 ≤ pChainEx.nodes.length ∧
    (∀ φ ∈ findMatches pChainEx tTripleEx,
      φ.node_mapping.length = pChainEx.nodes.length ∧
      (∀ x ∈ φ.node_mapping, x < tTripleEx.nodes.length) ∧
      φ.edge_mapping.length = pChainEx.edges.length) :=
  ⟨by decide, match_shape_invariant pChainEx tTripleEx (by decide)⟩

/-! ## Generic indexing and counting lemmas for the applier -/

lemma getD_append_offset {α : Type} :
    ∀ (A B : List α) (k : Nat) (d : α),
      (A ++ B).getD (A.length + k) d = B.getD k d := by
  intro A B k d
  rw [List.getD_eq_getElem?_getD,
    List.getElem?_append_right (by omega), List.getD_eq_getElem?_getD]
  congr 2
  omega

lemma getD_append_small {α : Type} (A B : List α) (k : Nat) (d : α)
    (hk : k < A.length) :
    (A ++ B).getD k d = A.getD k d := by
  rw [List.getD_eq_getElem?_getD, List.getElem?_append, if_pos hk,
    List.getD_eq_getElem?_getD]

lemma getD_map_range {α : Type} (f : Nat → α) (n k : Nat) (d : α)
    (hk : k < n) :
    ((List.range n).map f).getD k d = f k := by
  rw [List.getD_eq_getElem?_getD, List.getElem?_map, List.getElem?_range hk]
  rfl

lemma getD_set_ne (l : List Nat) (i v x d : Nat) (h : i ≠ v) :
    (l.set i x).getD v d = l.getD v d := by
  rw [List.getD_eq_getElem?_getD, List.getElem?_set_ne h,
    ← List.getD_eq_getElem?_getD]

lemma getD_inj_of_nodup (l : List Nat) (hnd : l.Nodup) (i j : Nat)
    (hi : i < l.length) (hj : j < l.length)
    (h : l.getD i 0 = l.getD j 0) : i = j := by
  rw [List.getD_eq_getElem?_getD, List.getD_eq_getElem?_getD,
    List.getElem?_eq_getElem hi, List.getElem?_eq_getElem hj] at h
  simp only [Option.getD_some] at h
  exact (List.Nodup.getElem_inj_iff hnd).mp h

lemma nodup_of_getD_inj (l : List Nat)
    (h : ∀ i < l.length, ∀ j < l.length, l.getD i 0 = l.getD j 0 → i = j) :
    l.Nodup := by
  rw [List.nodup_iff_getElem?_ne_getElem?]
  intro i j hij hj hc
  have hi : i < l.length := Nat.lt_trans hij hj
  rw [List.getElem?_eq_getElem hi, List.getElem?_eq_getElem hj] at hc
  have he : l.getD i 0 = l.getD j 0 := by
    rw [List.getD_eq_getElem?_getD, List.getD_eq_getElem?_getD,
      List.getElem?_eq_getElem hi, List.getElem?_eq_getElem hj]
    simpa using hc
  have := h i hi j hj he
  omega

lemma length_filter_mem_range (l : List Nat) (n : Nat) (hnd : l.Nodup)
    (hrng : ∀ x ∈ l, x < n) :
    ((List.range n).filter (fun i => decide (i ∈ l))).length = l.length := by
  have h1 : ((List.range n).filter (fun i => decide (i ∈ l))).Nodup :=
    (List.nodup_range n).filter _
  have hperm : List.Perm
      ((List.range n).filter (fun i => decide (i ∈ l))) l := by
    apply List.perm_of_nodup_nodup_toFinset_eq h1 hnd
    ext x
    simp only [List.mem_toFinset, List.mem_filter, List.mem_range,
      decide_eq_true_eq]
    exact ⟨fun h => h.2, fun h => ⟨hrng x h, h⟩⟩
  exact hperm.length_eq

lemma length_filter_not_mem_range (l : List Nat) (n : Nat)
    (hnd : l.Nodup) (hrng : ∀ x ∈ l, x < n) :
    ((List.range n).filter (fun i => decide (i ∉ l))).length =
      n - l.length := by
  have hpred : (fun x => !(decide (x ∈ l))) =
      (fun x => decide (x ∉ l)) := by
    funext x
    simp
  have hperm := List.filter_append_perm
    (fun i => decide (i ∈ l)) (List.range n)
  have hlen := hperm.length_eq
  rw [List.length_append, hpred,
    length_filter_mem_range l n hnd hrng, List.length_range] at hlen
  omega

/-! ## Applier node-phase characterizations -/

lemma applyRule_nodes (rule : Rule) (target : Graph) (φ : GraphMapping) :
    (applyRule rule target φ).nodes =
      (rhsPhase rule target φ.node_mapping).1 := rfl

lemma applyRule_edges (rule : Rule) (target : Graph) (φ : GraphMapping) :
    (applyRule rule target φ).edges = applyEdges rule target φ := rfl

lemma keepFold_fst (target : Graph) (nm : List Nat) :
    ∀ (l : List Nat) (s : List Node × List Nat),
      (l.foldl (keepNodeStep target nm) s).1 =
        s.1 ++ (l.filter (fun i => decide (i ∉ nm))).map
          (fun i => target.nodes.getD i default) := by
  intro l
  induction l with
  | nil => intro s; simp
  | cons a l ih =>
      intro s
      rw [List.foldl_cons, List.filter_cons]
      by_cases h : a ∈ nm
      · rw [if_neg (by simp [h])]
        rw [show keepNodeStep target nm s a = s from by
          rw [keepNodeStep, if_pos h]]
        exact ih s
      · rw [if_pos (by simp [h])]
        rw [show keepNodeStep target nm s a =
            (s.1 ++ [target.nodes.getD a default],
             s.2.set a s.1.length) from by
          rw [keepNodeStep, if_neg h]]
        rw [ih]
        simp

lemma keepFold_snd_len (target : Graph) (nm : List Nat) :
    ∀ (l : List Nat) (s : List Node × List Nat),
      (l.foldl (keepNodeStep target nm) s).2.length = s.2.length := by
  intro l
  induction l with
  | nil => intro s; rfl
  | cons a l ih =>
      intro s
      rw [List.foldl_cons, ih]
      rw [keepNodeStep]
      by_cases h : a ∈ nm
      · rw [if_pos h]
      · rw [if_neg h]
        simp

lemma commonFold_fst (rule : Rule) (target : Graph) (nm : List Nat) :
    ∀ (l : List Nat) (s : List Node × List Nat),
      (l.foldl (commonNodeStep rule target nm) s).1 =
        s.1 ++ l.map
          (fun k => target.nodes.getD (kTarget rule nm k) default) := by
  intro l
  induction l with
  | nil => intro s; simp
  | cons a l ih =>
      intro s
      rw [List.foldl_cons, List.map_cons]
      rw [show commonNodeStep rule target nm s a =
          (s.1 ++ [target.nodes.getD (kTarget rule nm a) default],
           s.2.set (kTarget rule nm a) s.1.length) from rfl]
      rw [ih]
      simp

lemma commonFold_snd_len (rule : Rule) (target : Graph) (nm : List Nat) :
    ∀ (l : List Nat) (s : List Node × List Nat),
      (l.foldl (commonNodeStep rule target nm) s).2.length =
        s.2.length := by
  intro l
  induction l with
  | nil => intro s; rfl
  | cons a l ih =>
      intro s
      rw [List.foldl_cons, ih]
      rw [show commonNodeStep rule target nm s a =
          (s.1 ++ [target.nodes.getD (kTarget rule nm a) default],
           s.2.set (kTarget rule nm a) s.1.length) from rfl]
      simp

lemma rhsFold_fst (rule : Rule) :
    ∀ (l : List Nat) (s : List Node × List Nat),
      (l.foldl (rhsNodeStep rule) s).1 =
        s.1 ++ (l.filter
          (fun i => decide (i ∉ rule.common_to_rhs.node_mapping))).map
          (fun i => rule.rhs.nodes.getD i default) := by
  intro l
  induction l with
  | nil => intro s; simp
  | cons a l ih =>
      intro s
      rw [List.foldl_cons, List.filter_cons]
      by_cases h : a ∈ rule.common_to_rhs.node_mapping
      · rw [if_neg (by simp [h])]
        rw [show rhsNodeStep rule s a = s from by
          rw [rhsNodeStep, if_pos h]]
        exact ih s
      · rw [if_pos (by simp [h])]
        rw [show rhsNodeStep rule s a =
            (s.1 ++ [rule.rhs.nodes.getD a default],
             s.2.set a s.1.length) from by
          rw [rhsNodeStep, if_neg h]]
        rw [ih]
        simp

lemma resultNodes_eq (rule : Rule) (target : Graph) (nm : List Nat) :
    (rhsPhase rule target nm).1 =
      (keptTargets target nm).map
          (fun i => target.nodes.getD i default) ++
        ((List.range rule.common.nodes.length).map
          (fun k => target.nodes.getD (kTarget rule nm k) default) ++
         ((List.range rule.rhs.nodes.length).filter
           (fun i => decide (i ∉ rule.common_to_rhs.node_mapping))).map
           (fun i => rule.rhs.nodes.getD i default)) := by
  rw [rhsPhase, rhsFold_fst, commonPhase, commonFold_fst, keepPhase,
    keepFold_fst]
  rw [keptTargets]
  simp [List.append_assoc]

lemma resultNodes_length (rule : Rule) (target : Graph) (nm : List Nat) :
    (rhsPhase rule target nm).1.length =
      (keptTargets target nm).length + rule.common.nodes.length +
        rkCount rule := by
  rw [resultNodes_eq, rkCount]
  simp [Nat.add_assoc]

lemma result_node_at_common (rule : Rule) (target : Graph) (nm : List Nat)
    (k : Nat) (hk : k < rule.common.nodes.length) :
    (rhsPhase rule target nm).1.getD
        ((keptTargets target nm).length + k) default =
      target.nodes.getD (kTarget rule nm k) default := by
  rw [resultNodes_eq]
  rw [show (keptTargets target nm).length =
      ((keptTargets target nm).map
        (fun i => target.nodes.getD i default)).length from by
    rw [List.length_map]]
  rw [getD_append_offset]
  rw [getD_append_small _ _ _ _ (by simpa using hk)]
  exact getD_map_range _ _ _ _ hk

lemma lkImage_length (rule : Rule) (nm : List Nat)
    (hlen : nm.length = rule.lhs.nodes.length)
    (hnd : nm.Nodup)
    (hWF : RuleNodeWF rule) :
    (lkImage rule nm).length =
      rule.lhs.nodes.length - rule.common.nodes.length := by
  rw [lkImage]
  have hbase : ((List.range rule.lhs.nodes.length).filter
      (fun x => decide (x ∉ rule.common_to_lhs.node_mapping))).Nodup :=
    (List.nodup_range _).filter _
  have hmapnd : (((List.range rule.lhs.nodes.length).filter
      (fun x => decide (x ∉ rule.common_to_lhs.node_mapping))).map
        (fun x => nm.getD x 0)).Nodup := by
    apply List.Nodup.map_on _ hbase
    intro x hx y hy hxy
    have hx2 := List.mem_range.mp (List.mem_filter.mp hx).1
    have hy2 := List.mem_range.mp (List.mem_filter.mp hy).1
    exact getD_inj_of_nodup nm hnd x y (by omega) (by omega) hxy
  rw [List.Nodup.dedup hmapnd, List.length_map]
  rw [length_filter_not_mem_range _ _ hWF.2.2.1 hWF.2.2.2.2.1, hWF.1]

lemma common_le_lhs (rule : Rule) (hWF : RuleNodeWF rule) :
    rule.common.nodes.length ≤ rule.lhs.nodes.length := by
  have h := length_filter_mem_range rule.common_to_lhs.node_mapping
    rule.lhs.nodes.length hWF.2.2.1 hWF.2.2.2.2.1
  have h2 := List.length_filter_le
    (fun i => decide (i ∈ rule.common_to_lhs.node_mapping))
    (List.range rule.lhs.nodes.length)
  rw [h, hWF.1] at h2
  simpa using h2

/-- C4 (amended with an injectivity hypothesis; the original claim fails
for non-injective matches, see the counterexample). Node-count formula
for injective matches of a node-well-formed rule. -/
theorem apply_node_count (rule : Rule) (target : Graph)
    (φ : GraphMapping)
    (hLwf : GraphWF rule.lhs) (hL1 : 1 ≤ rule.lhs.nodes.length)
    (hφ : φ ∈ findMatches rule.lhs target)
    (hinj : φ.node_mapping.Nodup)
    (hWF : RuleNodeWF rule) :
    (applyRule rule target φ).nodes.length =
      target.nodes.length - (lkImage rule φ.node_mapping).length +
        rkCount rule := by
  rw [findMatches_eq rule.lhs target hL1, findMatchesSpec] at hφ
  obtain ⟨w, hw, rfl⟩ := List.mem_map.mp hφ
  obtain ⟨hlen, hrng, _⟩ := (mem_okWords rule.lhs target w).mp hw
  have hmk : (mkMatch rule.lhs target w).node_mapping = w := rfl
  rw [hmk] at hinj ⊢
  rw [applyRule_nodes, hmk, resultNodes_length]
  rw [lkImage_length rule w hlen hinj hWF]
  have hkept : (keptTargets target w).length =
      target.nodes.length - w.length := by
    rw [keptTargets, length_filter_not_mem_range w target.nodes.length
      hinj hrng]
  have hKN := common_le_lhs rule hWF
  have hNB : w.length ≤ target.nodes.length := by
    have h := length_filter_mem_range w target.nodes.length hinj hrng
    have h2 := List.length_filter_le (fun i => decide (i ∈ w))
      (List.range target.nodes.length)
    rw [h] at h2
    simpa using h2
  omega

theorem apply_node_count_witness :
    GraphWF ruleDelEx.lhs ∧ 1 ≤ ruleDelEx.lhs.nodes.length ∧
    (⟨[0, 1], [[0]]⟩ : GraphMapping) ∈ findMatches ruleDelEx.lhs tDelEx ∧
    ([0, 1] : List Nat).Nodup ∧ RuleNodeWF ruleDelEx ∧
    (applyRule ruleDelEx tDelEx ⟨[0, 1], [[0]]⟩).nodes.length =
      tDelEx.nodes.length -
        (lkImage ruleDelEx
          (GraphMapping.node_mapping ⟨[0, 1], [[0]]⟩)).length +
        rkCount ruleDelEx :=
  ⟨by decide, by decide, by decide, by decide, by decide,
    apply_node_count ruleDelEx tDelEx ⟨[0, 1], [[0]]⟩ (by decide)
      (by decide) (by decide) (by decide) (by decide)⟩

/-- C4 as literally stated is false: with the non-injective match
`[0, 0]` of the rule compiled from `gKLEx` (where `K = {a}`,
`L = {a, d}`, `R = {a}`) into the one-node host, the result keeps one
node but the formula predicts zero. -/
theorem apply_node_count_cex :
    (createRuleFromGraph gKLEx).toOption.map (fun rule =>
      (findMatches rule.lhs tOneEx).all (fun φ =>
        decide ((applyRule rule tOneEx φ).nodes.length =
          tOneEx.nodes.length - (lkImage rule φ.node_mapping).length +
            rkCount rule)))
      = some false := by decide

/-- C7. Preserved-node attribute carry-over: the node the applier emits
in construction step 2 for `K`-node `k` (at result position number of
kept nodes plus `k`) is exactly the target node picked out by the match,
so target-side attributes are kept and `R`-side attributes never
overwrite a preserved node. -/
theorem preserved_node_attrs (rule : Rule) (target : Graph)
    (φ : GraphMapping) (k : Nat) (hk : k < rule.common.nodes.length) :
    (applyRule rule target φ).nodes.getD
        ((keptTargets target φ.node_mapping).length + k) default =
      target.nodes.getD (kTarget rule φ.node_mapping k) default := by
  rw [applyRule_nodes]
  exact result_node_at_common rule target φ.node_mapping k hk

theorem preserved_node_attrs_witness :
    0 < ruleIdEx.common.nodes.length ∧
    (applyRule ruleIdEx tParEx ⟨[0, 1], [[0, 1]]⟩).nodes.getD
        ((keptTargets tParEx
          (GraphMapping.node_mapping ⟨[0, 1], [[0, 1]]⟩)).length + 0)
        default =
      tParEx.nodes.getD
        (kTarget ruleIdEx
          (GraphMapping.node_mapping ⟨[0, 1], [[0, 1]]⟩) 0) default :=
  ⟨by decide,
    preserved_node_attrs ruleIdEx tParEx ⟨[0, 1], [[0, 1]]⟩ 0 (by decide)⟩

/-! ## Applier translation-table characterizations -/

lemma range_split :
    ∀ (n v : Nat), v < n →
      ∃ rest, List.range n = List.range v ++ v :: rest ∧
        ∀ x ∈ rest, v < x := by
  intro n
  induction n with
  | zero => intro v hv; omega
  | succ m ih =>
      intro v hv
      rcases Nat.lt_or_ge v m with h | h
      · obtain ⟨rest, he, hgt⟩ := ih v h
        refine ⟨rest ++ [m], ?_, ?_⟩
        · rw [List.range_succ, he]
          simp
        · intro x hx
          rcases List.mem_append.mp hx with h2 | h2
          · exact hgt x h2
          · rw [List.mem_singleton] at h2
            omega
      · have hvm : v = m := by omega
        subst hvm
        refine ⟨[], ?_, by simp⟩
        rw [List.range_succ]

lemma getD_set_self (l : List Nat) (i x d : Nat) (hi : i < l.length) :
    (l.set i x).getD i d = x := by
  rw [List.getD_eq_getElem?_getD, List.getElem?_set_self hi]
  rfl

lemma getD_replicate (n v d : Nat) : (List.replicate n d).getD v d = d := by
  rw [List.getD_eq_getElem?_getD, List.getElem?_replicate]
  split <;> rfl

lemma getD_append_self {α : Type} (l1 l2 : List α) (v : α) (d : α) :
    (l1 ++ v :: l2).getD l1.length d = v := by
  have h := getD_append_offset l1 (v :: l2) 0 d
  simpa using h

lemma keepFold_snd_not_mem (target : Graph) (nm : List Nat) :
    ∀ (l : List Nat) (s : List Node × List Nat) (v d : Nat), v ∉ l →
      ((l.foldl (keepNodeStep target nm) s).2).getD v d =
        s.2.getD v d := by
  intro l
  induction l with
  | nil => intro s v d _; rfl
  | cons a l ih =>
      intro s v d hv
      have hav : a ≠ v := fun h => hv (h ▸ List.mem_cons_self a l)
      have hvl : v ∉ l := fun h => hv (List.mem_cons_of_mem a h)
      rw [List.foldl_cons, ih _ v d hvl, keepNodeStep]
      by_cases h : a ∈ nm
      · rw [if_pos h]
      · rw [if_neg h]
        exact getD_set_ne _ _ _ _ _ hav

lemma keepPhase_snd (target : Graph) (nm : List Nat) (v : Nat)
    (hv : v < target.nodes.length) :
    (keepPhase target nm).2.getD v sentinel =
      if v ∈ nm then sentinel else keptPos nm v := by
  obtain ⟨rest, he, hgt⟩ := range_split target.nodes.length v hv
  rw [keepPhase, he, List.foldl_append, List.foldl_cons]
  have hvrest : v ∉ rest := fun h => absurd (hgt v h) (lt_irrefl v)
  rw [keepFold_snd_not_mem target nm rest _ v sentinel hvrest]
  set s := (List.range v).foldl (keepNodeStep target nm)
    ([], List.replicate target.nodes.length sentinel) with hs
  have hsv : s.2.getD v sentinel = sentinel := by
    rw [hs, keepFold_snd_not_mem target nm _ _ v sentinel (by simp)]
    exact getD_replicate _ _ _
  have hslen : s.2.length = target.nodes.length := by
    rw [hs, keepFold_snd_len]
    simp
  have hs1len : s.1.length = keptPos nm v := by
    rw [hs, keepFold_fst]
    simp [keptPos]
  rw [keepNodeStep]
  by_cases h : v ∈ nm
  · rw [if_pos h, if_pos h, hsv]
  · rw [if_neg h, if_neg h]
    show (s.2.set v s.1.length).getD v sentinel = keptPos nm v
    rw [getD_set_self _ _ _ _ (by omega), hs1len]

lemma commonFold_fst_len (rule : Rule) (target : Graph) (nm : List Nat)
    (l : List Nat) (s : List Node × List Nat) :
    (l.foldl (commonNodeStep rule target nm) s).1.length =
      s.1.length + l.length := by
  rw [commonFold_fst]
  simp

lemma commonFold_snd_not_hit (rule : Rule) (target : Graph)
    (nm : List Nat) :
    ∀ (l : List Nat) (s : List Node × List Nat) (v d : Nat),
      (∀ k ∈ l, kTarget rule nm k ≠ v) →
      ((l.foldl (commonNodeStep rule target nm) s).2).getD v d =
        s.2.getD v d := by
  intro l
  induction l with
  | nil => intro s v d _; rfl
  | cons a l ih =>
      intro s v d hv
      rw [List.foldl_cons,
        ih _ v d (fun k hk => hv k (List.mem_cons_of_mem a hk))]
      show (s.2.set (kTarget rule nm a) s.1.length).getD v d = s.2.getD v d
      exact getD_set_ne _ _ _ _ _ (hv a (List.mem_cons_self a l))

lemma commonFold_snd_cases (rule : Rule) (target : Graph)
    (nm : List Nat) :
    ∀ (l : List Nat) (s : List Node × List Nat) (v d : Nat),
      ((l.foldl (commonNodeStep rule target nm) s).2).getD v d =
          s.2.getD v d ∨
        ((l.foldl (commonNodeStep rule target nm) s).2).getD v d <
          (l.foldl (commonNodeStep rule target nm) s).1.length := by
  intro l
  induction l with
  | nil => intro s v d; left; rfl
  | cons a l ih =>
      intro s v d
      rw [List.foldl_cons]
      rcases ih (commonNodeStep rule target nm s a) v d with h | h
      · rw [h]
        by_cases hav : kTarget rule nm a = v
        · by_cases hlen : v < s.2.length
          · right
            show (s.2.set (kTarget rule nm a) s.1.length).getD v d < _
            rw [hav, getD_set_self _ _ _ _ hlen, commonFold_fst_len]
            show s.1.length < (s.1 ++ [_]).length + l.length
            simp
            omega
          · left
            show (s.2.set (kTarget rule nm a) s.1.length).getD v d =
              s.2.getD v d
            rw [hav, List.set_eq_of_length_le (by omega)]
        · left
          show (s.2.set (kTarget rule nm a) s.1.length).getD v d =
            s.2.getD v d
          exact getD_set_ne _ _ _ _ _ hav
      · right
        exact h

lemma commonFold_snd_hit (rule : Rule) (target : Graph) (nm : List Nat) :
    ∀ (l : List Nat) (s : List Node × List Nat) (v d : Nat),
      v < s.2.length → (∃ k ∈ l, kTarget rule nm k = v) →
      ((l.foldl (commonNodeStep rule target nm) s).2).getD v d <
        (l.foldl (commonNodeStep rule target nm) s).1.length := by
  intro l
  induction l with
  | nil => intro s v d _ hex; simp at hex
  | cons a l ih =>
      intro s v d hvlen hex
      rw [List.foldl_cons]
      by_cases hl : ∃ k ∈ l, kTarget rule nm k = v
      · refine ih _ v d ?_ hl
        show v < (s.2.set _ _).length
        simp
        omega
      · have hav : kTarget rule nm a = v := by
          rcases hex with ⟨k, hk, he⟩
          rcases List.mem_cons.mp hk with h | h
          · rw [← h]
            exact he
          · exact absurd ⟨k, h, he⟩ hl
        rcases commonFold_snd_cases rule target nm l
          (commonNodeStep rule target nm s a) v d with h | h
        · rw [h]
          show (s.2.set (kTarget rule nm a) s.1.length).getD v d < _
          rw [hav, getD_set_self _ _ _ _ hvlen, commonFold_fst_len]
          show s.1.length < (s.1 ++ [_]).length + l.length
          simp
          omega
        · exact h

lemma keepPhase_snd_len (target : Graph) (nm : List Nat) :
    (keepPhase target nm).2.length = target.nodes.length := by
  rw [keepPhase, keepFold_snd_len]
  simp

lemma commonPhase_snd_len (rule : Rule) (target : Graph) (nm : List Nat) :
    (commonPhase rule target nm).2.length = target.nodes.length := by
  rw [commonPhase, commonFold_snd_len, keepPhase_snd_len]

lemma commonPhase_fst_len (rule : Rule) (target : Graph) (nm : List Nat) :
    (commonPhase rule target nm).1.length =
      (keptTargets target nm).length + rule.common.nodes.length := by
  rw [commonPhase, commonFold_fst_len, keepPhase, keepFold_fst]
  simp [keptTargets]

lemma commonPhase_snd_miss (rule : Rule) (target : Graph) (nm : List Nat)
    (v d : Nat)
    (hmiss : ∀ k < rule.common.nodes.length, kTarget rule nm k ≠ v) :
    (commonPhase rule target nm).2.getD v d =
      (keepPhase target nm).2.getD v d := by
  rw [commonPhase]
  exact commonFold_snd_not_hit rule target nm _ _ v d
    (fun k hk => hmiss k (List.mem_range.mp hk))

lemma t2r_hit_lt (rule : Rule) (target : Graph) (nm : List Nat) (v : Nat)
    (hB : v < target.nodes.length)
    (hex : ∃ k < rule.common.nodes.length, kTarget rule nm k = v) :
    (commonPhase rule target nm).2.getD v sentinel <
      (commonPhase rule target nm).1.length := by
  rw [commonPhase]
  apply commonFold_snd_hit
  · rw [keepPhase_snd_len]
    omega
  · rcases hex with ⟨k, h1, h2⟩
    exact ⟨k, List.mem_range.mpr h1, h2⟩

lemma filter_range_getD (p : Nat → Bool) (n v : Nat) (hv : v < n)
    (hp : p v = true) :
    ((List.range n).filter p).getD
        (((List.range v).filter p).length) 0 = v ∧
      ((List.range v).filter p).length <
        ((List.range n).filter p).length := by
  obtain ⟨rest, he, _⟩ := range_split n v hv
  rw [he, List.filter_append, List.filter_cons, if_pos hp]
  constructor
  · exact getD_append_self _ _ _ _
  · rw [List.length_append]
    simp only [List.length_cons]
    omega

lemma rhsFold_snd_not_mem (rule : Rule) :
    ∀ (l : List Nat) (s : List Node × List Nat) (v d : Nat), v ∉ l →
      ((l.foldl (rhsNodeStep rule) s).2).getD v d = s.2.getD v d := by
  intro l
  induction l with
  | nil => intro s v d _; rfl
  | cons a l ih =>
      intro s v d hv
      have hav : a ≠ v := fun h => hv (h ▸ List.mem_cons_self a l)
      have hvl : v ∉ l := fun h => hv (List.mem_cons_of_mem a h)
      rw [List.foldl_cons, ih _ v d hvl, rhsNodeStep]
      by_cases h : a ∈ rule.common_to_rhs.node_mapping
      · rw [if_pos h]
      · rw [if_neg h]
        exact getD_set_ne _ _ _ _ _ hav

lemma rhsFold_snd_len (rule : Rule) :
    ∀ (l : List Nat) (s : List Node × List Nat),
      (l.foldl (rhsNodeStep rule) s).2.length = s.2.length := by
  intro l
  induction l with
  | nil => intro s; rfl
  | cons a l ih =>
      intro s
      rw [List.foldl_cons, ih, rhsNodeStep]
      by_cases h : a ∈ rule.common_to_rhs.node_mapping
      · rw [if_pos h]
      · rw [if_neg h]
        simp

lemma rhsPhase_snd (rule : Rule) (target : Graph) (nm : List Nat)
    (x : Nat) (hx : x < rule.rhs.nodes.length) :
    (rhsPhase rule target nm).2.getD x sentinel =
      if x ∈ rule.common_to_rhs.node_mapping then sentinel
      else (commonPhase rule target nm).1.length +
        ((List.range x).filter
          (fun i => decide (i ∉ rule.common_to_rhs.node_mapping))).length
      := by
  obtain ⟨rest, he, hgt⟩ := range_split rule.rhs.nodes.length x hx
  rw [rhsPhase, he, List.foldl_append, List.foldl_cons]
  have hxrest : x ∉ rest := fun h => absurd (hgt x h) (lt_irrefl x)
  rw [rhsFold_snd_not_mem rule rest _ x sentinel hxrest]
  set s := (List.range x).foldl (rhsNodeStep rule)
    ((commonPhase rule target nm).1,
     List.replicate rule.rhs.nodes.length sentinel) with hs
  have hsv : s.2.getD x sentinel = sentinel := by
    rw [hs, rhsFold_snd_not_mem rule _ _ x sentinel (by simp)]
    exact getD_replicate _ _ _
  have hslen : s.2.length = rule.rhs.nodes.length := by
    rw [hs, rhsFold_snd_len]
    simp
  have hs1len : s.1.length = (commonPhase rule target nm).1.length +
      ((List.range x).filter
        (fun i => decide (i ∉ rule.common_to_rhs.node_mapping))).length
      := by
    rw [hs, rhsFold_fst]
    simp
  rw [rhsNodeStep]
  by_cases h : x ∈ rule.common_to_rhs.node_mapping
  · rw [if_pos h, if_pos h, hsv]
  · rw [if_neg h, if_neg h]
    show (s.2.set x s.1.length).getD x sentinel = _
    rw [getD_set_self _ _ _ _ (by omega), hs1len]

/-! ## Applier edge-phase characterizations -/

lemma getD_mem_of_lt {α : Type} (l : List α) (m : Nat) (d : α)
    (h : m < l.length) : l.getD m d ∈ l := by
  rw [List.getD_eq_getElem?_getD, List.getElem?_eq_getElem h]
  simpa using List.getElem_mem h

lemma foldl_append_map {α β : Type} (f : α → β) :
    ∀ (l : List α) (es : List β),
      l.foldl (fun es te => es ++ [f te]) es = es ++ l.map f := by
  intro l
  induction l with
  | nil => intro es; simp
  | cons a l ih =>
      intro es
      rw [List.foldl_cons, ih, List.map_cons]
      simp

lemma keepEdgeFold (target : Graph) (flat t2r : List Nat) :
    ∀ (l : List Nat) (es : List Edge),
      l.foldl (keepEdgeStep target flat t2r) es =
        es ++ (l.filter (fun m => decide (m ∉ flat))).map
          (fun m => xlatEdge t2r (target.edges.getD m default)) := by
  intro l
  induction l with
  | nil => intro es; simp
  | cons a l ih =>
      intro es
      rw [List.foldl_cons, List.filter_cons, keepEdgeStep]
      by_cases h : a ∈ flat
      · rw [if_pos h, if_neg (by simp [h]), ih]
      · rw [if_neg h, if_pos (by simp [h]), ih]
        simp

lemma commonCopyFold (rule : Rule) (target : Graph) (φ : GraphMapping)
    (t2r : List Nat) :
    ∀ (l : List Nat) (es : List Edge),
      l.foldl (commonEdgeCopy rule target φ t2r) es =
        es ++ l.flatMap (fun m =>
          (φ.edge_mapping.getD (lhsEdgeOf rule m) []).map
            (fun te => xlatEdge t2r (target.edges.getD te default))) := by
  intro l
  induction l with
  | nil => intro es; simp
  | cons a l ih =>
      intro es
      rw [List.foldl_cons, List.flatMap_cons]
      rw [show commonEdgeCopy rule target φ t2r es a =
          es ++ (φ.edge_mapping.getD (lhsEdgeOf rule a) []).map
            (fun te => xlatEdge t2r (target.edges.getD te default)) from by
        rw [commonEdgeCopy]
        exact foldl_append_map _ _ _]
      rw [ih]
      simp

lemma rhsEdgeFold (rule : Rule) (r2r : List Nat) :
    ∀ (l : List Nat) (es : List Edge),
      l.foldl (rhsEdgeStep rule r2r) es =
        es ++ (l.filter (fun m =>
            decide (m ∉ rule.common_to_rhs.edge_mapping.flatten))).map
          (fun m => xlatEdge r2r (rule.rhs.edges.getD m default)) := by
  intro l
  induction l with
  | nil => intro es; simp
  | cons a l ih =>
      intro es
      rw [List.foldl_cons, List.filter_cons, rhsEdgeStep]
      by_cases h : a ∈ rule.common_to_rhs.edge_mapping.flatten
      · rw [if_pos h, if_neg (by simp [h]), ih]
      · rw [if_neg h, if_pos (by simp [h]), ih]
        simp

lemma applyEdges_eq (rule : Rule) (target : Graph) (φ : GraphMapping) :
    applyEdges rule target φ =
      ((List.range target.edges.length).filter
        (fun m => decide (m ∉ φ.edge_mapping.flatten))).map
        (fun m => xlatEdge (commonPhase rule target φ.node_mapping).2
          (target.edges.getD m default)) ++
      ((List.range rule.common.edges.length).flatMap (fun m =>
        (φ.edge_mapping.getD (lhsEdgeOf rule m) []).map
          (fun te => xlatEdge (commonPhase rule target φ.node_mapping).2
            (target.edges.getD te default))) ++
       ((List.range rule.rhs.edges.length).filter
         (fun m =>
           decide (m ∉ rule.common_to_rhs.edge_mapping.flatten))).map
         (fun m => xlatEdge (rhsPhase rule target φ.node_mapping).2
           (rule.rhs.edges.getD m default))) := by
  simp only [applyEdges]
  rw [rhsEdgeFold, commonCopyFold, keepEdgeFold]
  simp [List.append_assoc]

/-- C10 (amended; unrestricted, the claim is false — see the
counterexample). Dangling-edge safety holds under the gluing conditions:
(i) every unmatched target edge touches only nodes that are kept or
re-emitted as common, (ii) every common edge's `L`-edge has endpoints in
the `K→L` image, and (iii) every non-common `R`-edge avoids the `K→R`
image. -/
theorem apply_no_dangling (rule : Rule) (target : Graph)
    (φ : GraphMapping)
    (hTwf : GraphWF target) (hRwf : GraphWF rule.rhs)
    (hLwf : GraphWF rule.lhs) (hL1 : 1 ≤ rule.lhs.nodes.length)
    (hφ : φ ∈ findMatches rule.lhs target)
    (heWF : RuleEdgeWF rule)
    (hdel : ∀ m < target.edges.length, m ∉ φ.edge_mapping.flatten →
      ((target.edges.getD m default).head ∉ φ.node_mapping ∨
        ∃ k < rule.common.nodes.length,
          kTarget rule φ.node_mapping k =
            (target.edges.getD m default).head) ∧
      ((target.edges.getD m default).tail ∉ φ.node_mapping ∨
        ∃ k < rule.common.nodes.length,
          kTarget rule φ.node_mapping k =
            (target.edges.getD m default).tail))
    (hcom : ∀ m < rule.common.edges.length,
      (∃ k < rule.common.nodes.length,
        rule.common_to_lhs.node_mapping.getD k 0 =
          (rule.lhs.edges.getD (lhsEdgeOf rule m) default).head) ∧
      (∃ k < rule.common.nodes.length,
        rule.common_to_lhs.node_mapping.getD k 0 =
          (rule.lhs.edges.getD (lhsEdgeOf rule m) default).tail))
    (hrhs : ∀ m < rule.rhs.edges.length,
      m ∉ rule.common_to_rhs.edge_mapping.flatten →
      (rule.rhs.edges.getD m default).head ∉
        rule.common_to_rhs.node_mapping ∧
      (rule.rhs.edges.getD m default).tail ∉
        rule.common_to_rhs.node_mapping) :
    ∀ e ∈ (applyRule rule target φ).edges,
      e.head < (applyRule rule target φ).nodes.length ∧
      e.tail < (applyRule rule target φ).nodes.length := by
  rw [findMatches_eq rule.lhs target hL1, findMatchesSpec] at hφ
  obtain ⟨w, hw, rfl⟩ := List.mem_map.mp hφ
  obtain ⟨hwlen, hwrng, hwsteps⟩ := (mem_okWords rule.lhs target w).mp hw
  have hmk : (mkMatch rule.lhs target w).node_mapping = w := rfl
  have hme : (mkMatch rule.lhs target w).edge_mapping =
      matchEdgeMapping rule.lhs target w := rfl
  rw [hmk, hme] at hdel
  intro e he
  rw [applyRule_edges, applyEdges_eq, hmk, hme] at he
  rw [applyRule_nodes, hmk, resultNodes_length]
  have hkey : ∀ v, v < target.nodes.length →
      ((v ∉ w) ∨
        ∃ k < rule.common.nodes.length, kTarget rule w k = v) →
      (commonPhase rule target w).2.getD v sentinel <
        (keptTargets target w).length + rule.common.nodes.length := by
    intro v hvB hcase
    by_cases hhit : ∃ k < rule.common.nodes.length, kTarget rule w k = v
    · have hb := t2r_hit_lt rule target w v hvB hhit
      rw [commonPhase_fst_len] at hb
      exact hb
    · have hnot : v ∉ w := by
        rcases hcase with h | h
        · exact h
        · exact absurd h hhit
      push_neg at hhit
      rw [commonPhase_snd_miss rule target w v sentinel hhit]
      rw [keepPhase_snd target w v hvB, if_neg hnot]
      have hfp := (filter_range_getD (fun i => decide (i ∉ w))
        target.nodes.length v hvB (by simpa using hnot)).2
      rw [keptPos, keptTargets]
      omega
  rcases List.mem_append.mp he with h1 | h23
  · -- kept target edge
    obtain ⟨m, hm, rfl⟩ := List.mem_map.mp h1
    have hmr := List.mem_range.mp (List.mem_filter.mp hm).1
    have hmf : m ∉ (matchEdgeMapping rule.lhs target w).flatten := by
      have hmf2 := (List.mem_filter.mp hm).2
      simpa using hmf2
    obtain ⟨hh, ht⟩ := hdel m hmr hmf
    obtain ⟨hteh, htet⟩ := hTwf _ (getD_mem_of_lt target.edges m default hmr)
    constructor
    · have hb := hkey (target.edges.getD m default).head hteh hh
      show (commonPhase rule target w).2.getD _ sentinel < _
      omega
    · have hb := hkey (target.edges.getD m default).tail htet ht
      show (commonPhase rule target w).2.getD _ sentinel < _
      omega
  rcases List.mem_append.mp h23 with h2 | h3
  · -- copied common edge
    obtain ⟨m, hm, he2⟩ := List.mem_flatMap.mp h2
    obtain ⟨te, hte, rfl⟩ := List.mem_map.mp he2
    have hmr := List.mem_range.mp hm
    have hle : lhsEdgeOf rule m < rule.lhs.edges.length := by
      have hp := heWF.2.2.1 (rule.common_to_lhs.edge_mapping.getD m [])
        (getD_mem_of_lt _ m [] (by rw [heWF.1]; omega))
      exact hp.2
    have hfacts := (mem_matchEdgeMapping rule.lhs target w
      (lhsEdgeOf rule m) hle te).mp hte
    obtain ⟨hteB, hteh, htet⟩ := hfacts
    obtain ⟨hedgeh, hedget⟩ :=
      hTwf _ (getD_mem_of_lt target.edges te default hteB)
    obtain ⟨⟨kh, hkh, hkh2⟩, ⟨kt, hkt, hkt2⟩⟩ := hcom m hmr
    constructor
    · have hb := hkey (target.edges.getD te default).head hedgeh
        (Or.inr ⟨kh, hkh, by rw [kTarget, hkh2, ← hteh]⟩)
      show (commonPhase rule target w).2.getD _ sentinel < _
      omega
    · have hb := hkey (target.edges.getD te default).tail hedget
        (Or.inr ⟨kt, hkt, by rw [kTarget, hkt2, ← htet]⟩)
      show (commonPhase rule target w).2.getD _ sentinel < _
      omega
  · -- new RHS edge
    obtain ⟨m, hm, rfl⟩ := List.mem_map.mp h3
    have hmr := List.mem_range.mp (List.mem_filter.mp hm).1
    have hmf : m ∉ rule.common_to_rhs.edge_mapping.flatten := by
      have hmf2 := (List.mem_filter.mp hm).2
      simpa using hmf2
    obtain ⟨hh, ht⟩ := hrhs m hmr hmf
    obtain ⟨hreh, hret⟩ :=
      hRwf _ (getD_mem_of_lt rule.rhs.edges m default hmr)
    have hrkey : ∀ x, x < rule.rhs.nodes.length →
        x ∉ rule.common_to_rhs.node_mapping →
        (rhsPhase rule target w).2.getD x sentinel <
          (keptTargets target w).length + rule.common.nodes.length +
            rkCount rule := by
      intro x hxR hxc
      rw [rhsPhase_snd rule target w x hxR, if_neg hxc,
        commonPhase_fst_len]
      have hfp := (filter_range_getD
        (fun i => decide (i ∉ rule.common_to_rhs.node_mapping))
        rule.rhs.nodes.length x hxR (by simpa using hxc)).2
      rw [rkCount]
      omega
    constructor
    · have hb := hrkey (rule.rhs.edges.getD m default).head hreh hh
      show (rhsPhase rule target w).2.getD _ sentinel < _
      omega
    · have hb := hrkey (rule.rhs.edges.getD m default).tail hret ht
      show (rhsPhase rule target w).2.getD _ sentinel < _
      omega

theorem apply_no_dangling_cex :
    (createRuleFromGraph gInsEx).toOption.map (fun rule =>
      (findMatches rule.lhs tInsEx).all (fun φ =>
        (applyRule rule tInsEx φ).edges.all (fun e =>
          decide (e.head < (applyRule rule tInsEx φ).nodes.length) &&
          decide (e.tail < (applyRule rule tInsEx φ).nodes.length))))
      = some false := by decide

theorem apply_no_dangling_witness :
    GraphWF tDelEx ∧ GraphWF ruleDelEx.rhs ∧ GraphWF ruleDelEx.lhs ∧
    1 ≤ ruleDelEx.lhs.nodes.length ∧
    (⟨[0, 1], [[0]]⟩ : GraphMapping) ∈ findMatches ruleDelEx.lhs tDelEx ∧
    RuleEdgeWF ruleDelEx ∧
    (∀ m < tDelEx.edges.length,
      m ∉ (GraphMapping.edge_mapping ⟨[0, 1], [[0]]⟩).flatten →
      ((tDelEx.edges.getD m default).head ∉
          (GraphMapping.node_mapping ⟨[0, 1], [[0]]⟩) ∨
        ∃ k < ruleDelEx.common.nodes.length,
          kTarget ruleDelEx (GraphMapping.node_mapping ⟨[0, 1], [[0]]⟩) k =
            (tDelEx.edges.getD m default).head) ∧
      ((tDelEx.edges.getD m default).tail ∉
          (GraphMapping.node_mapping ⟨[0, 1], [[0]]⟩) ∨
        ∃ k < ruleDelEx.common.nodes.length,
          kTarget ruleDelEx (GraphMapping.node_mapping ⟨[0, 1], [[0]]⟩) k =
            (tDelEx.edges.getD m default).tail)) ∧
    (∀ m < ruleDelEx.common.edges.length,
      (∃ k < ruleDelEx.common.nodes.length,
        ruleDelEx.common_to_lhs.node_mapping.getD k 0 =
          (ruleDelEx.lhs.edges.getD (lhsEdgeOf ruleDelEx m) default).head) ∧
      (∃ k < ruleDelEx.common.nodes.length,
        ruleDelEx.common_to_lhs.node_mapping.getD k 0 =
          (ruleDelEx.lhs.edges.getD (lhsEdgeOf ruleDelEx m) default).tail)) ∧
    (∀ m < ruleDelEx.rhs.edges.length,
      m ∉ ruleDelEx.common_to_rhs.edge_mapping.flatten →
      (ruleDelEx.rhs.edges.getD m default).head ∉
        ruleDelEx.common_to_rhs.node_mapping ∧
      (ruleDelEx.rhs.edges.getD m default).tail ∉
        ruleDelEx.common_to_rhs.node_mapping) ∧
    (∀ e ∈ (applyRule ruleDelEx tDelEx ⟨[0, 1], [[0]]⟩).edges,
      e.head < (applyRule ruleDelEx tDelEx ⟨[0, 1], [[0]]⟩).nodes.length ∧
      e.tail < (applyRule ruleDelEx tDelEx ⟨[0, 1], [[0]]⟩).nodes.length) :=
  ⟨by decide, by decide, by decide, by decide, by decide, by decide,
    by decide, by decide, by decide,
    apply_no_dangling ruleDelEx tDelEx ⟨[0, 1], [[0]]⟩ (by decide)
      (by decide) (by decide) (by decide) (by decide) (by decide)
      (by decide) (by decide) (by decide)⟩

/-! ## Toward the identity-rule isomorphism -/

lemma getD_default_irrel {α : Type} (l : List α) (v : Nat) (d1 d2 : α)
    (h : v < l.length) : l.getD v d1 = l.getD v d2 := by
  rw [List.getD_eq_getElem?_getD, List.getD_eq_getElem?_getD,
    List.getElem?_eq_getElem h]
  rfl

lemma getD_map_lt {α β : Type} (f : α → β) (l : List α) (p : Nat)
    (d : β) (d0 : α) (h : p < l.length) :
    (l.map f).getD p d = f (l.getD p d0) := by
  rw [List.getD_eq_getElem?_getD, List.getElem?_map,
    List.getElem?_eq_getElem h, List.getD_eq_getElem?_getD,
    List.getElem?_eq_getElem h]
  rfl

lemma map_eq_map_range {α β : Type} [Inhabited α] (f : α → β)
    (l : List α) :
    l.map f = (List.range l.length).map
      (fun m => f (l.getD m default)) := by
  apply List.ext_getElem
  · simp
  · intro i h1 h2
    simp only [List.getElem_map, List.getElem_range]
    congr 1
    rw [List.getD_eq_getElem?_getD,
      List.getElem?_eq_getElem (by simpa using h1)]
    rfl

lemma exists_getD_of_mem (l : List Nat) (v : Nat) (h : v ∈ l) :
    ∃ i, i < l.length ∧ l.getD i 0 = v := by
  obtain ⟨i, hi, he⟩ := List.getElem_of_mem h
  refine ⟨i, hi, ?_⟩
  rw [List.getD_eq_getElem?_getD, List.getElem?_eq_getElem hi]
  simpa using he

lemma mem_flatten_iff_getD (L : List (List Nat)) (x : Nat) :
    x ∈ L.flatten ↔ ∃ i, i < L.length ∧ x ∈ L.getD i [] := by
  rw [List.mem_flatten]
  constructor
  · rintro ⟨l, hl, hx⟩
    obtain ⟨i, hi, he⟩ := List.getElem_of_mem hl
    refine ⟨i, hi, ?_⟩
    rw [List.getD_eq_getElem?_getD, List.getElem?_eq_getElem hi]
    simpa [he] using hx
  · rintro ⟨i, hi, hx⟩
    refine ⟨L.getD i [], ?_, hx⟩
    exact getD_mem_of_lt L i [] hi

lemma matchEdgeMapping_getD (P T : Graph) (w : List Nat) (mi : Nat)
    (hmi : mi < P.edges.length) :
    (matchEdgeMapping P T w).getD mi [] =
      (List.range T.edges.length).filter (fun n =>
        (T.edges.getD n default).head ==
          w.getD (P.edges.getD mi default).head 0 &&
        (T.edges.getD n default).tail ==
          w.getD (P.edges.getD mi default).tail 0) := by
  rw [matchEdgeMapping, List.getD_eq_getElem?_getD, List.getElem?_map,
    List.getElem?_eq_getElem hmi]
  rw [List.getD_eq_getElem?_getD P.edges mi default,
    List.getElem?_eq_getElem hmi]
  rfl

lemma matchEdgeMapping_getD_nodup (P T : Graph) (w : List Nat)
    (mi : Nat) (hmi : mi < P.edges.length) :
    ((matchEdgeMapping P T w).getD mi []).Nodup := by
  rw [matchEdgeMapping_getD P T w mi hmi]
  exact (List.nodup_range _).filter _

lemma commonPhase_snd_hit_val (rule : Rule) (target : Graph)
    (nm : List Nat) (k : Nat) (hkK : k < rule.common.nodes.length)
    (hvB : kTarget rule nm k < target.nodes.length)
    (huniq : ∀ k' < rule.common.nodes.length,
      kTarget rule nm k' = kTarget rule nm k → k' = k) :
    (commonPhase rule target nm).2.getD (kTarget rule nm k) sentinel =
      (keptTargets target nm).length + k := by
  obtain ⟨rest, he, hgt⟩ :=
    range_split rule.common.nodes.length k hkK
  have hrestK : ∀ x ∈ rest, x < rule.common.nodes.length := by
    intro x hx
    have hxm : x ∈ List.range rule.common.nodes.length := by
      rw [he]
      exact List.mem_append.mpr (Or.inr (List.mem_cons_of_mem _ hx))
    exact List.mem_range.mp hxm
  rw [commonPhase, he, List.foldl_append, List.foldl_cons]
  rw [commonFold_snd_not_hit rule target nm rest _ _ sentinel
    (fun x hx hc => by
      have hxk := huniq x (hrestK x hx) hc
      have := hgt x hx
      omega)]
  set s := (List.range k).foldl (commonNodeStep rule target nm)
    (keepPhase target nm) with hs
  have hslen : s.2.length = target.nodes.length := by
    rw [hs, commonFold_snd_len, keepPhase_snd_len]
  have hs1len : s.1.length = (keptTargets target nm).length + k := by
    rw [hs, commonFold_fst_len, keepPhase, keepFold_fst]
    simp [keptTargets]
  show (s.2.set (kTarget rule nm k) s.1.length).getD
      (kTarget rule nm k) sentinel = _
  rw [getD_set_self _ _ _ _ (by omega), hs1len]

/-- C3 (amended with injectivity, no-parallel-edge and structural
well-formedness hypotheses; the unrestricted claim is false — see the
counterexample). For an identity rule (`L = R = K`), an injective match,
a parallel-edge-free `L` and well-formed rule tables, the rewritten
graph is isomorphic to the target. -/
theorem dpo_identity (rule : Rule) (T : Graph) (φ : GraphMapping)
    (hLwf : GraphWF rule.lhs) (hL1 : 1 ≤ rule.lhs.nodes.length)
    (hTwf : GraphWF T)
    (hφ : φ ∈ findMatches rule.lhs T)
    (hinj : φ.node_mapping.Nodup)
    (hnp : NoParallelEdges rule.lhs)
    (hid : identityRule rule)
    (hnWF : RuleNodeWF rule) (heWF : RuleEdgeWF rule) :
    GraphIso T (applyRule rule T φ) := by
  rw [findMatches_eq rule.lhs T hL1, findMatchesSpec] at hφ
  obtain ⟨w, hw, rfl⟩ := List.mem_map.mp hφ
  obtain ⟨hwlen, hwrng, hwsteps⟩ := (mem_okWords rule.lhs T w).mp hw
  have hmk : (mkMatch rule.lhs T w).node_mapping = w := rfl
  have hme : (mkMatch rule.lhs T w).edge_mapping =
      matchEdgeMapping rule.lhs T w := rfl
  rw [hmk] at hinj
  obtain ⟨id1, id2, id3, id4⟩ := hid
  have hc2l_len := hnWF.1
  have hc2l_nd := hnWF.2.2.1
  have hc2l_rng := hnWF.2.2.2.2.1
  have hKN : rule.common.nodes.length = rule.lhs.nodes.length := by
    have h1 := length_filter_mem_range rule.common_to_lhs.node_mapping
      rule.lhs.nodes.length hc2l_nd hc2l_rng
    have h2 : (List.range rule.lhs.nodes.length).filter
        (fun i => decide (i ∈ rule.common_to_lhs.node_mapping)) =
        List.range rule.lhs.nodes.length := by
      apply List.filter_eq_self.mpr
      intro x hx
      simpa using id1 x (List.mem_range.mp hx)
    rw [h2, List.length_range, hc2l_len] at h1
    omega
  have hNB : w.length ≤ T.nodes.length := by
    have h := length_filter_mem_range w T.nodes.length hinj hwrng
    have h2 := List.length_filter_le (fun i => decide (i ∈ w))
      (List.range T.nodes.length)
    rw [h] at h2
    simpa using h2
  have hkeptlen : (keptTargets T w).length =
      T.nodes.length - w.length := by
    rw [keptTargets, length_filter_not_mem_range w T.nodes.length
      hinj hwrng]
  have hrk : rkCount rule = 0 := by
    rw [rkCount]
    have hnil : (List.range rule.rhs.nodes.length).filter
        (fun x => decide (x ∉ rule.common_to_rhs.node_mapping)) = [] := by
      apply List.filter_eq_nil_iff.mpr
      intro x hx
      simpa using id2 x (List.mem_range.mp hx)
    rw [hnil]
    rfl
  have hkT_mem : ∀ k < rule.common.nodes.length, kTarget rule w k ∈ w := by
    intro k hk
    rw [kTarget]
    apply getD_mem_of_lt
    rw [hwlen]
    exact hc2l_rng _ (getD_mem_of_lt _ k 0 (by omega))
  have hkT_inj : ∀ k < rule.common.nodes.length,
      ∀ k2 < rule.common.nodes.length,
      kTarget rule w k = kTarget rule w k2 → k = k2 := by
    intro k hk k2 hk2 he
    rw [kTarget, kTarget] at he
    have hb1 : rule.common_to_lhs.node_mapping.getD k 0 < w.length := by
      rw [hwlen]
      exact hc2l_rng _ (getD_mem_of_lt _ k 0 (by omega))
    have hb2 : rule.common_to_lhs.node_mapping.getD k2 0 < w.length := by
      rw [hwlen]
      exact hc2l_rng _ (getD_mem_of_lt _ k2 0 (by omega))
    have hx := getD_inj_of_nodup w hinj _ _ hb1 hb2 he
    exact getD_inj_of_nodup rule.common_to_lhs.node_mapping hc2l_nd
      k k2 (by omega) (by omega) hx
  have hcover : ∀ v < T.nodes.length,
      v ∉ w ∨ ∃ k < rule.common.nodes.length, kTarget rule w k = v := by
    intro v hv
    by_cases hvw : v ∈ w
    · right
      obtain ⟨x, hx, hxe⟩ := exists_getD_of_mem w v hvw
      have hxN : x < rule.lhs.nodes.length := by omega
      obtain ⟨k, hk, hke⟩ := exists_getD_of_mem
        rule.common_to_lhs.node_mapping x (id1 x hxN)
      refine ⟨k, by omega, ?_⟩
      rw [kTarget, hke, hxe]
    · left
      exact hvw
  have hσkept : ∀ v, v < T.nodes.length → v ∉ w →
      (commonPhase rule T w).2.getD v sentinel = keptPos w v := by
    intro v hv hnot
    have hmiss : ∀ k < rule.common.nodes.length,
        kTarget rule w k ≠ v :=
      fun k hk hc => hnot (hc ▸ hkT_mem k hk)
    rw [commonPhase_snd_miss rule T w v sentinel hmiss,
      keepPhase_snd T w v hv, if_neg hnot]
  have hσhit : ∀ k, k < rule.common.nodes.length →
      (commonPhase rule T w).2.getD (kTarget rule w k) sentinel =
        (keptTargets T w).length + k := by
    intro k hk
    apply commonPhase_snd_hit_val rule T w k hk
    · exact hwrng _ (hkT_mem k hk)
    · intro k2 hk2 he
      exact hkT_inj k2 hk2 k hk he
  have hkeptpos : ∀ v, v < T.nodes.length → v ∉ w →
      keptPos w v < (keptTargets T w).length ∧
        (keptTargets T w).getD (keptPos w v) 0 = v := by
    intro v hv hnot
    have hfp := filter_range_getD (fun i => decide (i ∉ w))
      T.nodes.length v hv (by simpa using hnot)
    rw [keptPos, keptTargets]
    exact ⟨hfp.2, hfp.1⟩
  have hσlen : (commonPhase rule T w).2.length = T.nodes.length :=
    commonPhase_snd_len rule T w
  have hσ0 : ∀ i, i < T.nodes.length →
      (commonPhase rule T w).2.getD i 0 =
        (commonPhase rule T w).2.getD i sentinel := by
    intro i hi
    exact getD_default_irrel _ i 0 sentinel (by omega)
  have hresN : (applyRule rule T (mkMatch rule.lhs T w)).nodes.length =
      T.nodes.length := by
    rw [applyRule_nodes, hmk, resultNodes_length, hrk, hkeptlen, hKN,
      ← hwlen]
    omega
  refine ⟨(commonPhase rule T w).2, hresN, hσlen, ?_, ?_, ?_, ?_⟩
  · -- in-range entries
    intro i hi
    rw [hσ0 i hi]
    rcases hcover i hi with h | ⟨k, hk, hke⟩
    · rw [hσkept i hi h]
      have := (hkeptpos i hi h).1
      omega
    · rw [← hke, hσhit k hk]
      omega
  · -- injectivity
    apply nodup_of_getD_inj
    intro i hi j hj he
    rw [hσlen] at hi hj
    rw [hσ0 i hi, hσ0 j hj] at he
    rcases hcover i hi with hci | ⟨k, hk, hke⟩
    · rcases hcover j hj with hcj | ⟨k2, hk2, hke2⟩
      · rw [hσkept i hi hci, hσkept j hj hcj] at he
        have h1 := (hkeptpos i hi hci).2
        have h2 := (hkeptpos j hj hcj).2
        rw [← h1, ← h2, he]
      · rw [hσkept i hi hci, ← hke2, hσhit k2 hk2] at he
        have := (hkeptpos i hi hci).1
        omega
    · rcases hcover j hj with hcj | ⟨k2, hk2, hke2⟩
      · rw [← hke, hσhit k hk, hσkept j hj hcj] at he
        have := (hkeptpos j hj hcj).1
        omega
      · rw [← hke, ← hke2, hσhit k hk, hσhit k2 hk2] at he
        have hkk : k = k2 := by omega
        rw [← hke, ← hke2, hkk]
  · -- node attributes
    intro i hi
    rw [applyRule_nodes, hmk, hσ0 i hi]
    rcases hcover i hi with h | ⟨k, hk, hke⟩
    · rw [hσkept i hi h, resultNodes_eq]
      obtain ⟨hlt, hgd⟩ := hkeptpos i hi h
      rw [getD_append_small _ _ _ _ (by simpa using hlt)]
      rw [getD_map_lt _ _ _ _ 0 hlt, hgd]
    · rw [← hke, hσhit k hk]
      exact result_node_at_common rule T w k hk
  · -- edges
    rw [applyRule_edges, applyEdges_eq, hmk, hme]
    have hp3 : ((List.range rule.rhs.edges.length).filter
        (fun m =>
          decide (m ∉ rule.common_to_rhs.edge_mapping.flatten))) =
        [] := by
      apply List.filter_eq_nil_iff.mpr
      intro x hx
      simpa using id4 x (List.mem_range.mp hx)
    rw [hp3]
    simp only [List.map_nil, List.append_nil]
    rw [show edgeXlat (commonPhase rule T w).2 =
        xlatEdge (commonPhase rule T w).2 from rfl]
    rw [map_eq_map_range (xlatEdge (commonPhase rule T w).2) T.edges]
    rw [← List.map_flatMap]
    rw [← List.map_append]
    refine List.Perm.map _ ?_
    have hlenEM : (matchEdgeMapping rule.lhs T w).length =
        rule.lhs.edges.length := by
      rw [matchEdgeMapping]
      simp
    have hlhsE_lt : ∀ m, m < rule.common.edges.length →
        lhsEdgeOf rule m < rule.lhs.edges.length := by
      intro m hm
      exact (heWF.2.2.1 _ (getD_mem_of_lt _ m []
        (by rw [heWF.1]; omega))).2
    have hlhsE_inj : ∀ m, m < rule.common.edges.length →
        ∀ m2, m2 < rule.common.edges.length →
        lhsEdgeOf rule m = lhsEdgeOf rule m2 → m = m2 := by
      intro m hm m2 hm2 he
      have hclen : (c2lFirsts rule).length = rule.common.edges.length := by
        rw [c2lFirsts, List.length_map, heWF.1]
      have hg1 : (c2lFirsts rule).getD m 0 = lhsEdgeOf rule m := by
        rw [c2lFirsts, getD_map_lt (fun p : List Nat => p.headD 0) _ m 0 []
          (by rw [heWF.1]; omega), lhsEdgeOf]
      have hg2 : (c2lFirsts rule).getD m2 0 = lhsEdgeOf rule m2 := by
        rw [c2lFirsts, getD_map_lt (fun p : List Nat => p.headD 0) _ m2 0 []
          (by rw [heWF.1]; omega), lhsEdgeOf]
      apply getD_inj_of_nodup (c2lFirsts rule) heWF.2.2.2.2.1 m m2
        (by omega) (by omega)
      rw [hg1, hg2, he]
    have hflatmem : ∀ x, x ∈ (matchEdgeMapping rule.lhs T w).flatten ↔
        ∃ m, m < rule.common.edges.length ∧
          x ∈ (matchEdgeMapping rule.lhs T w).getD
            (lhsEdgeOf rule m) [] := by
      intro x
      rw [mem_flatten_iff_getD]
      constructor
      · rintro ⟨ei, hei, hx⟩
        rw [hlenEM] at hei
        obtain ⟨m, hm, hge⟩ := exists_getD_of_mem (c2lFirsts rule) ei
          (id3 ei hei)
        have hmlen : m < rule.common_to_lhs.edge_mapping.length := by
          have h9 := hm
          rw [c2lFirsts, List.length_map] at h9
          exact h9
        have hmK : m < rule.common.edges.length := by
          rw [← heWF.1]
          exact hmlen
        have hlhsE : lhsEdgeOf rule m = ei := by
          rw [lhsEdgeOf, ← hge, c2lFirsts,
            getD_map_lt (fun p : List Nat => p.headD 0) _ m 0 [] hmlen]
        refine ⟨m, hmK, ?_⟩
        rw [hlhsE]
        exact hx
      · rintro ⟨m, hm, hx⟩
        refine ⟨lhsEdgeOf rule m, ?_, hx⟩
        rw [hlenEM]
        exact hlhsE_lt m hm
    have hcop_nodup : ((List.range rule.common.edges.length).flatMap
        (fun m => (matchEdgeMapping rule.lhs T w).getD
          (lhsEdgeOf rule m) [])).Nodup := by
      rw [List.flatMap_def, List.nodup_flatten]
      constructor
      · intro l hl
        obtain ⟨m, hm, rfl⟩ := List.mem_map.mp hl
        exact matchEdgeMapping_getD_nodup rule.lhs T w _
          (hlhsE_lt m (List.mem_range.mp hm))
      · apply List.Pairwise.map
        · exact fun a b h => h
        · have hpw := List.pairwise_lt_range rule.common.edges.length
          apply hpw.imp_of_mem
          intro m m2 hmm hmm2 hlt
          have hm := List.mem_range.mp hmm
          have hm2 := List.mem_range.mp hmm2
          intro te hte hte2
          have hne : lhsEdgeOf rule m ≠ lhsEdgeOf rule m2 := by
            intro hc
            have := hlhsE_inj m hm m2 hm2 hc
            omega
          have h1 := (mem_matchEdgeMapping rule.lhs T w _
            (hlhsE_lt m hm) te).mp hte
          have h2 := (mem_matchEdgeMapping rule.lhs T w _
            (hlhsE_lt m2 hm2) te).mp hte2
          obtain ⟨hpe1h, hpe1t⟩ := hLwf _ (getD_mem_of_lt rule.lhs.edges
            (lhsEdgeOf rule m) default (hlhsE_lt m hm))
          obtain ⟨hpe2h, hpe2t⟩ := hLwf _ (getD_mem_of_lt rule.lhs.edges
            (lhsEdgeOf rule m2) default (hlhsE_lt m2 hm2))
          have hhh : (rule.lhs.edges.getD (lhsEdgeOf rule m)
              default).head =
              (rule.lhs.edges.getD (lhsEdgeOf rule m2) default).head := by
            apply getD_inj_of_nodup w hinj _ _ (by omega) (by omega)
            rw [← h1.2.1, h2.2.1]
          have htt : (rule.lhs.edges.getD (lhsEdgeOf rule m)
              default).tail =
              (rule.lhs.edges.getD (lhsEdgeOf rule m2) default).tail := by
            apply getD_inj_of_nodup w hinj _ _ (by omega) (by omega)
            rw [← h1.2.2, h2.2.2]
          rcases hnp (lhsEdgeOf rule m) (hlhsE_lt m hm)
            (lhsEdgeOf rule m2) (hlhsE_lt m2 hm2) hne with hc | hc
          · exact hc hhh
          · exact hc htt
    have hinflat : List.Perm
        ((List.range rule.common.edges.length).flatMap
          (fun m => (matchEdgeMapping rule.lhs T w).getD
            (lhsEdgeOf rule m) []))
        ((List.range T.edges.length).filter
          (fun m =>
            decide (m ∈ (matchEdgeMapping rule.lhs T w).flatten))) := by
      apply List.perm_of_nodup_nodup_toFinset_eq hcop_nodup
        ((List.nodup_range _).filter _)
      ext x
      simp only [List.mem_toFinset, List.mem_flatMap, List.mem_filter,
        List.mem_range, decide_eq_true_eq]
      constructor
      · rintro ⟨m, hm, hx⟩
        have hfacts := (mem_matchEdgeMapping rule.lhs T w _
          (hlhsE_lt m hm) x).mp hx
        refine ⟨hfacts.1, ?_⟩
        rw [hflatmem x]
        exact ⟨m, hm, hx⟩
      · rintro ⟨hxr, hxf⟩
        rw [hflatmem x] at hxf
        obtain ⟨m, hm, hx⟩ := hxf
        exact ⟨m, hm, hx⟩
    have hpred : (fun x =>
        !(decide (x ∈ (matchEdgeMapping rule.lhs T w).flatten))) =
        (fun x =>
          decide (x ∉ (matchEdgeMapping rule.lhs T w).flatten)) := by
      funext x
      rw [decide_not]
    have hsplit := List.filter_append_perm
      (fun m => decide (m ∈ (matchEdgeMapping rule.lhs T w).flatten))
      (List.range T.edges.length)
    rw [hpred] at hsplit
    exact hsplit.symm.trans
      (List.perm_append_comm.trans
        (List.Perm.append_left _ hinflat.symm))

theorem dpo_identity_cex :
    ∃ rule φ, createRuleFromGraph gDupEx = Except.ok rule ∧
      identityRule rule ∧ φ ∈ findMatches rule.lhs tOneEx ∧
      ¬ GraphIso tOneEx (applyRule rule tOneEx φ) := by
  refine ⟨(createRuleFromGraph gDupEx).toOption.getD default,
    ⟨[0, 0], []⟩, rfl, by decide, by decide, ?_⟩
  rintro ⟨σ, hiso⟩
  exact absurd hiso.1 (by decide)

theorem dpo_identity_witness :
    GraphWF ruleIdEx.lhs ∧ 1 ≤ ruleIdEx.lhs.nodes.length ∧
    GraphWF tParEx ∧
    (⟨[0, 1], [[0, 1]]⟩ : GraphMapping) ∈
      findMatches ruleIdEx.lhs tParEx ∧
    (GraphMapping.node_mapping ⟨[0, 1], [[0, 1]]⟩).Nodup ∧
    NoParallelEdges ruleIdEx.lhs ∧ identityRule ruleIdEx ∧
    RuleNodeWF ruleIdEx ∧ RuleEdgeWF ruleIdEx ∧
    GraphIso tParEx (applyRule ruleIdEx tParEx ⟨[0, 1], [[0, 1]]⟩) :=
  ⟨by decide, by decide, by decide, by decide, by decide, by decide,
    by decide, by decide, by decide,
    dpo_identity ruleIdEx tParEx ⟨[0, 1], [[0, 1]]⟩ (by decide)
      (by decide) (by decide) (by decide) (by decide) (by decide)
      (by decide) (by decide) (by decide)⟩

end RobotDesign
